import Mathlib

/-!
# GTA-ASM: the miss2 decompiler core

A shallow embedding of `src/miss2/constructs.hpp`, `src/miss2/context.hpp`,
`src/miss2/script.hpp` and `src/miss2/decompiler.hpp`, and of the functions of
`src/util.hpp`, `src/main.cpp` and `src/opcodes.hpp` that they are used with.

Conventions of the embedding.

* A byte is a `Fin 256`; the script buffer is a `List Byte` and the cursor
  `scriptPointer` is the index `scriptPointer - bytes` into it.
* The C++ code dereferences raw pointers and indexes vectors without checks.
  Every such access is modelled as a checked access that yields a `Fault`
  when the C++ access has no defined result; a result `Except.ok` therefore
  means that the run of the C++ code performed defined accesses only.
* `std::map` is an association list kept in key order, `std::set<Goto>` a list
  kept in the order of `Goto::operator<`, `std::vector` a list.
* Multi-byte reads are little-endian (the platforms the tool is built for).
* The field `offset` of a command is an `int32_t`: a value stored into it is
  narrowed with `toInt32`, so that the cursor is stored as it is only below
  2^31.
-/

namespace miss2

/-- One byte of the script buffer (`uint8_t`). -/
abbrev Byte := Fin 256

/-- The ways in which a run of the C++ code leaves defined behaviour, and the
exhaustion of the recursion budget of a fuelled function. -/
inductive Fault where
  /-- A read of the script buffer at `index`, which is at or beyond its length. -/
  | outOfBounds (index : Nat)
  /-- The access `parameters[0]` on a command without operands. -/
  | noOperand
  /-- The access `commands[index]` with `index` at or beyond `commands.size()`. -/
  | badIndex (index : Nat)
  /-- A `Goto` built from a command that is not jump-class (fields left unset). -/
  | notJump
  /-- The recursion budget of a fuelled function ran out. -/
  | outOfFuel
  deriving DecidableEq, Repr

/-! ## `constructs.hpp`: data types -/

/-! The `DataType` enum is a `uint8_t` and is kept as the number it is, because
`Command::read` casts arbitrary buffer bytes to it. -/

namespace DataType
def EOAL : Nat := 0x0
def S32 : Nat := 0x1
def GlobalIntFloat : Nat := 0x2
def LocalIntFloat : Nat := 0x3
def S8 : Nat := 0x4
def S16 : Nat := 0x5
def F32 : Nat := 0x6
def GlobalIntFloatArr : Nat := 0x7
def LocalIntFloatArr : Nat := 0x8
def String8 : Nat := 0x9
def GlobalString8 : Nat := 0xA
def LocalString8 : Nat := 0xB
def GlobalString8Arr : Nat := 0xC
def LocalString8Arr : Nat := 0xD
def StringVar : Nat := 0xE
def String16 : Nat := 0xF
def GlobalString16 : Nat := 0x10
def LocalString16 : Nat := 0x11
def GlobalString16Arr : Nat := 0x12
def LocalString16Arr : Nat := 0x13
def Unknown : Nat := 0x14
end DataType

/-- The struct `Value`: payload bytes, the `bytesSet` flag, the type tag and
the `size` field. -/
structure Value where
  bytes : List Byte := []
  bytesSet : Bool := false
  type : Nat := DataType.Unknown
  size : Nat := 0
  deriving DecidableEq, Repr

/-- The method `Value::setBytes(bytesValue, len)`, given the bytes copied. -/
def Value.setBytes (v : Value) (bs : List Byte) : Value :=
  { v with bytesSet := true, bytes := bs }

/-- Little-endian value of a list of bytes. -/
def leNat : List Byte → Nat
  | [] => 0
  | b :: bs => b.val + 256 * leNat bs

/-- Two's-complement reading of an integer as an `int32_t`. -/
def toInt32 (x : Int) : Int := (x + 2147483648) % 4294967296 - 2147483648

/-- The call `std::abs` on an `int32_t`, stored back into an `int32_t`. -/
def abs32 (x : Int) : Int := toInt32 (Int.ofNat x.natAbs)

/-- The method `Value::cast<int32_t>()`: the first four payload bytes when
there are that many, and `int32_t{}` otherwise. -/
def Value.castInt32 (v : Value) : Int :=
  if 4 ≤ v.bytes.length then toInt32 (Int.ofNat (leNat (v.bytes.take 4))) else 0

/-- The function `getValueSize`, on the type tag of the value. -/
def getValueSize (type : Nat) : Nat :=
  if type = DataType.EOAL then 0
  else if type = DataType.S32 then 4
  else if type = DataType.GlobalIntFloat then 2
  else if type = DataType.LocalIntFloat then 2
  else if type = DataType.S8 then 1
  else if type = DataType.S16 then 2
  else if type = DataType.F32 then 4
  else if type = DataType.GlobalIntFloatArr then 6
  else if type = DataType.LocalIntFloatArr then 6
  else if type = DataType.String8 then 8
  else if type = DataType.GlobalString8 then 2
  else if type = DataType.LocalString8 then 2
  else if type = DataType.GlobalString8Arr then 6
  else if type = DataType.LocalString8Arr then 6
  else if type = DataType.StringVar then 0
  else if type = DataType.String16 then 16
  else if type = DataType.GlobalString16 then 2
  else if type = DataType.LocalString16 then 2
  else if type = DataType.GlobalString16Arr then 6
  else if type = DataType.LocalString16Arr then 6
  else 0

/-- The struct `Command`, for canonical definitions and occurrences alike. -/
structure Command where
  name : String := ""
  opcode : Nat := 0
  offset : Int := -1
  parameters : List Value := []
  scriptIndex : Nat := 0
  deriving DecidableEq, Repr

/-- The conversion `Command::operator bool`: the name is not empty. -/
def Command.toBool (c : Command) : Bool := decide (c.name ≠ "")

/-- The static `Command::nullCommand`, value-initialised. -/
def Command.nullCommand : Command := {}

/-! ## Ordered containers -/

section OrderedMap
variable {κ : Type} {β : Type} [DecidableEq κ] [LT κ] [DecidableRel (α := κ) (· < ·)]

/-- The lookup `std::map::find`. -/
def mapFind : List (κ × β) → κ → Option β
  | [], _ => none
  | (k', v) :: m, k => if k' = k then some v else mapFind m k

/-- The test `std::map::count(k) != 0`. -/
def mapContains (m : List (κ × β)) (k : κ) : Bool := (mapFind m k).isSome

/-- Insertion of a key that is absent, at its place in key order. -/
def mapInsertNew : List (κ × β) → κ → β → List (κ × β)
  | [], k, v => [(k, v)]
  | (k', v') :: m, k, v =>
    if k < k' then (k, v) :: (k', v') :: m else (k', v') :: mapInsertNew m k v

/-- Update in place of the value stored under a key that is present. -/
def mapAdjust : List (κ × β) → κ → (β → β) → List (κ × β)
  | [], _, _ => []
  | (k', v') :: m, k, f =>
    if k' = k then (k', f v') :: m else (k', v') :: mapAdjust m k f

/-- The access `m[k]` of a `std::map` followed by an update `f` of the element
referred to: a missing key is first inserted with the default value `dflt`. -/
def mapModify (m : List (κ × β)) (k : κ) (dflt : β) (f : β → β) : List (κ × β) :=
  if mapContains m k then mapAdjust m k f else mapInsertNew m k (f dflt)

/-- The assignment `m[k] = v` of a `std::map`. -/
def mapSet (m : List (κ × β)) (k : κ) (v : β) : List (κ × β) :=
  mapModify m k v (fun _ => v)

end OrderedMap

/-! ## `opcodes.hpp` and `context.hpp`: jump edges -/

namespace Opcode
def Wait : Nat := 0x1
def Jump : Nat := 0x2
def JumpIfFalse : Nat := 0x4D
def EndThread : Nat := 0x4E
def Call : Nat := 0x50
def Return : Nat := 0x51
def If : Nat := 0xD6
end Opcode

/-- The struct `Goto`: a jump edge. -/
structure Goto where
  source : Int
  dest : Int
  jumpOpcode : Nat
  deriving DecidableEq, Repr

/-- The comparison `Goto::operator<`: `std::tie(source, dest, jumpOpcode)`
compared as tuples, that is, field by field from the left. -/
def Goto.lt (a b : Goto) : Bool :=
  if a.source < b.source then true
  else if b.source < a.source then false
  else if a.dest < b.dest then true
  else if b.dest < a.dest then false
  else decide (a.jumpOpcode < b.jumpOpcode)

/-- The static `Goto::isJumpOpcode`. -/
def Goto.isJumpOpcode (opcode : Nat) : Bool :=
  opcode == Opcode.Jump || opcode == Opcode.JumpIfFalse || opcode == Opcode.Call

/-- The constructor `Goto::Goto(Command)`. A command that is not jump-class
leaves the fields unset, and `parameters[0]` needs an operand. -/
def Goto.ofCommand (jumpCommand : Command) : Except Fault Goto :=
  if Goto.isJumpOpcode jumpCommand.opcode then
    match jumpCommand.parameters with
    | [] => .error .noOperand
    | p :: _ =>
      .ok { source := abs32 jumpCommand.offset
            dest := abs32 p.castInt32
            jumpOpcode := jumpCommand.opcode }
  else .error .notJump

/-- Whether a `std::set<Goto>` holds an element equivalent to `x`, that is,
one with neither `e < x` nor `x < e`. -/
def setHas (s : List Goto) (x : Goto) : Bool :=
  s.any (fun e => !Goto.lt e x && !Goto.lt x e)

/-- Placement of a new element at its position in the order of `operator<`. -/
def setPlace : List Goto → Goto → List Goto
  | [], x => [x]
  | e :: s, x => if Goto.lt x e then x :: e :: s else e :: setPlace s x

/-- The call `std::set<Goto>::insert`: nothing happens when an equivalent
element is present. -/
def setInsert (s : List Goto) (x : Goto) : List Goto :=
  if setHas s x then s else setPlace s x

/-! ## `constructs.hpp`: the instruction decoder -/

/-- The opcode registry `Command::knownCommands`, a `std::map<uint16_t, Command>`. -/
abbrev OpcodeTable := List (Nat × Command)

/-- The static `Command::registerOpcode`. -/
def Command.registerOpcode (table : OpcodeTable) (opcode : Nat) (cmd : Command) : OpcodeTable :=
  mapSet table opcode cmd

/-- The static `Command::get`: the registered command, else `nullCommand`. -/
def Command.get (table : OpcodeTable) (op : Nat) : Command :=
  match mapFind table op with
  | some c => c
  | none => Command.nullCommand

/-- The read `*(scriptPointer)` of one byte at index `i` of the buffer. -/
def readByte (bytes : List Byte) (i : Nat) : Except Fault Byte :=
  match bytes[i]? with
  | some b => .ok b
  | none => .error (.outOfBounds i)

/-- The read `*(uint16_t *)scriptPointer` of the two bytes at `i` and `i + 1`. -/
def readU16 (bytes : List Byte) (i : Nat) : Except Fault Nat :=
  match readByte bytes i with
  | .error e => .error e
  | .ok lo =>
    match readByte bytes (i + 1) with
    | .error e => .error e
    | .ok hi => .ok (lo.val + 256 * hi.val)

/-- The copy loop `for(int i = 0; i < param.size; ++i) ... = *(scriptPointer++)`:
`n` bytes read one after the other from index `cur`. -/
def readBytes (bytes : List Byte) : Nat → Nat → Except Fault (List Byte)
  | 0, _ => .ok []
  | n + 1, cur =>
    match readByte bytes cur with
    | .error e => .error e
    | .ok b =>
      match readBytes bytes n (cur + 1) with
      | .error e => .error e
      | .ok bs => .ok (b :: bs)

/-- The first two statements of the operand loop of `Command::read`: the tag
read becomes the type of the operand and, unless it is `Unknown` or `EOAL`,
`getValueSize` of it becomes its size. -/
def Command.typed (param : Value) (tag : Nat) : Value :=
  if tag ≠ DataType.Unknown ∧ tag ≠ DataType.EOAL then
    { param with type := tag, size := getValueSize tag }
  else { param with type := tag }

/-- The assignment `param.size = n`. -/
def Value.setSize (v : Value) (n : Nat) : Value := { v with size := n }

/-- The last statement of the operand loop of `Command::read`: when the size
of the operand is not zero, that many bytes are copied from the cursor. -/
def Command.readPayload (bytes : List Byte) (param : Value) (cur : Nat) :
    Except Fault (Value × Nat) :=
  if param.size ≠ 0 then
    match readBytes bytes param.size cur with
    | .error e => .error e
    | .ok bs => .ok (param.setBytes bs, cur + param.size)
  else .ok (param, cur)

/-- The body of the operand loop of `Command::read` for one operand `param`
(a copy of the definition's operand), with the cursor at `cur`. Returns the
decoded operand and the cursor after it. -/
def Command.readParam (bytes : List Byte) (param : Value) (cur : Nat) :
    Except Fault (Value × Nat) :=
  match readByte bytes cur with
  | .error e => .error e
  | .ok tag =>
    let typed := Command.typed param tag.val
    if typed.type = DataType.StringVar then
      match readByte bytes (cur + 1) with
      | .error e => .error e
      | .ok len => Command.readPayload bytes (typed.setSize len.val) (cur + 2)
    else Command.readPayload bytes typed (cur + 1)

/-- The operand loop of `Command::read` over the operands of `foundCommand`. -/
def Command.readParams (bytes : List Byte) : List Value → Nat → Except Fault (List Value × Nat)
  | [], cur => .ok ([], cur)
  | param :: rest, cur =>
    match Command.readParam bytes param cur with
    | .error e => .error e
    | .ok (v, cur1) =>
      match Command.readParams bytes rest cur1 with
      | .error e => .error e
      | .ok (vs, cur2) => .ok (v :: vs, cur2)

/-- The writes `commandRef.parameters[pIndex++].type = param.type`: the types
found are stored into the operands of the registered definition. -/
def Command.backfill (defParams : List Value) (found : List Value) : List Value :=
  List.zipWith (fun d v => { d with type := v.type }) defParams found

/-- The static `Command::read` at cursor `cur`: the occurrence, the cursor
after it, and the registry after the back-fill of operand types. -/
def Command.read (table : OpcodeTable) (bytes : List Byte) (cur : Nat) :
    Except Fault (Command × Nat × OpcodeTable) :=
  match readU16 bytes cur with
  | .error e => .error e
  | .ok opcode =>
    let foundCommand := Command.get table opcode
    if !foundCommand.toBool then
      .ok ({ foundCommand with opcode := opcode }, cur + 2, table)
    else
      match Command.readParams bytes foundCommand.parameters (cur + 2) with
      | .error e => .error e
      | .ok (ps, cur1) =>
        .ok ({ foundCommand with parameters := ps }, cur1,
             mapAdjust table opcode
               (fun d => { d with parameters := Command.backfill d.parameters ps }))

/-! ## `context.hpp`: recovered structures -/

/-- The conversion of an integer to `size_t`, a 64-bit unsigned integer. -/
def toSizeT (x : Int) : Nat := (x % 18446744073709551616).toNat

/-- The conversion of a `size_t` to `int32_t`, as when a `size_t` is used as a
key of a map keyed by `int32_t`. -/
def sizeToInt32 (n : Nat) : Int := toInt32 (Int.ofNat n)

/-- The method `Value::cast<uint8_t>()`: the first payload byte when there is
one, and `uint8_t{}` otherwise. -/
def Value.castUInt8 (v : Value) : Nat :=
  match v.bytes with
  | b :: _ => b.val
  | [] => 0

/-- The method `Value::cast<uint16_t>()`: the first two payload bytes when
there are that many, and `uint16_t{}` otherwise. -/
def Value.castUInt16 (v : Value) : Nat :=
  if 2 ≤ v.bytes.length then leNat (v.bytes.take 2) else 0

/-- The enum `FullIf::FlowType`. -/
inductive FlowType where
  | FlowIf
  | FlowWhile
  deriving DecidableEq, Repr

/-- The enum `FullIf::CombinationType`. -/
inductive CombinationType where
  | Invalid
  | None
  | And
  | Or
  deriving DecidableEq, Repr

/-- The struct `FullIf`. The default value is the value-initialised struct:
the members without an initialiser are zero. -/
structure FullIf where
  flowType : FlowType := .FlowIf
  combination : CombinationType := .None
  conditionCount : Nat := 0
  jifOffset : Int := 0
  conditionStartOffset : Nat := 0
  conditionEndOffset : Nat := 0
  bodyStartOffset : Nat := 0
  bodyEndOffset : Nat := 0
  deriving DecidableEq, Repr

/-- The static `FullIf::ifInfo`. The count is a `uint8_t`, so that the
subtraction `numType - 19` wraps around below 19. -/
def FullIf.ifInfo (cmd : Command) : Except Fault (Nat × CombinationType) :=
  match cmd.parameters with
  | [] => .error .noOperand
  | p :: _ =>
    let numType := p.castUInt8
    if numType = 0 then .ok (1, .None)
    else if numType < 8 then .ok ((numType + 1) % 256, .And)
    else if numType < 28 then .ok ((numType + 256 - 19) % 256, .Or)
    else .ok (0, .Invalid)

/-- The struct `Procedure`. -/
structure Procedure where
  beginOffset : Nat := 0
  endOffset : Nat := 0
  name : String := ""
  deriving DecidableEq, Repr

/-- The struct `Label`. -/
structure Label where
  offset : Int := 0
  name : String := ""
  deriving DecidableEq, Repr

/-- The struct `GlobalVar`. -/
structure GlobalVar where
  referenceType : Nat := 0
  valueType : Nat := 0
  offset : Nat := 0
  deriving DecidableEq, Repr

/-- The struct `OffsetRange`. -/
structure OffsetRange where
  start : Nat := 0
  stop : Nat := 0
  deriving DecidableEq, Repr

/-- The constructor `OffsetRange(A a)`. -/
def OffsetRange.single (a : Int) : OffsetRange := { start := toSizeT a, stop := toSizeT a }

/-- The constructor `OffsetRange(A a, B b)`. -/
def OffsetRange.pair (a b : Int) : OffsetRange := { start := toSizeT a, stop := toSizeT b }

/-- The struct `ForLoop`. -/
structure ForLoop where
  counterIsLocal : Bool := false
  counterValue : Value := {}
  setupRange : OffsetRange := {}
  checkRange : OffsetRange := {}
  incRange : OffsetRange := {}
  jumpRange : OffsetRange := {}
  deriving DecidableEq, Repr

/-! ## `script.hpp`: the script and its jump indices -/

/-- The struct `Script`: the commands, the offset index, the two jump indices
and the maps of recovered structures. -/
structure Script where
  commands : List Command := []
  offsetsToIndices : List (Int × Nat) := []
  jumpSources : List (Int × List Goto) := []
  jumpDestinations : List (Int × List Goto) := []
  ifStatements : List (Int × FullIf) := []
  allProcedures : List (Int × Procedure) := []
  labelLocations : List (Int × Label) := []
  globals : List (Nat × GlobalVar) := []
  forLoops : List (Int × ForLoop) := []
  deriving DecidableEq, Repr

/-- The method `Script::addJump`. -/
def Script.addJump (s : Script) (jump : Goto) : Script :=
  let s1 : Script :=
    { s with jumpSources := mapModify s.jumpSources jump.source [] (fun set => setInsert set jump) }
  { s1 with
    jumpDestinations := mapModify s1.jumpDestinations jump.dest [] (fun set => setInsert set jump) }

/-- The loop of `Script::regenJumpInfo` over the commands still to visit. -/
def Script.regenLoop : List Command → Script → Except Fault Script
  | [], s => .ok s
  | cmd :: rest, s =>
    if Goto.isJumpOpcode cmd.opcode then
      match Goto.ofCommand cmd with
      | .error e => .error e
      | .ok jump => Script.regenLoop rest (s.addJump jump)
    else Script.regenLoop rest s

/-- The two calls `jumpSources.clear(); jumpDestinations.clear();`. -/
def Script.clearJumps (s : Script) : Script :=
  { s with jumpSources := [], jumpDestinations := [] }

/-- The method `Script::regenJumpInfo`. -/
def Script.regenJumpInfo (s : Script) : Except Fault Script :=
  Script.regenLoop s.commands s.clearJumps

/-- The method `Script::optimizeJump`, with a budget `fuel` of nested calls:
the C++ recursion has no bound of its own. -/
def Script.optimizeJump (s : Script) : Nat → Goto → Command → Except Fault Command
  | 0, _, _ => .error .outOfFuel
  | fuel + 1, jump, jumpCommand =>
    match mapFind s.offsetsToIndices jump.source with
    | none => .ok jumpCommand
    | some i1 =>
      match mapFind s.offsetsToIndices jump.dest with
      | none => .ok jumpCommand
      | some i2 =>
        match s.commands[i1]? with
        | none => .error (.badIndex i1)
        | some firstCommand =>
          match s.commands[i2]? with
          | none => .error (.badIndex i2)
          | some secondCommand =>
            if !Goto.isJumpOpcode firstCommand.opcode
                || !Goto.isJumpOpcode secondCommand.opcode then
              .ok jumpCommand
            else if secondCommand.opcode == Opcode.Call
                || secondCommand.opcode == Opcode.Jump then
              match firstCommand.parameters, secondCommand.parameters with
              | _ :: ps, q :: _ =>
                let optimizedJumpCommand : Command := { firstCommand with parameters := q :: ps }
                match Goto.ofCommand optimizedJumpCommand with
                | .error e => .error e
                | .ok next => Script.optimizeJump s fuel next optimizedJumpCommand
              | _, _ => .error .noOperand
            else .ok jumpCommand

/-! ## `script.hpp`: conditionals -/

/-- The loop `for(++i; i < maxConditionIndex; ++i)` of `ifStatementFromIndex`
from index `j` over `count` more indices: `false` when it cancels at a command
whose name is empty, `true` when it runs to the end. -/
def Script.conditionsNamed (commands : List Command) (j : Nat) : Nat → Except Fault Bool
  | 0 => .ok true
  | count + 1 =>
    match commands[j]? with
    | none => .error (.badIndex j)
    | some c => if c.name = "" then .ok false else Script.conditionsNamed commands (j + 1) count

/-- The loop `while(i < commands.size() and commands[i].offset != jifOffset)`
of `ifStatementFromIndex` over the commands from index `i` on: the value of
`fullIf.bodyEndOffset` after it, from its value `last` before it. -/
def Script.bodyEnd (jifOffset : Int) : List Command → Nat → Nat
  | [], last => last
  | c :: rest, last =>
    if c.offset ≠ jifOffset then Script.bodyEnd jifOffset rest (toSizeT c.offset) else last

/-- The branch of `ifStatementFromIndex` taken for an `If` command `ifCmd` at
index `i` that is not yet a key of `ifStatements`. The declaration
`FullIf fullIf;` leaves `bodyEndOffset` without a value: `unset` stands for
what it holds. -/
def Script.ifCandidate (commands : List Command) (unset : Nat) (i : Nat) (ifCmd : Command) :
    Except Fault FullIf :=
  let defaultReturn : FullIf := { combination := .Invalid }
  match FullIf.ifInfo ifCmd with
  | .error e => .error e
  | .ok (count, combination) =>
    let maxConditionIndex := i + count
    match Script.conditionsNamed commands (i + 1) (maxConditionIndex - (i + 1)) with
    | .error e => .error e
    | .ok false => .ok defaultReturn
    | .ok true =>
      let iEnd := max (i + 1) maxConditionIndex
      match commands[iEnd]? with
      | none => .error (.badIndex iEnd)
      | some endCmd =>
        match commands[iEnd + 1]? with
        | none => .error (.badIndex (iEnd + 1))
        | some jif =>
          if jif.opcode ≠ Opcode.JumpIfFalse then .ok defaultReturn
          else
            match jif.parameters with
            | [] => .error .noOperand
            | p :: _ =>
              let jifOffset := abs32 p.castInt32
              match commands[iEnd + 2]? with
              | none => .error (.badIndex (iEnd + 2))
              | some bodyCmd =>
                .ok { flowType := .FlowIf
                      combination := combination
                      conditionCount := count
                      jifOffset := jif.offset
                      conditionStartOffset := toSizeT ifCmd.offset
                      conditionEndOffset := toSizeT endCmd.offset
                      bodyStartOffset := toSizeT bodyCmd.offset
                      bodyEndOffset :=
                        Script.bodyEnd jifOffset (commands.drop (iEnd + 2)) unset }

/-- The method `Script::ifStatementFromIndex`. -/
def Script.ifStatementFromIndex (s : Script) (unset : Nat) (i : Nat) : Except Fault FullIf :=
  match s.commands[i]? with
  | none => .error (.badIndex i)
  | some ifCmd =>
    if ifCmd.opcode = Opcode.If ∧ mapContains s.ifStatements ifCmd.offset = false then
      Script.ifCandidate s.commands unset i ifCmd
    else .ok { combination := .Invalid }

/-- The first loop of `createIfStatements`: the indices, from `i` on, of the
commands whose opcode is `If`. -/
def Script.findIfCommands : List Command → Nat → List Nat
  | [], _ => []
  | c :: rest, i =>
    if c.opcode = Opcode.If then i :: Script.findIfCommands rest (i + 1)
    else Script.findIfCommands rest (i + 1)

/-- The assignment `ifStatements[statement.conditionStartOffset] = statement`. -/
def Script.setIf (s : Script) (statement : FullIf) : Script :=
  { s with ifStatements :=
      mapSet s.ifStatements (sizeToInt32 statement.conditionStartOffset) statement }

/-- The second loop of `createIfStatements`, over the indices of the cache. -/
def Script.recordIfs (unset : Nat → Nat) : List Nat → Script → Except Fault Script
  | [], s => .ok s
  | i :: rest, s =>
    match s.ifStatementFromIndex (unset i) i with
    | .error e => .error e
    | .ok statement =>
      if statement.combination = .Invalid then Script.recordIfs unset rest s
      else Script.recordIfs unset rest (s.setIf statement)

/-- The method `Script::createIfStatements`. Its static local
`ifCommandIndices` is passed in as `cache` and returned. -/
def Script.createIfStatements (s : Script) (cache : List Nat) (unset : Nat → Nat) :
    Except Fault (Script × List Nat) :=
  let cache1 := if cache = [] then Script.findIfCommands s.commands 0 else cache
  match Script.recordIfs unset cache1 s with
  | .error e => .error e
  | .ok s1 => .ok (s1, cache1)

/-- The loop `while(true)` of `prettyPrint` that calls `createIfStatements`
until the size of `ifStatements` no longer changes, with a budget of passes:
the script, the cache and the number of passes run. -/
def Script.discoverIfs (unset : Nat → Nat → Nat) :
    Nat → Script → List Nat → Nat → Nat → Except Fault (Script × List Nat × Nat)
  | 0, _, _, _, _ => .error .outOfFuel
  | fuel + 1, s, cache, lastIfSize, passes =>
    match s.createIfStatements cache (unset passes) with
    | .error e => .error e
    | .ok (s1, cache1) =>
      if s1.ifStatements.length = lastIfSize then .ok (s1, cache1, passes + 1)
      else Script.discoverIfs unset fuel s1 cache1 s1.ifStatements.length (passes + 1)

/-! ## `script.hpp`: while-loops -/

/-- The insertion `hiddenOffsets.insert(x)` into a `std::set<int32_t>`, kept
in ascending order. -/
def offsetSetInsert : List Int → Int → List Int
  | [], x => [x]
  | y :: ys, x =>
    if x = y then y :: ys
    else if x < y then x :: y :: ys
    else y :: offsetSetInsert ys x

/-- The access `offsetsToIndices[k]`: a key that is absent is first inserted
with the index 0. Returns the script after the access and the index read. -/
def Script.indexOf (s : Script) (k : Int) : Script × Nat :=
  ({ s with offsetsToIndices := mapModify s.offsetsToIndices k 0 id },
   (mapFind s.offsetsToIndices k).getD 0)

/-- The two statements `FullIf &theIf = ifStatements[k]; theIf.flowType =
FullIf::FlowWhile;`. -/
def Script.markWhile (s : Script) (k : Int) : Script :=
  { s with ifStatements :=
      mapModify s.ifStatements k {} (fun f => { f with flowType := .FlowWhile }) }

/-- The loop of `createWhileLoops` over the commands still to visit. -/
def Script.whileLoop : List Int → List Command → Script → Except Fault (Script × List Int)
  | hidden, [], s => .ok (s, hidden)
  | hidden, cmd :: rest, s =>
    if Goto.isJumpOpcode cmd.opcode then
      match Goto.ofCommand cmd with
      | .error e => .error e
      | .ok jump =>
        if jump.dest < jump.source then
          match (s.indexOf jump.dest).1.commands[(s.indexOf jump.dest).2]? with
          | none => .error (.badIndex (s.indexOf jump.dest).2)
          | some target =>
            if target.opcode = Opcode.If then
              Script.whileLoop (offsetSetInsert hidden jump.source) rest
                ((s.indexOf jump.dest).1.markWhile jump.dest)
            else Script.whileLoop hidden rest (s.indexOf jump.dest).1
        else Script.whileLoop hidden rest s
    else Script.whileLoop hidden rest s

/-- The method `Script::createWhileLoops`, with `hiddenOffsets` passed in and
returned. -/
def Script.createWhileLoops (s : Script) (hidden : List Int) : Except Fault (Script × List Int) :=
  Script.whileLoop hidden s.commands s

/-! ## `util.hpp`: token replacement -/

/-- The search of `std::string::find` in the characters that remain from
index `i` on. -/
def findFrom : List Char → List Char → Nat → Option Nat
  | [], search, i => if search = [] then some i else none
  | c :: cs, search, i =>
    if search.isPrefixOf (c :: cs) then some i else findFrom cs search (i + 1)

/-- The call `s.find(search, pos)`: the index of the first occurrence of
`search` at or after `pos`, `none` for `npos`. -/
def findSub (s search : List Char) (pos : Nat) : Option Nat :=
  if s.length < pos then none else findFrom (s.drop pos) search pos

/-- The loop of `replaceAll`, with a budget of iterations. -/
def replaceAllLoop (search replace : List Char) : Nat → List Char → Nat → Except Fault (List Char)
  | 0, _, _ => .error .outOfFuel
  | fuel + 1, s, pos =>
    match findSub s search pos with
    | none => .ok s
    | some p =>
      replaceAllLoop search replace fuel
        (s.take p ++ replace ++ s.drop (p + search.length)) (p + replace.length)

/-- The function `replaceAll`. A search string that is not empty is found at
most `s.length` times (`replaceAll_isOk`). -/
def replaceAll (s search replace : List Char) : Except Fault (List Char) :=
  replaceAllLoop search replace (s.length + 1) s 0

/-- The loop of `replaceTokens` over the replacements from index `i` on. -/
def replaceTokensLoop : List String → Nat → List Char → Except Fault (List Char)
  | [], _, s => .ok s
  | ri :: rest, i, s =>
    match replaceAll s ('$' :: (toString i).data) ri.data with
    | .error e => .error e
    | .ok s1 => replaceTokensLoop rest (i + 1) s1

/-- The function `replaceTokens`. -/
def replaceTokens (s : String) (r : List String) : Except Fault String :=
  match replaceTokensLoop r 0 s.data with
  | .error e => .error e
  | .ok cs => .ok (String.mk cs)

/-! ## `script.hpp`: for-loops -/

/-- The method `Script::commandAtOffset(size_t offset)`: the key of
`offsetsToIndices` is the offset converted to `int32_t`. -/
def Script.commandAtOffset (s : Script) (offset : Nat) : Except Fault (Script × Command) :=
  match (s.indexOf (sizeToInt32 offset)).1.commands[(s.indexOf (sizeToInt32 offset)).2]? with
  | none => .error (.badIndex (s.indexOf (sizeToInt32 offset)).2)
  | some c => .ok ((s.indexOf (sizeToInt32 offset)).1, c)

/-- The method `Script::commandBefore`: the index
`offsetsToIndices[cmd.offset] - 1` is a `size_t`, so it wraps around at 0. -/
def Script.commandBefore (s : Script) (cmd : Command) : Except Fault (Script × Command) :=
  if (s.indexOf cmd.offset).2 = 0 then .error (.badIndex 18446744073709551615)
  else
    match (s.indexOf cmd.offset).1.commands[(s.indexOf cmd.offset).2 - 1]? with
    | none => .error (.badIndex ((s.indexOf cmd.offset).2 - 1))
    | some c => .ok ((s.indexOf cmd.offset).1, c)

/-- The method `Script::offsetBefore(int32_t offset)`. -/
def Script.offsetBefore (s : Script) (offset : Int) : Except Fault (Script × Int) :=
  match s.commandAtOffset (toSizeT offset) with
  | .error e => .error e
  | .ok (s1, c) =>
    match s1.commandBefore c with
    | .error e => .error e
    | .ok (s2, b) => .ok (s2, b.offset)

/-- The test `name.find_first_of("+-") != std::string::npos`. -/
def hasPlusMinus (name : String) : Bool := name.data.any (fun c => c == '+' || c == '-')

/-- The loop `while(backCommand.name != "$0 = $1" and ...)` of
`createForLoops`, with a budget of iterations: the script after the accesses
to `offsetsToIndices` and the value of `backCommand` after the loop. -/
def Script.backScan (counter : Value) : Nat → Script → Command → Except Fault (Script × Command)
  | 0, _, _ => .error .outOfFuel
  | fuel + 1, s, backCommand =>
    if backCommand.name ≠ "$0 = $1" ∧ backCommand.parameters.length ≠ 2
        ∧ counter ∉ backCommand.parameters then
      if backCommand.offset = 0 then .ok (s, backCommand)
      else
        match s.commandBefore backCommand with
        | .error e => .error e
        | .ok (s1, b) => Script.backScan counter fuel s1 b
    else .ok (s, backCommand)

/-- The part of the body of the loop of `createForLoops` that follows the test
of the increment: the loop recorded for the jump `loopJump` and the increment
`incDecCommand`. -/
def Script.forLoopOf (fuel : Nat) (s : Script) (statement : FullIf)
    (loopJump incDecCommand : Command) : Except Fault (Script × ForLoop) :=
  match s.offsetBefore (sizeToInt32 statement.conditionEndOffset) with
  | .error e => .error e
  | .ok (s1, checkEnd) =>
    match incDecCommand.parameters with
    | [] => .error .noOperand
    | counterValue :: _ =>
      match s1.commandAtOffset statement.conditionStartOffset with
      | .error e => .error e
      | .ok (s2, startCommand) =>
        match s2.commandBefore startCommand with
        | .error e => .error e
        | .ok (s3, back0) =>
          match Script.backScan counterValue fuel s3 back0 with
          | .error e => .error e
          | .ok (s4, back1) =>
            match s4.commandBefore back1 with
            | .error e => .error e
            | .ok (s5, back2) =>
              .ok (s5, { counterValue := counterValue
                         setupRange := OffsetRange.single back2.offset
                         checkRange :=
                           { start := statement.conditionStartOffset, stop := toSizeT checkEnd }
                         incRange := OffsetRange.single incDecCommand.offset
                         jumpRange := OffsetRange.single loopJump.offset })

/-- The body of the loop of `createForLoops` for the entry `(key, statement)`
of `ifStatements`: the script after it and the loop stored under `key`, if one
is stored. -/
def Script.forLoopStep (fuel : Nat) (s : Script) (key : Int) (statement : FullIf) :
    Except Fault (Script × Option ForLoop) :=
  match s.commandAtOffset (toSizeT statement.jifOffset) with
  | .error e => .error e
  | .ok (s1, jif) =>
    match Goto.ofCommand jif with
    | .error e => .error e
    | .ok falseJump =>
      if (s1.indexOf falseJump.dest).2 = 0 then .error (.badIndex 18446744073709551615)
      else
        match (s1.indexOf falseJump.dest).1.commands[(s1.indexOf falseJump.dest).2 - 1]? with
        | none => .error (.badIndex ((s1.indexOf falseJump.dest).2 - 1))
        | some loopJump =>
          if Goto.isJumpOpcode loopJump.opcode then
            match Goto.ofCommand loopJump with
            | .error e => .error e
            | .ok back =>
              if back.dest ≠ key then .ok ((s1.indexOf falseJump.dest).1, none)
              else
                match (s1.indexOf falseJump.dest).1.commandBefore loopJump with
                | .error e => .error e
                | .ok (s3, incDecCommand) =>
                  if hasPlusMinus incDecCommand.name then
                    match Script.forLoopOf fuel s3 statement loopJump incDecCommand with
                    | .error e => .error e
                    | .ok (s4, loop) => .ok (s4, some loop)
                  else .ok (s3, none)
          else .ok ((s1.indexOf falseJump.dest).1, none)

/-- The assignment `forLoops[ifPair.first] = loop`. -/
def Script.setForLoop (s : Script) (key : Int) (loop : ForLoop) : Script :=
  { s with forLoops := mapSet s.forLoops key loop }

/-- The loop of `createForLoops` over the entries of `ifStatements` still to
visit. -/
def Script.forLoopLoop (fuel : Nat) : List (Int × FullIf) → Script → Except Fault Script
  | [], s => .ok s
  | e :: rest, s =>
    match Script.forLoopStep fuel s e.1 e.2 with
    | .error e1 => .error e1
    | .ok (s1, none) => Script.forLoopLoop fuel rest s1
    | .ok (s1, some loop) => Script.forLoopLoop fuel rest (s1.setForLoop e.1 loop)

/-- The method `Script::createForLoops`; its parameter `hiddenOffsets` is not
used. Each iteration of the inner `while` loop steps to another command, so
that the budget of `commands.size() + 1` iterations is used up only by a walk
that comes back to a command already visited. -/
def Script.createForLoops (s : Script) : Except Fault Script :=
  Script.forLoopLoop (s.commands.length + 1) s.ifStatements s

/-! ## `script.hpp`: procedures and labels -/

/-- The method `Command::effectiveOffset`. -/
def Command.effectiveOffset (c : Command) : Except Fault Int :=
  if c.opcode = Opcode.Jump then
    match c.parameters with
    | [] => .error .noOperand
    | p :: _ => .ok p.castInt32
  else .ok c.offset

/-- The method `Script::ifLevelForOffset`: the comparisons are made in
`size_t`. -/
def Script.ifLevelForOffset (s : Script) (offset : Int) : Nat :=
  (s.ifStatements.filter (fun e =>
    decide (e.2.bodyStartOffset ≤ toSizeT offset) && decide (toSizeT offset ≤ e.2.bodyEndOffset))).length

/-- The inner loop of `createProcedures` over the commands from the start of
the procedure on: the script after the accesses to `offsetsToIndices`, and the
value of `procedure.endOffset`, from its value `endOffset` before the loop. -/
def Script.procedureEnd (startLevel : Nat) : List Command → Script → Nat →
    Except Fault (Script × Nat)
  | [], s, endOffset => .ok (s, endOffset)
  | c :: rest, s, _ =>
    match c.effectiveOffset with
    | .error e => .error e
    | .ok eo =>
      match (s.indexOf eo).1.commands[(s.indexOf eo).2]? with
      | none => .error (.badIndex (s.indexOf eo).2)
      | some target =>
        if target.opcode = Opcode.Return
            ∧ (s.indexOf eo).1.ifLevelForOffset c.offset = startLevel then
          .ok ((s.indexOf eo).1, toSizeT c.offset)
        else Script.procedureEnd startLevel rest (s.indexOf eo).1 (toSizeT c.offset)

/-- The assignment `allProcedures[procOffset] = procedure`. -/
def Script.setProcedure (s : Script) (procOffset : Int) (procedure : Procedure) : Script :=
  { s with allProcedures := mapSet s.allProcedures procOffset procedure }

/-- The loop of `createProcedures` over the commands still to visit. The
declaration `Procedure procedure;` leaves `endOffset` without a value: `unset`
stands for what it holds. -/
def Script.procedureLoop (unset : Int → Nat) : List Command → Script → Except Fault Script
  | [], s => .ok s
  | cmd :: rest, s =>
    if cmd.opcode = Opcode.Call then
      match Goto.ofCommand cmd with
      | .error e => .error e
      | .ok call =>
        if mapContains s.allProcedures call.dest then Script.procedureLoop unset rest s
        else
          match replaceTokens "proc_$0" [toString call.dest] with
          | .error e => .error e
          | .ok name =>
            match Script.procedureEnd ((s.indexOf call.dest).1.ifLevelForOffset call.dest)
                ((s.indexOf call.dest).1.commands.drop (s.indexOf call.dest).2)
                (s.indexOf call.dest).1 (unset call.dest) with
            | .error e => .error e
            | .ok (s2, endOffset) =>
              Script.procedureLoop unset rest
                (s2.setProcedure call.dest
                  { beginOffset := toSizeT call.dest, endOffset := endOffset, name := name })
    else Script.procedureLoop unset rest s

/-- The method `Script::createProcedures`. -/
def Script.createProcedures (s : Script) (unset : Int → Nat) : Except Fault Script :=
  Script.procedureLoop unset s.commands s

/-- The assignment `labelLocations[jump.dest] = label`. -/
def Script.setLabel (s : Script) (label : Label) : Script :=
  { s with labelLocations := mapSet s.labelLocations label.offset label }

/-- The loop of `createLabels` over the commands still to visit. -/
def Script.labelLoop (hidden : List Int) : List Command → Script → Except Fault Script
  | [], s => .ok s
  | cmd :: rest, s =>
    if hidden.contains cmd.offset then Script.labelLoop hidden rest s
    else if Goto.isJumpOpcode cmd.opcode = true ∧ cmd.opcode ≠ Opcode.Call
        ∧ mapContains s.ifStatements cmd.offset = false then
      match Goto.ofCommand cmd with
      | .error e => .error e
      | .ok jump =>
        match replaceTokens "label_$0" [toString jump.dest] with
        | .error e => .error e
        | .ok name => Script.labelLoop hidden rest (s.setLabel { offset := jump.dest, name := name })
    else Script.labelLoop hidden rest s

/-- The method `Script::createLabels`. -/
def Script.createLabels (s : Script) (hidden : List Int) : Except Fault Script :=
  Script.labelLoop hidden s.commands s

/-! ## `script.hpp`: globals and dead code -/

/-- The function `dataTypeName`. -/
def dataTypeName (type : Nat) : String :=
  if type = DataType.EOAL then "<null type>"
  else if type = DataType.S32 then "Int32"
  else if type = DataType.GlobalIntFloat then "GIntFloat"
  else if type = DataType.LocalIntFloat then "LIntFloat"
  else if type = DataType.S8 then "Int8"
  else if type = DataType.S16 then "Int16"
  else if type = DataType.F32 then "Float"
  else if type = DataType.GlobalIntFloatArr then "GIntFloatArr"
  else if type = DataType.LocalIntFloatArr then "LIntFloatArr"
  else if type = DataType.String8 then "Char[8]"
  else if type = DataType.GlobalString8 then "GChar8"
  else if type = DataType.LocalString8 then "LChar8"
  else if type = DataType.GlobalString8Arr then "GChar8Arr"
  else if type = DataType.LocalString8Arr then "LChar8Arr"
  else if type = DataType.StringVar then "Char[]"
  else if type = DataType.String16 then "Char[16]"
  else if type = DataType.GlobalString16 then "GChar16"
  else if type = DataType.LocalString16 then "LChar16"
  else if type = DataType.GlobalString16Arr then "GChar16Arr"
  else if type = DataType.LocalString16Arr then "LChar16Arr"
  else "<unknown type>"

/-- The test `typeName.starts_with('G') and not typeName.ends_with("Arr")` of
`createGlobals`. -/
def isGlobalName (typeName : String) : Bool :=
  (typeName.data.head? == some 'G') && !("Arr".data.isSuffixOf typeName.data)

/-- The call `globals.erase(k)`. -/
def mapErase {κ : Type} {β : Type} [DecidableEq κ] : List (κ × β) → κ → List (κ × β)
  | [], _ => []
  | (k1, v) :: m, k => if k1 = k then m else (k1, v) :: mapErase m k

/-- The body of the inner loop of `createGlobals` for the operand `obj` at
index `i` of `cmd`: the map `globals` after it, and whether it ends with
`break`. The name `otherTypeName` is computed from `obj.type`, as in the
source. -/
def Script.globalStep (cmd : Command) (i : Nat) (obj : Value) (globals : List (Nat × GlobalVar)) :
    List (Nat × GlobalVar) × Bool :=
  let typeName := dataTypeName obj.type
  if isGlobalName typeName then
    let globalOffset := obj.castUInt16
    let globals1 := mapModify globals globalOffset ({} : GlobalVar)
      (fun var => { var with referenceType := obj.type, offset := globalOffset })
    if cmd.parameters.length = 2 ∧ cmd.name.data.count '=' = 1 then
      let otherObj := (cmd.parameters[if i = 0 then 1 else 0]?).getD ({} : Value)
      let globals2 := mapAdjust globals1 globalOffset
        (fun var => { var with valueType := otherObj.type })
      let otherTypeName := dataTypeName obj.type
      if isGlobalName otherTypeName then
        if mapContains globals2 otherObj.castUInt16 then
          let found := ((mapFind globals2 otherObj.castUInt16).getD ({} : GlobalVar)).valueType
          let globals3 := mapAdjust globals2 globalOffset (fun var => { var with valueType := found })
          if found = DataType.EOAL then (mapErase globals3 globalOffset, false)
          else (globals3, false)
        else (globals2, true)
      else if otherObj.type = DataType.EOAL then (mapErase globals2 globalOffset, false)
      else (globals2, false)
    else (globals1, false)
  else (globals, false)

/-- The inner loop of `createGlobals` over the operands of `cmd` from index
`i` on. -/
def Script.globalParams (cmd : Command) : List Value → Nat → List (Nat × GlobalVar) →
    List (Nat × GlobalVar)
  | [], _, globals => globals
  | obj :: rest, i, globals =>
    if (Script.globalStep cmd i obj globals).2 then (Script.globalStep cmd i obj globals).1
    else Script.globalParams cmd rest (i + 1) (Script.globalStep cmd i obj globals).1

/-- The outer loop of `createGlobals` over the commands still to visit. -/
def Script.globalLoop : List Command → List (Nat × GlobalVar) → List (Nat × GlobalVar)
  | [], globals => globals
  | cmd :: rest, globals =>
    Script.globalLoop rest (Script.globalParams cmd cmd.parameters 0 globals)

/-- The method `Script::createGlobals`. -/
def Script.createGlobals (s : Script) : Script :=
  { s with globals := Script.globalLoop s.commands s.globals }

/-- The innermost loop of `removeDeadCode` over the commands from index
`cmdIndex` on: `hiddenOffsets` after it, and `needsBreak`. The offset inserted
is that of `commands[cmdIndex]` at every iteration, as in the source. -/
def Script.deadScan (s : Script) (firstOffset : Int) : List Command → List Int →
    List Int × Bool
  | [], hidden => (hidden, false)
  | c :: rest, hidden =>
    if mapContains s.jumpDestinations c.offset then (hidden, true)
    else Script.deadScan s firstOffset rest (offsetSetInsert hidden firstOffset)

/-- The loop of `removeDeadCode` over the edges of one set of `jumpSources`. -/
def Script.deadSet : List Goto → Script → List Int → Script × List Int
  | [], s, hidden => (s, hidden)
  | jump :: rest, s, hidden =>
    if jump.jumpOpcode = Opcode.Jump then
      let s1 := (s.indexOf jump.source).1
      let cmdIndex := (s.indexOf jump.source).2 + 1
      match s1.commands.drop cmdIndex with
      | [] => Script.deadSet rest s1 hidden
      | first :: after =>
        if (Script.deadScan s1 first.offset (first :: after) hidden).2 then
          (s1, (Script.deadScan s1 first.offset (first :: after) hidden).1)
        else Script.deadSet rest s1 (Script.deadScan s1 first.offset (first :: after) hidden).1
    else Script.deadSet rest s hidden

/-- The loop of `removeDeadCode` over the entries of `jumpSources`. -/
def Script.deadLoop : List (Int × List Goto) → Script → List Int → Script × List Int
  | [], s, hidden => (s, hidden)
  | e :: rest, s, hidden =>
    Script.deadLoop rest (Script.deadSet e.2 s hidden).1 (Script.deadSet e.2 s hidden).2

/-- The method `Script::removeDeadCode`, with `hiddenOffsets` passed in and
returned. -/
def Script.removeDeadCode (s : Script) (hidden : List Int) : Script × List Int :=
  Script.deadLoop s.jumpSources s hidden

/-! ## `constructs.hpp`: the primitive encoding of an operand -/

/-- The method `Value::cast<int8_t>()`. -/
def Value.castInt8 (v : Value) : Int :=
  match v.bytes with
  | b :: _ => if b.val < 128 then Int.ofNat b.val else Int.ofNat b.val - 256
  | [] => 0

/-- The method `Value::cast<int16_t>()`. -/
def Value.castInt16 (v : Value) : Int :=
  if 2 ≤ v.bytes.length then
    if leNat (v.bytes.take 2) < 32768 then Int.ofNat (leNat (v.bytes.take 2))
    else Int.ofNat (leNat (v.bytes.take 2)) - 65536
  else 0

/-- The characters of a `std::string` built from bytes. -/
def bytesToChars (bs : List Byte) : List Char := bs.map (fun b => Char.ofNat b.val)

/-- The loop `stream << '.' << std::dec << int(value.getBytes()[i])` of
`primitiveVtoS` over the bytes of an array operand: the contents of the
stream. -/
def dotStream : List Byte → List Char
  | [] => []
  | b :: rest => '.' :: ((toString b.val).data ++ dotStream rest)

/-- The expression `stream.str().empty() ? "!" : stream.str().substr(1)`. -/
def streamTail (stream : List Char) : List Char :=
  match stream with
  | [] => ['!']
  | _ :: rest => rest

/-- The case of an array operand in `primitiveVtoS`, with its type letter:
the loop reads `value.size` bytes of the payload. -/
def arrayVtoS (letter : Char) (value : Value) : Except Fault String :=
  if value.size ≤ value.bytes.length then
    .ok (String.mk (letter :: streamTail (dotStream (value.bytes.take value.size))))
  else .error (.outOfBounds value.bytes.length)

/-- The characters that `std::strncpy(dest, bytes, 8)` followed by
`std::string(dest)` yields: those before the first zero byte among the first
eight bytes; without a zero byte there the string is not terminated. -/
def cString8 (bytes : List Byte) : Except Fault (List Byte) :=
  if ((bytes.take 8).takeWhile (fun b => b ≠ 0)).length < (bytes.take 8).length then
    .ok ((bytes.take 8).takeWhile (fun b => b ≠ 0))
  else .error (.outOfBounds ((bytes.take 8).takeWhile (fun b => b ≠ 0)).length)

/-- The function `primitiveVtoS`. The text `std::to_string` gives for a
`float` is not modelled: `floatText` stands for it. -/
def primitiveVtoS (floatText : Value → String) (value : Value) : Except Fault String :=
  if value.type = DataType.EOAL then .ok "E"
  else if value.type = DataType.S32 then .ok ("S" ++ toString value.castInt32)
  else if value.type = DataType.GlobalIntFloat then .ok ("G" ++ toString value.castUInt16)
  else if value.type = DataType.LocalIntFloat then .ok ("L" ++ toString value.castUInt16)
  else if value.type = DataType.S8 then .ok ("B" ++ toString value.castInt8)
  else if value.type = DataType.S16 then .ok ("T" ++ toString value.castInt16)
  else if value.type = DataType.F32 then .ok ("F" ++ floatText value)
  else if value.type = DataType.GlobalIntFloatArr then arrayVtoS 'A' value
  else if value.type = DataType.LocalIntFloatArr then arrayVtoS 'X' value
  else if value.type = DataType.String8 then
    match cString8 value.bytes with
    | .error e => .error e
    | .ok cs => .ok (String.mk ('\'' :: (bytesToChars cs ++ ['\''])))
  else if value.type = DataType.GlobalString8 then .ok ("M" ++ toString value.castUInt16)
  else if value.type = DataType.LocalString8 then .ok ("N" ++ toString value.castUInt16)
  else if value.type = DataType.GlobalString8Arr then arrayVtoS 'V' value
  else if value.type = DataType.LocalString8Arr then arrayVtoS 'W' value
  else if value.type = DataType.StringVar then
    if value.size = 0 then .ok "''"
    else if value.size ≤ value.bytes.length then
      .ok (String.mk ('\'' :: (bytesToChars (value.bytes.take value.size) ++ ['\''])))
    else .error (.outOfBounds value.bytes.length)
  else if value.type = DataType.String16 then
    if 16 ≤ value.bytes.length then
      .ok (String.mk ('\'' :: (bytesToChars (value.bytes.take 16) ++ ['\''])))
    else .error (.outOfBounds value.bytes.length)
  else if value.type = DataType.GlobalString16 then .ok ("K" ++ toString value.castUInt16)
  else if value.type = DataType.LocalString16 then .ok ("J" ++ toString value.castUInt16)
  else if value.type = DataType.GlobalString16Arr then arrayVtoS 'R' value
  else if value.type = DataType.LocalString16Arr then arrayVtoS 'Z' value
  else if value.type = DataType.Unknown then .ok "U!"
  else .ok "<unknown type>"

/-! ## `main.cpp`: the loader of the opcode table and `getParamStrings` -/

/-- The second slot `instruction.opcode | 0x8000` of the loader, a `uint16_t`. -/
def aliasOpcode (opcode : Nat) : Nat := (opcode ||| 0x8000) % 65536

/-- The registration at the end of the loop of `parseOpcodeFile`: the
definition `m2cmd` read for `opcode` is registered, and for an opcode whose top
nibble is zero also under `opcode | 0x8000`, unless `Command::get` finds a
command there. -/
def registerWithAlias (table : OpcodeTable) (opcode : Nat) (m2cmd : Command) : OpcodeTable :=
  let table1 := Command.registerOpcode table opcode m2cmd
  if opcode &&& 0xF000 = 0 then
    if !(Command.get table1 (aliasOpcode opcode)).toBool then
      Command.registerOpcode table1 (aliasOpcode opcode)
        { m2cmd with opcode := aliasOpcode opcode }
    else table1
  else table1

/-- The field `size` of `paramTypeInfo[type]`, for the types that the table
holds; for any other type the entry that `operator[]` inserts has an empty
name. -/
def paramTypeSize (type : Nat) : Option Nat :=
  if type = 0x0 then some 0
  else if type = 0x1 then some 4
  else if type = 0x2 then some 2
  else if type = 0x3 then some 2
  else if type = 0x4 then some 1
  else if type = 0x5 then some 2
  else if type = 0x6 then some 4
  else if type = 0x7 then some 6
  else if type = 0x8 then some 6
  else if type = 0x9 then some 8
  else if type = 0xA then some 2
  else if type = 0xB then some 2
  else if type = 0xC then some 6
  else if type = 0xD then some 6
  else if type = 0xE then some 0
  else if type = 0xF then some 16
  else if type = 0x10 then some 2
  else if type = 0x11 then some 2
  else if type = 0x12 then some 6
  else if type = 0x13 then some 6
  else none

/-- The test `std::isprint` in the "C" locale. -/
def isPrint (b : Byte) : Bool := decide (0x20 ≤ b.val) && decide (b.val ≤ 0x7E)

/-- The copy loop `for(int i = 0; i < size; ++i)` of `getParamStrings`: the
bytes stored into `paramBytes`, from the cursor `cur` and the flag
`varStrDidEnd`. -/
def copyParamBytes (bytes : List Byte) (typeIsVStr : Bool) :
    Nat → Nat → Bool → Except Fault (List Byte)
  | 0, _, _ => .ok []
  | size + 1, cur, varStrDidEnd =>
    match readByte bytes cur with
    | .error e => .error e
    | .ok thisByte =>
      let ended := varStrDidEnd || (typeIsVStr && !isPrint thisByte)
      match copyParamBytes bytes typeIsVStr size (cur + 1) ended with
      | .error e => .error e
      | .ok rest => .ok ((if ended then 0 else thisByte) :: rest)

/-- The body of the loop of `getParamStrings` with the cursor at `cur`: the
type and the bytes of the operand pushed, if one is pushed, and the cursor
after it. -/
def getParamString (bytes : List Byte) (cur : Nat) :
    Except Fault (Option (Nat × List Byte) × Nat) :=
  match readByte bytes cur with
  | .error e => .error e
  | .ok type =>
    match paramTypeSize type.val with
    | none => .ok (none, cur + 1)
    | some declared =>
      if type.val = 0xE then
        match readByte bytes (cur + 1) with
        | .error e => .error e
        | .ok size =>
          match copyParamBytes bytes true size.val (cur + 2) false with
          | .error e => .error e
          | .ok paramBytes => .ok (some (type.val, paramBytes), cur + 2 + size.val)
      else
        match copyParamBytes bytes false declared (cur + 1) false with
        | .error e => .error e
        | .ok paramBytes => .ok (some (type.val, paramBytes), cur + 1 + declared)

/-- The function `getParamStrings` for an instruction with `count` operands:
the operands pushed and the cursor after them. -/
def getParamStrings (bytes : List Byte) : Nat → Nat → Except Fault (List (Nat × List Byte) × Nat)
  | 0, cur => .ok ([], cur)
  | count + 1, cur =>
    match getParamString bytes cur with
    | .error e => .error e
    | .ok (param, cur1) =>
      match getParamStrings bytes count cur1 with
      | .error e => .error e
      | .ok (params, cur2) =>
        match param with
        | none => .ok (params, cur2)
        | some p => .ok (p :: params, cur2)

/-! ## `src/opcodes.hpp`: the sub-code of an `If` in the disassembly listing -/

/-- The constructor `IfCommand::IfCommand` of `src/opcodes.hpp`, on the byte
`numType` that it reads: the members `numConditions`, a `uint8_t`, and
`combinationType`. -/
def IfCommand.ofByte (numType : Byte) : Nat × CombinationType :=
  if numType.val = 0 then (1, .None)
  else if numType.val < 8 then ((numType.val + 1) % 256, .And)
  else if numType.val < 28 then ((numType.val + 256 - 29) % 256, .Or)
  else (0, .Invalid)

/-! ## `constructs.hpp`: `valueToString` -/

/-- The member `arrayIndex` of `Value::cast<ArrayObject>()`: the packed struct
takes six bytes, and `arrayIndex` is the `int16_t` at bytes 2 and 3. -/
def Value.castArrayIndex (v : Value) : Int :=
  if 6 ≤ v.bytes.length then
    if leNat ((v.bytes.drop 2).take 2) < 32768 then Int.ofNat (leNat ((v.bytes.drop 2).take 2))
    else Int.ofNat (leNat ((v.bytes.drop 2).take 2)) - 65536
  else 0

/-- The function `valueToString`. The case `S8` reads `*value.getBytes()`, a
`uint8_t`, and converts it to `int`. The text `std::to_string` gives for a
`float` is not modelled: `floatText` stands for it. -/
def valueToString (floatText : Value → String) (value : Value) : Except Fault String :=
  if value.type = DataType.EOAL then .ok "end"
  else if value.type = DataType.S32 then .ok (toString value.castInt32)
  else if value.type = DataType.GlobalIntFloat then .ok (toString value.castUInt16)
  else if value.type = DataType.LocalIntFloat then .ok (toString value.castUInt16)
  else if value.type = DataType.S8 then
    match value.bytes with
    | [] => .error (.outOfBounds 0)
    | b :: _ => .ok (toString b.val)
  else if value.type = DataType.S16 then .ok (toString value.castInt16)
  else if value.type = DataType.F32 then .ok (floatText value)
  else if value.type = DataType.GlobalIntFloatArr then
    .ok ("<global int/float array>[" ++ toString value.castArrayIndex ++ "]")
  else if value.type = DataType.LocalIntFloatArr then
    .ok ("[" ++ toString value.castArrayIndex ++ "]")
  else if value.type = DataType.String8 then
    match cString8 value.bytes with
    | .error e => .error e
    | .ok cs => .ok (String.mk ('\'' :: (bytesToChars cs ++ ['\''])))
  else if value.type = DataType.GlobalString8 then .ok (toString value.castUInt16)
  else if value.type = DataType.LocalString8 then .ok (toString value.castUInt16)
  else if value.type = DataType.GlobalString8Arr then .ok "<global string8 array>"
  else if value.type = DataType.LocalString8Arr then .ok "<local string8 array>"
  else if value.type = DataType.StringVar then
    if value.size = 0 then .ok "<error>"
    else if value.size ≤ value.bytes.length then
      .ok (String.mk ('\'' :: (bytesToChars (value.bytes.take value.size) ++ ['\''])))
    else .error (.outOfBounds value.bytes.length)
  else if value.type = DataType.String16 then
    if 16 ≤ value.bytes.length then
      .ok (String.mk ('\'' :: (bytesToChars (value.bytes.take 16) ++ ['\''])))
    else .error (.outOfBounds value.bytes.length)
  else if value.type = DataType.GlobalString16 then .ok (toString value.castUInt16)
  else if value.type = DataType.LocalString16 then .ok (toString value.castUInt16)
  else if value.type = DataType.GlobalString16Arr then .ok "<global string16 array>"
  else if value.type = DataType.LocalString16Arr then .ok "<local string16 array>"
  else if value.type = DataType.Unknown then .ok "<unknown>"
  else .ok "<unknown type>"

/-! ## `script.hpp`: `optimizeScript` -/

/-- The bytes `start .. stop - 1` consumed by one `Command::read` of the
disassembly loop, with the opcode of the command read; the loop records the
command in the script exactly when that opcode is not 0. Kept beside the
script to state properties of the byte spans. -/
structure Span where
  start : Nat
  stop : Nat
  opcode : Nat
  deriving DecidableEq, Repr

/-- The state of the loop of `Decompiler::decompile`: the script built so far,
the registry, the cursor `scriptPointer - bytes`, and the spans read so far. -/
structure DecompileState where
  script : Script := {}
  table : OpcodeTable := []
  cursor : Nat := 0
  spans : List Span := []
  deriving DecidableEq, Repr

/-- The body of the loop of `Decompiler::decompile`. The assignment
`command.offset = opcodeOffset` narrows the `size_t` cursor to the `int32_t`
field. -/
def Decompiler.step (bytes : List Byte) (st : DecompileState) : Except Fault DecompileState :=
  let opcodeOffset := st.cursor
  match Command.read st.table bytes st.cursor with
  | .error e => .error e
  | .ok (read, cur, table) =>
    if read.opcode = 0 then
      .ok { st with table := table, cursor := cur,
                    spans := st.spans ++ [⟨opcodeOffset, cur, read.opcode⟩] }
    else
      let command : Command :=
        { read with offset := toInt32 (Int.ofNat opcodeOffset),
                    scriptIndex := st.script.commands.length }
      let script : Script :=
        { st.script with
          offsetsToIndices := mapSet st.script.offsetsToIndices command.offset command.scriptIndex
          commands := st.script.commands ++ [command] }
      let spans := st.spans ++ [⟨opcodeOffset, cur, read.opcode⟩]
      if Goto.isJumpOpcode command.opcode then
        match Goto.ofCommand command with
        | .error e => .error e
        | .ok jump =>
          .ok { script := script.addJump jump, table := table, cursor := cur, spans := spans }
      else .ok { script := script, table := table, cursor := cur, spans := spans }

/-- The loop of `Decompiler::decompile`, `while scriptPointer < bytes + size`,
with a budget of iterations. -/
def Decompiler.loop (bytes : List Byte) : Nat → DecompileState → Except Fault DecompileState
  | 0, st => if st.cursor < bytes.length then .error .outOfFuel else .ok st
  | fuel + 1, st =>
    if st.cursor < bytes.length then
      match Decompiler.step bytes st with
      | .error e => .error e
      | .ok st1 => Decompiler.loop bytes fuel st1
    else .ok st

/-- The run of `Decompiler::decompile` on the bytes of the file, with the
registry as it stands: the final loop state. Every iteration consumes at least
the two opcode bytes, so a budget of `bytes.length` iterations is never used up
(`Decompiler.loop_fuel`). -/
def Decompiler.run (bytes : List Byte) (table : OpcodeTable) : Except Fault DecompileState :=
  Decompiler.loop bytes bytes.length { table := table }

/-- The static `Decompiler::decompile`: the script returned. -/
def Decompiler.decompile (bytes : List Byte) (table : OpcodeTable) : Except Fault Script :=
  match Decompiler.run bytes table with
  | .error e => .error e
  | .ok st => .ok st.script

end miss2

namespace miss2

/-! ## Statement vocabulary -/

/-- The edge `e` is stored, in the jump index `m`, in the set under key `k`. -/
def edgeAt (m : List (Int × List Goto)) (k : Int) (e : Goto) : Prop :=
  e ∈ (mapFind m k).getD []

/-- The edge `e` is stored somewhere in the jump index `m`. -/
def edgeIn (m : List (Int × List Goto)) (e : Goto) : Prop :=
  ∃ k, edgeAt m k e

/-- The script states reached from empty jump indices by calls of `addJump`
and `regenJumpInfo`, with any changes of the commands and of the offset index
in between. -/
inductive JumpReachable : Script → Prop where
  | init (s : Script) : s.jumpSources = [] → s.jumpDestinations = [] → JumpReachable s
  | addJump {s : Script} (jump : Goto) : JumpReachable s → JumpReachable (s.addJump jump)
  | regen {s s1 : Script} : JumpReachable s → s.regenJumpInfo = .ok s1 → JumpReachable s1
  | edit {s : Script} (commands : List Command) (index : List (Int × Nat)) :
      JumpReachable s → JumpReachable { s with commands := commands, offsetsToIndices := index }

/-- The symmetry invariant of the two jump indices. -/
def JumpsSymmetric (s : Script) : Prop :=
  (∀ e, edgeAt s.jumpSources e.source e ↔ edgeAt s.jumpDestinations e.dest e)
    ∧ (∀ k e, edgeAt s.jumpSources k e → e.source = k)
    ∧ (∀ k e, edgeAt s.jumpDestinations k e → e.dest = k)

/-! ## Sample inputs -/

/-- A script with one recorded jump, used to instantiate the theorems. -/
def sampleJumpScript : Script :=
  { commands :=
      [{ name := "goto", opcode := 2, offset := 0, scriptIndex := 0,
         parameters := [{ bytes := [7, 0, 0, 0], bytesSet := true, type := 1, size := 4 }] }]
    offsetsToIndices := [(0, 0)]
    jumpSources := [(0, [⟨0, 7, 2⟩])]
    jumpDestinations := [(7, [⟨0, 7, 2⟩])] }

/-- A script of two commands: a `Jump` at offset 0 to offset 7, and a
`JumpIfFalse` at offset 7 back to offset 0. -/
def sampleConditionalScript : Script :=
  { commands :=
      [{ name := "goto", opcode := 0x2, offset := 0, scriptIndex := 0,
         parameters := [{ bytes := [7, 0, 0, 0], bytesSet := true, type := 1, size := 4 }] },
       { name := "jump_if_false", opcode := 0x4D, offset := 7, scriptIndex := 1,
         parameters := [{ bytes := [0, 0, 0, 0], bytesSet := true, type := 1, size := 4 }] }]
    offsetsToIndices := [(0, 0), (7, 1)]
    jumpSources := [(0, [⟨0, 7, 0x2⟩]), (7, [⟨7, 0, 0x4D⟩])]
    jumpDestinations := [(0, [⟨7, 0, 0x4D⟩]), (7, [⟨0, 7, 0x2⟩])] }

/-! ## Statement vocabulary for the decoder -/

/-- The byte at index `i` of the buffer (0 beyond its end). -/
def byteAt (bytes : List Byte) (i : Nat) : Byte := (bytes[i]?).getD 0

/-- The little-endian 16-bit word at indices `i`, `i + 1` of the buffer. -/
def u16At (bytes : List Byte) (i : Nat) : Nat := (byteAt bytes i).val + 256 * (byteAt bytes (i + 1)).val

/-- The `n` bytes of the buffer from index `p` on. -/
def slice (bytes : List Byte) (p n : Nat) : List Byte := (bytes.drop p).take n

/-- The number of bytes taken by the operand whose tag byte is at index `p`:
the tag byte and, for a variable-length string, the length byte `L` and `L`
bytes; for the end marker and the placeholder tag, as many bytes as the
operand of the definition declares in its `size` field (`declared`); and
for every other tag `getValueSize` bytes. -/
def operandWidth (bytes : List Byte) (declared : Nat) (p : Nat) : Nat :=
  let tag := (byteAt bytes p).val
  if tag = DataType.StringVar then 2 + (byteAt bytes (p + 1)).val
  else if tag = DataType.EOAL ∨ tag = DataType.Unknown then 1 + declared
  else 1 + getValueSize tag

/-- The widths of the operands of a definition laid out from index `p` on. -/
def operandWidths (bytes : List Byte) : List Value → Nat → List Nat
  | [], _ => []
  | d :: ds, p =>
    operandWidth bytes d.size p :: operandWidths bytes ds (p + operandWidth bytes d.size p)

/-- What the decoded operand `v` is, for the tag byte at index `p` and the
operand `d` of the definition: its type is the tag; for a fixed-size tag in
[1, 0x13] its payload is the `getValueSize` bytes after the tag; for a
variable-length string with length byte `L` its `size` is `L` and its payload
is the `L` bytes after the length byte when `L > 0`, and the payload of `d`,
left in place, when `L = 0`. -/
def OperandDecoded (bytes : List Byte) (d v : Value) (p : Nat) : Prop :=
  v.type = (byteAt bytes p).val
    ∧ (v.type = DataType.StringVar →
        v.size = (byteAt bytes (p + 1)).val
          ∧ (v.size ≠ 0 → v.bytes = slice bytes (p + 2) v.size)
          ∧ (v.size = 0 → v.bytes = d.bytes))
    ∧ (1 ≤ v.type → v.type ≤ 0x13 → v.type ≠ DataType.StringVar →
        v.bytes = slice bytes (p + 1) (getValueSize v.type))

/-- What claim C2 says of the decoded operand `v` whose tag byte is at index
`p`: its type is the tag; for a variable-length string its payload is the `L`
bytes after the length byte `L`; for every other tag in [1, 0x13] its payload
is the `getValueSize` bytes after the tag. -/
def OperandAsClaimed (bytes : List Byte) (v : Value) (p : Nat) : Prop :=
  v.type = (byteAt bytes p).val
    ∧ (v.type = DataType.StringVar →
        v.bytes = slice bytes (p + 2) (byteAt bytes (p + 1)).val)
    ∧ (1 ≤ v.type → v.type ≤ 0x13 → v.type ≠ DataType.StringVar →
        v.bytes = slice bytes (p + 1) (getValueSize v.type))

/-- The width that claim C2 gives to the operand whose tag byte is at index
`p`: the tag byte and `getValueSize` bytes, or for a variable-length string the
tag byte, the length byte `L` and `L` bytes. -/
def claimedWidth (bytes : List Byte) (p : Nat) : Nat :=
  if (byteAt bytes p).val = DataType.StringVar then 2 + (byteAt bytes (p + 1)).val
  else 1 + getValueSize (byteAt bytes p).val

/-- The widths that claim C2 gives to `n` operands laid out from index `p` on. -/
def claimedWidths (bytes : List Byte) : Nat → Nat → List Nat
  | 0, _ => []
  | n + 1, p => claimedWidth bytes p :: claimedWidths bytes n (p + claimedWidth bytes p)

/-- An opcode table as the loader of `main.cpp` registers it: operands of type
`Unknown` without payload, whose `size` is the number of the operand token. -/
def sampleTable : OpcodeTable :=
  [(0x2, { name := "goto $0", opcode := 0x2, parameters := [{ size := 1 }] }),
   (0x6, { name := "setlocalint", opcode := 0x6, parameters := [{ size := 1 }, { size := 2 }] }),
   (0x4D, { name := "jump_if_false $0", opcode := 0x4D, parameters := [{ size := 1 }] })]

/-- A table registered through `Command::registerOpcode` with a definition
whose operand carries a payload byte. -/
def payloadTable : OpcodeTable :=
  Command.registerOpcode []
    0x5 { name := "print", opcode := 0x5, parameters := [{ bytes := [7], size := 1 }] }

/-- A table in which opcode 0 is registered with one operand. -/
def nopOperandTable : OpcodeTable :=
  Command.registerOpcode [] 0x0 { name := "nop", opcode := 0x0, parameters := [{ size := 1 }] }

/-! ## Statement vocabulary for the disassembler -/

/-- The spans lie one after the other from index `a` to index `b`: the first
starts at `a`, each next one starts where the previous one stopped, the last
stops at `b`, and none is empty. -/
def spansTile : List Span → Nat → Nat → Prop
  | [], a, b => a = b
  | sp :: rest, a, b => sp.start = a ∧ a < sp.stop ∧ spansTile rest sp.stop b

/-- The spans of the commands that the loop recorded in the script. -/
def recordedSpans (spans : List Span) : List Span :=
  spans.filter (fun sp => decide (sp.opcode ≠ 0))

/-- The bytes of the buffer that a span covers. -/
def Span.bytesOf (bytes : List Byte) (sp : Span) : List Byte :=
  slice bytes sp.start (sp.stop - sp.start)

/-- The offset index is an exact inverse of the command sequence, whose
offsets are non-negative, below `bound` and strictly increasing. -/
def OffsetIndexExact (s : Script) (bound : Nat) : Prop :=
  (∀ i c, s.commands[i]? = some c →
      c.scriptIndex = i ∧ 0 ≤ c.offset ∧ c.offset < Int.ofNat bound
        ∧ mapFind s.offsetsToIndices c.offset = some i)
    ∧ (∀ k v, mapFind s.offsetsToIndices k = some v →
        ∃ c, s.commands[v]? = some c ∧ c.offset = k)
    ∧ List.Pairwise (fun a b : Int => a < b) (s.commands.map Command.offset)

/-! ## Statement vocabulary for the jump optimizer -/

/-- The offset index is an exact inverse of the command sequence, and the
offsets are byte offsets: non-negative values of an `int32_t`. -/
def IndexInvertible (s : Script) : Prop :=
  (∀ k i, mapFind s.offsetsToIndices k = some i →
      ∃ c, s.commands[i]? = some c ∧ c.offset = k)
    ∧ (∀ i c, s.commands[i]? = some c → mapFind s.offsetsToIndices c.offset = some i)
    ∧ (∀ c ∈ s.commands, 0 ≤ c.offset ∧ c.offset < 2147483648)

/-- The command `commands[offsetsToIndices[d]]` stored at offset `d`, when `d`
is a key of the offset index and the index stored for it is in range. -/
def Script.commandAt? (s : Script) (d : Int) : Option Command :=
  match mapFind s.offsetsToIndices d with
  | none => none
  | some i => s.commands[i]?

/-- The opcode is `Call` or `Jump`, the test of `optimizeJump` on its
`secondCommand`. -/
def isUnconditional (opcode : Nat) : Bool :=
  opcode == Opcode.Call || opcode == Opcode.Jump

/-- A `Jump` at offset 0 to offset 7, a `Jump` at offset 7 to offset 14 and a
`wait` at offset 14. -/
def chainScript : Script :=
  { commands :=
      [{ name := "goto $0", opcode := 0x2, offset := 0, scriptIndex := 0,
         parameters := [{ bytes := [7, 0, 0, 0], bytesSet := true, type := 1, size := 4 }] },
       { name := "goto $0", opcode := 0x2, offset := 7, scriptIndex := 1,
         parameters := [{ bytes := [14, 0, 0, 0], bytesSet := true, type := 1, size := 4 }] },
       { name := "wait $0", opcode := 0x1, offset := 14, scriptIndex := 2,
         parameters := [{ bytes := [0], bytesSet := true, type := 4, size := 1 }] }]
    offsetsToIndices := [(0, 0), (7, 1), (14, 2)] }

/-- The `Jump` at offset 0 of `chainScript`. -/
def chainJump : Command :=
  { name := "goto $0", opcode := 0x2, offset := 0, scriptIndex := 0,
    parameters := [{ bytes := [7, 0, 0, 0], bytesSet := true, type := 1, size := 4 }] }

/-- The `Jump` at offset 0 of `chainScript` with the operand of the `Jump` at
offset 7. -/
def chainJumpOptimized : Command :=
  { name := "goto $0", opcode := 0x2, offset := 0, scriptIndex := 0,
    parameters := [{ bytes := [14, 0, 0, 0], bytesSet := true, type := 1, size := 4 }] }

/-- A decision procedure for `IndexInvertible`: every entry of the offset index
points at a command with that offset, every command is found under its offset,
and every offset is a non-negative `int32_t`. -/
def indexInvertibleCheck (s : Script) : Bool :=
  s.offsetsToIndices.all (fun e =>
      match s.commands[e.2]? with
      | some c => decide (c.offset = e.1)
      | none => false)
    && (List.range s.commands.length).all (fun i =>
      match s.commands[i]? with
      | some c => decide (mapFind s.offsetsToIndices c.offset = some i)
      | none => false)
    && s.commands.all (fun c => decide (0 ≤ c.offset) && decide (c.offset < 2147483648))

/-- The operand types of the definition registered for opcode `op`. -/
def definitionTypes (table : OpcodeTable) (op : Nat) : List Nat :=
  (Command.get table op).parameters.map (fun v => v.type)

/-- The payload length that the type tag at index `p` implies: the length byte
for a variable-length string, else `getValueSize` of the tag. -/
def impliedLength (bytes : List Byte) (p : Nat) : Nat :=
  if (byteAt bytes p).val = DataType.StringVar then (byteAt bytes (p + 1)).val
  else getValueSize (byteAt bytes p).val

/-- The payload of the decoded operand `v`, for the tag byte at index `p` and
the operand `d` of the definition: with a tag other than `Unknown` and `EOAL`
its length is the length the tag implies, when that is not zero; with the tag
`Unknown` or `EOAL` its length is the size that `d` declares, when that is not
zero; and when the length in question is zero the payload of `d` is kept. -/
def PayloadDecoded (bytes : List Byte) (d v : Value) (p : Nat) : Prop :=
  v.type = (byteAt bytes p).val
    ∧ (v.type ≠ DataType.Unknown → v.type ≠ DataType.EOAL →
        (impliedLength bytes p ≠ 0 → v.bytes.length = impliedLength bytes p)
          ∧ (impliedLength bytes p = 0 → v.bytes = d.bytes))
    ∧ (v.type = DataType.Unknown ∨ v.type = DataType.EOAL →
        (d.size ≠ 0 → v.bytes.length = d.size) ∧ (d.size = 0 → v.bytes = d.bytes))

/-- Two occurrences of opcode 6, the first with the tags 3 and 4, the second
with the tags 4 and 4. -/
def twoOccurrences : List Byte := [6, 0, 3, 3, 0, 4, 0x2A, 6, 0, 4, 7, 4, 0x2A]

/-! ## Sample inputs for the conditionals -/

/-- An `If` command at `offset` whose first operand is the one byte `b`. -/
def ifCommand (offset : Int) (index : Nat) (b : Byte) : Command :=
  { name := "if $0", opcode := 0xD6, offset := offset, scriptIndex := index,
    parameters := [{ bytes := [b], bytesSet := true, type := 4, size := 1 }] }

/-- A command that is no jump and no `If`, with the given name, opcode and
operands. -/
def plainCommand (name : String) (opcode : Nat) (offset : Int) (index : Nat)
    (parameters : List Value) : Command :=
  { name := name, opcode := opcode, offset := offset, scriptIndex := index,
    parameters := parameters }

/-- A jump-class command with the given opcode whose one operand is the
`int32_t` of the four bytes `target`. -/
def jumpCommand (opcode : Nat) (offset : Int) (index : Nat) (target : List Byte) : Command :=
  { name := "jump $0", opcode := opcode, offset := offset, scriptIndex := index,
    parameters := [{ bytes := target, bytesSet := true, type := 1, size := 4 }] }

/-- A local variable reference operand (tag 3) with the two offset bytes. -/
def localRef (lo hi : Byte) : Value := { bytes := [lo, hi], bytesSet := true, type := 3, size := 2 }

/-- An `S8` immediate operand (tag 4). -/
def immediate8 (b : Byte) : Value := { bytes := [b], bytesSet := true, type := 4, size := 1 }

/-- A conditional with a body of two commands: `If` with sub-code 0 at offset
0, its condition at offset 4, a `JumpIfFalse` at offset 11 to offset 29, two
commands at offsets 18 and 22, and the command at the target 29. -/
def sampleIfScript : Script :=
  { commands :=
      [ifCommand 0 0 0,
       plainCommand "$0 == $1" 0x38 4 1 [localRef 5 0, immediate8 1],
       jumpCommand 0x4D 11 2 [29, 0, 0, 0],
       plainCommand "wait $0" 0x1 18 3 [immediate8 0],
       plainCommand "$0 = $1" 0x6 22 4 [localRef 5 0, immediate8 2],
       plainCommand "wait $0" 0x1 29 5 [immediate8 0]]
    offsetsToIndices := [(0, 0), (4, 1), (11, 2), (18, 3), (22, 4), (29, 5)]
    jumpSources := [(11, [⟨11, 29, 0x4D⟩])]
    jumpDestinations := [(29, [⟨11, 29, 0x4D⟩])] }

/-- An opcode table as the loader registers it, with `wait`, a comparison,
`jump_if_false` and `if`. -/
def ifTable : OpcodeTable :=
  [(0x1, { name := "wait $0", opcode := 0x1, parameters := [{ size := 1 }] }),
   (0x38, { name := "$0 == $1", opcode := 0x38, parameters := [{ size := 1 }, { size := 2 }] }),
   (0x4D, { name := "jump_if_false $0", opcode := 0x4D, parameters := [{ size := 1 }] }),
   (0xD6, { name := "if $0", opcode := 0xD6, parameters := [{ size := 1 }] })]

/-- The bytes of an `if` with sub-code 0 at offset 0, its condition at offset
4, a `jump_if_false` at offset 11 whose target 18 is the offset just after it,
and a `wait` at offset 18. -/
def emptyBodyBytes : List Byte :=
  [0xD6, 0, 4, 0, 0x38, 0, 3, 5, 0, 4, 1, 0x4D, 0, 1, 18, 0, 0, 0, 1, 0, 4, 0]

/-- The script that `Decompiler::decompile` returns on `emptyBodyBytes`. -/
def emptyBodyScript : Script :=
  { commands :=
      [{ name := "if $0", opcode := 0xD6, offset := 0, scriptIndex := 0,
         parameters := [immediate8 0] },
       { name := "$0 == $1", opcode := 0x38, offset := 4, scriptIndex := 1,
         parameters := [localRef 5 0, immediate8 1] },
       { name := "jump_if_false $0", opcode := 0x4D, offset := 11, scriptIndex := 2,
         parameters := [{ bytes := [18, 0, 0, 0], bytesSet := true, type := 1, size := 4 }] },
       { name := "wait $0", opcode := 0x1, offset := 18, scriptIndex := 3,
         parameters := [immediate8 0] }]
    offsetsToIndices := [(0, 0), (4, 1), (11, 2), (18, 3)]
    jumpSources := [(11, [⟨11, 18, 0x4D⟩])]
    jumpDestinations := [(18, [⟨11, 18, 0x4D⟩])] }

/-- Every offset of a command is a value of an `int32_t`, the type of
`Command::offset`. -/
def OffsetsInt32 (s : Script) : Prop :=
  ∀ c ∈ s.commands, -2147483648 ≤ c.offset ∧ c.offset < 2147483648

/-- The index `i` yields no conditional in `s`: `ifStatementFromIndex(i)`
returns a statement whose combination is `Invalid`, whatever an unassigned
`bodyEndOffset` holds. -/
def Settled (s : Script) (i : Nat) : Prop :=
  ∀ u, ∃ st, s.ifStatementFromIndex u i = .ok st ∧ st.combination = .Invalid

/-! ## Statement vocabulary for the recovered structures -/

/-- The index that `offsetsToIndices[k]` reads: the one stored under `k`, or 0
when `k` is absent. -/
def Script.look (s : Script) (k : Int) : Nat := (mapFind s.offsetsToIndices k).getD 0

/-- Every index stored in the offset index is an index of a command. -/
def IndexInRange (s : Script) : Prop :=
  ∀ k i, mapFind s.offsetsToIndices k = some i → i < s.commands.length

/-- The command `cmd` makes `createLabels` store a label at offset `D`: its
offset is not hidden, it is a jump-class command and not a `Call`, its own
offset is not a key of `ifStatements`, and its destination is `D`. -/
def LabelJump (s : Script) (hidden : List Int) (cmd : Command) (D : Int) : Prop :=
  cmd.offset ∉ hidden ∧ Goto.isJumpOpcode cmd.opcode = true ∧ cmd.opcode ≠ Opcode.Call
    ∧ mapContains s.ifStatements cmd.offset = false
    ∧ ∃ g, Goto.ofCommand cmd = .ok g ∧ g.dest = D

/-- A `Jump` at offset 0 to the `If` at offset 7, followed by the conditional
of `sampleIfScript` moved to offset 7, which is resolved. -/
def labelAnchorScript : Script :=
  { commands :=
      [jumpCommand 0x2 0 0 [7, 0, 0, 0],
       ifCommand 7 1 0,
       plainCommand "$0 == $1" 0x38 11 2 [localRef 5 0, immediate8 1],
       jumpCommand 0x4D 18 3 [36, 0, 0, 0],
       plainCommand "wait $0" 0x1 25 4 [immediate8 0],
       plainCommand "$0 = $1" 0x6 29 5 [localRef 5 0, immediate8 2],
       plainCommand "wait $0" 0x1 36 6 [immediate8 0]]
    offsetsToIndices := [(0, 0), (7, 1), (11, 2), (18, 3), (25, 4), (29, 5), (36, 6)]
    jumpSources := [(0, [⟨0, 7, 0x2⟩]), (18, [⟨18, 36, 0x4D⟩])]
    jumpDestinations := [(7, [⟨0, 7, 0x2⟩]), (36, [⟨18, 36, 0x4D⟩])]
    ifStatements :=
      [(7, { combination := .None, conditionCount := 1, jifOffset := 18,
             conditionStartOffset := 7, conditionEndOffset := 11,
             bodyStartOffset := 25, bodyEndOffset := 29 })] }

/-- Every `Jump` and every `Call` command of the script has an operand. -/
def JumpsHaveOperand (s : Script) : Prop :=
  ∀ c ∈ s.commands, c.opcode = Opcode.Jump ∨ c.opcode = Opcode.Call → c.parameters ≠ []

/-- Two procedures: a `Call` at offset 0 to offset 14, a `Return` at offset 7,
a second `Call` to offset 14 at offset 9, and the procedure at offset 14, a
`wait` and a `Return` at offset 18. -/
def sampleCallScript : Script :=
  { commands :=
      [jumpCommand 0x50 0 0 [14, 0, 0, 0],
       plainCommand "return" 0x51 7 1 [],
       jumpCommand 0x50 9 2 [14, 0, 0, 0],
       plainCommand "wait $0" 0x1 14 3 [immediate8 0],
       plainCommand "return" 0x51 18 4 []]
    offsetsToIndices := [(0, 0), (7, 1), (9, 2), (14, 3), (18, 4)]
    jumpSources := [(0, [⟨0, 14, 0x50⟩]), (9, [⟨9, 14, 0x50⟩])]
    jumpDestinations := [(14, [⟨0, 14, 0x50⟩, ⟨9, 14, 0x50⟩])] }

/-- An opcode table as the loader registers it, with the two assignments
`$0 = $1` of opcodes 4 and 5. -/
def assignTable : OpcodeTable :=
  [(0x4, { name := "$0 = $1", opcode := 0x4, parameters := [{ size := 1 }, { size := 2 }] }),
   (0x5, { name := "$0 = $1", opcode := 0x5, parameters := [{ size := 1 }, { size := 2 }] })]

/-- The bytes of two assignments to the global at offset 100: first of the
`S8` immediate 5 (opcode 4), then of an `F32` immediate (opcode 5). -/
def twoAssignmentsBytes : List Byte :=
  [4, 0, 2, 100, 0, 4, 5, 5, 0, 2, 100, 0, 6, 0, 0, 0x80, 0x3F]

/-- The bytes of an assignment of an `F32` immediate to the global at offset
7 (opcode 5), then of the `S16` immediate 7 to the global at offset 100
(opcode 4). -/
def immediateAssignmentBytes : List Byte :=
  [5, 0, 2, 7, 0, 6, 0, 0, 0x80, 0x3F, 4, 0, 2, 100, 0, 5, 7, 0]

/-- An opcode table as the loader registers it, with `wait` and `jump`. -/
def jumpTable : OpcodeTable :=
  [(0x1, { name := "wait $0", opcode := 0x1, parameters := [{ size := 1 }] }),
   (0x2, { name := "jump $0", opcode := 0x2, parameters := [{ size := 1 }] })]

/-- The bytes of a `jump` at offset 0 to offset 15 and of three `wait`
commands at offsets 7, 11 and 15. -/
def deadCodeBytes : List Byte :=
  [2, 0, 1, 15, 0, 0, 0, 1, 0, 4, 0, 1, 0, 4, 0, 1, 0, 4, 0]

/-! ## Statement vocabulary for `getParamStrings`, the loader and `primitiveVtoS` -/

/-- What claim C28 says the recorded payload of a variable-length string is,
for the data bytes of its span: the bytes before the first non-printable byte
unchanged, and 0 for that byte and every later byte. -/
def zeroAfterNonPrintable : List Byte → List Byte
  | [] => []
  | b :: rest =>
    if isPrint b then b :: zeroAfterNonPrintable rest else List.replicate (rest.length + 1) 0

/-- The decimal numbers of the bytes joined by `.`: what the claim C30 says
follows the type letter of an array operand whose payload is not empty. -/
def dotJoined (bs : List Byte) : List Char :=
  List.intercalate ['.'] (bs.map (fun b => (toString b.val).data))

/-- A table in which the loader has registered opcode 0x8004 from a line
without a description: its name is empty. -/
def emptyNameTable : OpcodeTable :=
  registerWithAlias [] 0x8004 { name := "", opcode := 0x8004, parameters := [{ size := 1 }] }

/-- The definition that the loader builds for opcode 4, `$0 = $1`. -/
def assignDefinition : Command :=
  { name := "$0 = $1", opcode := 0x4, parameters := [{ size := 1 }, { size := 2 }] }

/-- An opcode table as the loader registers it, with `wait`, `jump`, the
assignment `$0 = $1`, the increment `$0 += $1`, a comparison, `jump_if_false`
and `if`. -/
def loopTable : OpcodeTable :=
  [(0x1, { name := "wait $0", opcode := 0x1, parameters := [{ size := 1 }] }),
   (0x2, { name := "jump $0", opcode := 0x2, parameters := [{ size := 1 }] }),
   (0x4, { name := "$0 = $1", opcode := 0x4, parameters := [{ size := 1 }, { size := 2 }] }),
   (0x8, { name := "$0 += $1", opcode := 0x8, parameters := [{ size := 1 }, { size := 2 }] }),
   (0x38, { name := "$0 == $1", opcode := 0x38, parameters := [{ size := 1 }, { size := 2 }] }),
   (0x4D, { name := "jump_if_false $0", opcode := 0x4D, parameters := [{ size := 1 }] }),
   (0xD6, { name := "if $0", opcode := 0xD6, parameters := [{ size := 1 }] })]

/-- The bytes of a loop: `wait` at offset 0, an assignment at offset 4, `if`
at offset 11, its condition at offset 15, `jump_if_false` to offset 43 at
offset 22, an increment at offset 29, a jump-class command with the opcode
`back` to offset 11 at offset 36, and `wait` at offset 43. -/
def loopBytes (back : Byte) : List Byte :=
  [1, 0, 4, 0,
   4, 0, 3, 5, 0, 4, 0,
   0xD6, 0, 4, 0,
   0x38, 0, 3, 5, 0, 4, 10,
   0x4D, 0, 1, 43, 0, 0, 0,
   8, 0, 3, 5, 0, 4, 1,
   back, 0, 1, 11, 0, 0, 0,
   1, 0, 4, 0]

/-- The script decompiled from `loopBytes back`, with its conditional at
offset 11 resolved. -/
def loopScript (back : Byte) (backName : String) : Script :=
  { commands :=
      [{ name := "wait $0", opcode := 0x1, offset := 0, scriptIndex := 0,
         parameters := [immediate8 0] },
       { name := "$0 = $1", opcode := 0x4, offset := 4, scriptIndex := 1,
         parameters := [localRef 5 0, immediate8 0] },
       { name := "if $0", opcode := 0xD6, offset := 11, scriptIndex := 2,
         parameters := [immediate8 0] },
       { name := "$0 == $1", opcode := 0x38, offset := 15, scriptIndex := 3,
         parameters := [localRef 5 0, immediate8 10] },
       { name := "jump_if_false $0", opcode := 0x4D, offset := 22, scriptIndex := 4,
         parameters := [{ bytes := [43, 0, 0, 0], bytesSet := true, type := 1, size := 4 }] },
       { name := "$0 += $1", opcode := 0x8, offset := 29, scriptIndex := 5,
         parameters := [localRef 5 0, immediate8 1] },
       { name := backName, opcode := back.val, offset := 36, scriptIndex := 6,
         parameters := [{ bytes := [11, 0, 0, 0], bytesSet := true, type := 1, size := 4 }] },
       { name := "wait $0", opcode := 0x1, offset := 43, scriptIndex := 7,
         parameters := [immediate8 0] }]
    offsetsToIndices := [(0, 0), (4, 1), (11, 2), (15, 3), (22, 4), (29, 5), (36, 6), (43, 7)]
    jumpSources := [(22, [⟨22, 43, 0x4D⟩]), (36, [⟨36, 11, back.val⟩])]
    jumpDestinations := [(11, [⟨36, 11, back.val⟩]), (43, [⟨22, 43, 0x4D⟩])]
    ifStatements :=
      [(11, { combination := .None, conditionCount := 1, jifOffset := 22,
              conditionStartOffset := 11, conditionEndOffset := 15,
              bodyStartOffset := 29, bodyEndOffset := 36 })] }

/-- Every conditional of `ifStatements` is anchored in the script: the keys
under which `createForLoops` looks up its `jifOffset`, its
`conditionStartOffset` and its `conditionEndOffset` are keys of the offset
index. -/
def IfsAnchored (s : Script) : Prop :=
  ∀ e ∈ s.ifStatements,
    mapContains s.offsetsToIndices (sizeToInt32 (toSizeT e.2.jifOffset)) = true
      ∧ mapContains s.offsetsToIndices (sizeToInt32 e.2.conditionStartOffset) = true
      ∧ mapContains s.offsetsToIndices
          (sizeToInt32 (toSizeT (sizeToInt32 e.2.conditionEndOffset))) = true

/-- The conditional `st` stored under the key `k` has the shape of a loop
with the jump `loopJump` and the increment `incDec`: the command at its
`jifOffset` is a jump-class command with an operand, the target of that jump
is the offset of a command, `loopJump` is the command one slot before the
target, a jump-class command whose destination is `k`, and `incDec` is the
command just before `loopJump`, with `+` or `-` in its name. -/
def ForLoopShape (s : Script) (k : Int) (st : FullIf) (loopJump incDec : Command) : Prop :=
  ∃ jif g j, s.commandAt? (sizeToInt32 (toSizeT st.jifOffset)) = some jif
    ∧ Goto.ofCommand jif = .ok g
    ∧ mapFind s.offsetsToIndices g.dest = some (j + 2)
    ∧ s.commands[j + 1]? = some loopJump ∧ s.commands[j]? = some incDec
    ∧ Goto.isJumpOpcode loopJump.opcode = true
    ∧ (∃ b, Goto.ofCommand loopJump = .ok b ∧ b.dest = k)
    ∧ hasPlusMinus incDec.name = true

/-! ## Statement vocabulary and sample inputs for `optimizeScript` -/

/-- The edges of all the sets of a jump index, in the order in which the two
nested loops of `optimizeScript` visit them. -/
def allEdges (m : List (Int × List Goto)) : List Goto := (m.map Prod.snd).flatten

/-- The bytes of an `if` with sub-code 0 at offset 0 that no `jump_if_false`
follows, a `wait` at offset 4 and a `jump` back to offset 0 at offset 8. -/
def unresolvedIfBytes : List Byte :=
  [0xD6, 0, 4, 0, 1, 0, 4, 0, 2, 0, 1, 0, 0, 0, 0]

/-- The bytes of a `wait` at offset 0 and of a `jump` at offset 4 whose target
2 is the offset of no command. -/
def strayTargetBytes : List Byte := [1, 0, 4, 0, 2, 0, 1, 2, 0, 0, 0]

/-- A `Jump` at offset 0 whose stored target is -7. -/
def negativeJump : Command := jumpCommand 0x2 0 0 [0xF9, 0xFF, 0xFF, 0xFF]

/-- A `Jump` at offset 0 whose target is encoded as the 8-bit immediate 5. -/
def shortJump : Command :=
  { name := "jump $0", opcode := 0x2, offset := 0, scriptIndex := 0,
    parameters := [immediate8 5] }

/-- The little-endian signed 32-bit value of four bytes. -/
def signed32 (bs : List Byte) : Int :=
  if leNat bs < 2147483648 then Int.ofNat (leNat bs) else Int.ofNat (leNat bs) - 4294967296

/-- The bytes of a `wait` at offset 0, an `if` at offset 4 that no
`jump_if_false` follows, and two `wait` commands at offsets 8 and 12. -/
def cacheBytes : List Byte := [1, 0, 4, 0, 0xD6, 0, 4, 0, 1, 0, 4, 0, 1, 0, 4, 0]

/-- The bytes of a conditional: `if` with sub-code 0 at offset 0, its
condition at offset 4, `jump_if_false` to offset 26 at offset 11, and `wait`
commands at offsets 18, 22 and 26. -/
def resolvedIfBytes : List Byte :=
  [0xD6, 0, 4, 0, 0x38, 0, 3, 5, 0, 4, 1, 0x4D, 0, 1, 26, 0, 0, 0, 1, 0, 4, 0, 1, 0, 4, 0,
   1, 0, 4, 0]

/-- A buffer of 2^31 + 2 bytes, each of them 1: with an empty opcode table it
decodes to commands of the unregistered opcode 0x0101, of two bytes each. -/
def wrapBuffer : List Byte := List.replicate 2147483650 1

/-- The bytes of a `jump` at offset 0 to offset 7, an `if` with sub-code 0 at
offset 7, its condition at offset 11, a `jump_if_false` at offset 18 to offset
36, a `wait` at offset 25, an assignment at offset 29 and a `wait` at the
target 36. -/
def labelAnchorBytes : List Byte :=
  [2, 0, 1, 7, 0, 0, 0,
   0xD6, 0, 4, 0,
   0x38, 0, 3, 5, 0, 4, 1,
   0x4D, 0, 1, 36, 0, 0, 0,
   1, 0, 4, 0,
   4, 0, 3, 5, 0, 4, 2,
   1, 0, 4, 0]

/-- Every edge recorded in `jumpSources` has the opcode of the command that
its source indexes, `commands[offsetsToIndices[jump.source]]`. -/
def SourcesMatch (s : Script) : Prop :=
  ∀ entry ∈ s.jumpSources, ∀ jump ∈ entry.2,
    (s.commands[s.look jump.source]?).map Command.opcode = some jump.jumpOpcode

section MapLemmas
variable {κ : Type} {β : Type} [DecidableEq κ]

theorem mapFind_mapInsertNew [LT κ] [DecidableRel (α := κ) (· < ·)] (m : List (κ × β)) (k : κ) (v : β) (k1 : κ)
    (h : mapFind m k = none) :
    mapFind (mapInsertNew m k v) k1 = if k = k1 then some v else mapFind m k1 := by
  induction m with
  | nil => simp [mapInsertNew, mapFind]
  | cons a m ih =>
    obtain ⟨k2, v2⟩ := a
    simp only [mapFind] at h
    by_cases hk : k2 = k
    · simp [hk] at h
    · simp only [hk, if_false] at h
      simp only [mapInsertNew]
      by_cases hlt : k < k2
      · simp [hlt, mapFind]
      · simp only [hlt, if_false, mapFind, ih h]
        by_cases h1 : k2 = k1
        · subst h1
          simp [Ne.symm hk]
        · simp [h1]

theorem mapFind_mapAdjust (m : List (κ × β)) (k : κ) (f : β → β) (k1 : κ) :
    mapFind (mapAdjust m k f) k1 = if k = k1 then (mapFind m k).map f else mapFind m k1 := by
  induction m with
  | nil => simp [mapAdjust, mapFind]
  | cons a m ih =>
    obtain ⟨k2, v2⟩ := a
    simp only [mapAdjust]
    by_cases hk : k2 = k
    · subst hk
      simp only [if_true, mapFind]
      by_cases h1 : k2 = k1 <;> simp [h1]
    · simp only [hk, if_false, mapFind, ih]
      by_cases h1 : k2 = k1
      · subst h1
        simp [Ne.symm hk]
      · simp [h1]

theorem mapFind_mapModify [LT κ] [DecidableRel (α := κ) (· < ·)] (m : List (κ × β)) (k : κ) (d : β) (f : β → β) (k1 : κ) :
    mapFind (mapModify m k d f) k1
      = if k = k1 then some (f ((mapFind m k).getD d)) else mapFind m k1 := by
  unfold mapModify mapContains
  cases h : mapFind m k with
  | none => simp [mapFind_mapInsertNew m k (f d) k1 h]
  | some v => simp [mapFind_mapAdjust, h]

theorem mapFind_mapSet [LT κ] [DecidableRel (α := κ) (· < ·)] (m : List (κ × β)) (k : κ) (v : β) (k1 : κ) :
    mapFind (mapSet m k v) k1 = if k = k1 then some v else mapFind m k1 := by
  unfold mapSet
  rw [mapFind_mapModify]

theorem mapAdjust_eq_self (m : List (κ × β)) (k : κ) (f : β → β) (v : β)
    (h : mapFind m k = some v) (hf : f v = v) : mapAdjust m k f = m := by
  induction m with
  | nil => rfl
  | cons a m ih =>
    obtain ⟨k2, v2⟩ := a
    simp only [mapFind] at h
    simp only [mapAdjust]
    by_cases hk : k2 = k
    · simp only [hk, if_true, Option.some.injEq] at h
      subst h
      simp [hk, hf]
    · simp only [hk, if_false] at h
      simp [hk, ih h]

end MapLemmas

/-! ## Lemmas on `Goto::operator<` and on sets of edges -/

theorem Goto.lt_iff (a b : Goto) :
    Goto.lt a b = true ↔
      a.source < b.source ∨ (a.source = b.source ∧
        (a.dest < b.dest ∨ (a.dest = b.dest ∧ a.jumpOpcode < b.jumpOpcode))) := by
  unfold Goto.lt
  split_ifs with h1 h2 h3 h4
  · simp [h1]
  · simp only [Bool.false_eq_true, false_iff]; omega
  · have : a.source = b.source := by omega
    simp [h3, this]
  · simp only [Bool.false_eq_true, false_iff]; omega
  · have hs : a.source = b.source := by omega
    have hd : a.dest = b.dest := by omega
    simp [hs, hd]

theorem Goto.equiv_iff_eq (a b : Goto) :
    (Goto.lt a b = false ∧ Goto.lt b a = false) ↔ a = b := by
  constructor
  · rintro ⟨h1, h2⟩
    have n1 : ¬ (Goto.lt a b = true) := by simp [h1]
    have n2 : ¬ (Goto.lt b a = true) := by simp [h2]
    rw [Goto.lt_iff] at n1 n2
    obtain ⟨s1, d1, o1⟩ := a
    obtain ⟨s2, d2, o2⟩ := b
    simp only at n1 n2
    have hs : s1 = s2 := by omega
    have hd : d1 = d2 := by omega
    have ho : o1 = o2 := by omega
    simp [hs, hd, ho]
  · rintro rfl
    have n : ¬ (Goto.lt a a = true) := by rw [Goto.lt_iff]; omega
    simp at n
    exact ⟨n, n⟩

theorem setHas_iff (s : List Goto) (x : Goto) : setHas s x = true ↔ x ∈ s := by
  unfold setHas
  simp only [List.any_eq_true, Bool.and_eq_true, Bool.not_eq_true']
  constructor
  · rintro ⟨e, he, h⟩
    have := (Goto.equiv_iff_eq e x).1 h
    exact this ▸ he
  · intro hx
    exact ⟨x, hx, (Goto.equiv_iff_eq x x).2 rfl⟩

theorem mem_setPlace (s : List Goto) (x e : Goto) : e ∈ setPlace s x ↔ e = x ∨ e ∈ s := by
  induction s with
  | nil => simp [setPlace]
  | cons a s ih =>
    simp only [setPlace]
    split_ifs
    · simp
    · simp only [List.mem_cons, ih]
      tauto

theorem mem_setInsert (s : List Goto) (x e : Goto) : e ∈ setInsert s x ↔ e = x ∨ e ∈ s := by
  unfold setInsert
  split_ifs with h
  · rw [setHas_iff] at h
    constructor
    · intro he; exact Or.inr he
    · rintro (rfl | he)
      · exact h
      · exact he
  · exact mem_setPlace s x e

theorem setInsert_of_mem (s : List Goto) (x : Goto) (h : x ∈ s) : setInsert s x = s := by
  unfold setInsert
  rw [(setHas_iff s x).2 h]
  rfl

/-! ## Lemmas on `addJump` and `regenJumpInfo` -/

theorem edgeAt_mapModify (m : List (Int × List Goto)) (jump : Goto) (key k : Int) (e : Goto) :
    edgeAt (mapModify m key [] (fun set => setInsert set jump)) k e
      ↔ (k = key ∧ e = jump) ∨ edgeAt m k e := by
  unfold edgeAt
  rw [mapFind_mapModify]
  by_cases hk : key = k
  · subst hk
    simp only [if_true, Option.getD_some, mem_setInsert, true_and]
  · simp only [hk, if_false]
    constructor
    · intro h; exact Or.inr h
    · rintro (⟨h1, _⟩ | h)
      · exact absurd h1.symm hk
      · exact h

theorem addJump_commands (s : Script) (jump : Goto) : (s.addJump jump).commands = s.commands := rfl

theorem addJump_offsetsToIndices (s : Script) (jump : Goto) :
    (s.addJump jump).offsetsToIndices = s.offsetsToIndices := rfl

theorem edgeAt_addJump_sources (s : Script) (jump : Goto) (k : Int) (e : Goto) :
    edgeAt (s.addJump jump).jumpSources k e
      ↔ (k = jump.source ∧ e = jump) ∨ edgeAt s.jumpSources k e := by
  unfold Script.addJump
  exact edgeAt_mapModify _ _ _ _ _

theorem edgeAt_addJump_destinations (s : Script) (jump : Goto) (k : Int) (e : Goto) :
    edgeAt (s.addJump jump).jumpDestinations k e
      ↔ (k = jump.dest ∧ e = jump) ∨ edgeAt s.jumpDestinations k e := by
  unfold Script.addJump
  exact edgeAt_mapModify _ _ _ _ _

theorem jumpsSymmetric_of_empty (s : Script) (h1 : s.jumpSources = [])
    (h2 : s.jumpDestinations = []) : JumpsSymmetric s := by
  unfold JumpsSymmetric edgeAt
  rw [h1, h2]
  simp [mapFind]

theorem jumpsSymmetric_addJump (s : Script) (jump : Goto) (h : JumpsSymmetric s) :
    JumpsSymmetric (s.addJump jump) := by
  obtain ⟨hsym, hsrc, hdst⟩ := h
  refine ⟨?_, ?_, ?_⟩
  · intro e
    rw [edgeAt_addJump_sources, edgeAt_addJump_destinations, hsym e]
    constructor
    · rintro (⟨_, rfl⟩ | h)
      · exact Or.inl ⟨rfl, rfl⟩
      · exact Or.inr h
    · rintro (⟨_, rfl⟩ | h)
      · exact Or.inl ⟨rfl, rfl⟩
      · exact Or.inr h
  · intro k e
    rw [edgeAt_addJump_sources]
    rintro (⟨rfl, rfl⟩ | h)
    · rfl
    · exact hsrc k e h
  · intro k e
    rw [edgeAt_addJump_destinations]
    rintro (⟨rfl, rfl⟩ | h)
    · rfl
    · exact hdst k e h

theorem jumpsSymmetric_regenLoop (cmds : List Command) (s s1 : Script)
    (h : JumpsSymmetric s) (hr : Script.regenLoop cmds s = .ok s1) : JumpsSymmetric s1 := by
  induction cmds generalizing s with
  | nil =>
    simp only [Script.regenLoop, Except.ok.injEq] at hr
    exact hr ▸ h
  | cons c cmds ih =>
    simp only [Script.regenLoop] at hr
    split_ifs at hr with hj
    · cases hg : Goto.ofCommand c with
      | error e => simp [hg] at hr
      | ok jump =>
        simp only [hg] at hr
        exact ih _ (jumpsSymmetric_addJump s jump h) hr
    · exact ih _ h hr

theorem regenLoop_spec (cmds : List Command) (s s1 : Script)
    (hr : Script.regenLoop cmds s = .ok s1) :
    s1.clearJumps = s.clearJumps
      ∧ (∀ k e, edgeAt s1.jumpSources k e ↔
          edgeAt s.jumpSources k e ∨ (k = e.source ∧ ∃ c ∈ cmds, Goto.ofCommand c = .ok e))
      ∧ (∀ k e, edgeAt s1.jumpDestinations k e ↔
          edgeAt s.jumpDestinations k e ∨ (k = e.dest ∧ ∃ c ∈ cmds, Goto.ofCommand c = .ok e)) := by
  induction cmds generalizing s with
  | nil =>
    simp only [Script.regenLoop, Except.ok.injEq] at hr
    subst hr
    simp
  | cons c cmds ih =>
    simp only [Script.regenLoop] at hr
    cases hg : Goto.ofCommand c with
    | error err =>
      have hrest : Script.regenLoop cmds s = .ok s1 := by
        split_ifs at hr with hj
        · simp [hg] at hr
        · exact hr
      obtain ⟨h0, h1, h2⟩ := ih s hrest
      refine ⟨h0, ?_, ?_⟩
      · intro k e
        rw [h1 k e]
        simp only [List.mem_cons, exists_eq_or_imp, hg]
        simp
      · intro k e
        rw [h2 k e]
        simp only [List.mem_cons, exists_eq_or_imp, hg]
        simp
    | ok jump =>
      have hj : Goto.isJumpOpcode c.opcode = true := by
        unfold Goto.ofCommand at hg
        split_ifs at hg with hj
        · exact hj
      simp only [hj, if_true, hg] at hr
      obtain ⟨h0, h1, h2⟩ := ih _ hr
      refine ⟨h0, ?_, ?_⟩
      · intro k e
        rw [h1 k e, edgeAt_addJump_sources]
        simp only [List.mem_cons, exists_eq_or_imp, hg, Except.ok.injEq]
        constructor
        · rintro ((⟨rfl, rfl⟩ | h) | ⟨hk, h⟩)
          · exact Or.inr ⟨rfl, Or.inl rfl⟩
          · exact Or.inl h
          · exact Or.inr ⟨hk, Or.inr h⟩
        · rintro (h | ⟨hk, rfl | h⟩)
          · exact Or.inl (Or.inr h)
          · exact Or.inl (Or.inl ⟨hk, rfl⟩)
          · exact Or.inr ⟨hk, h⟩
      · intro k e
        rw [h2 k e, edgeAt_addJump_destinations]
        simp only [List.mem_cons, exists_eq_or_imp, hg, Except.ok.injEq]
        constructor
        · rintro ((⟨rfl, rfl⟩ | h) | ⟨hk, h⟩)
          · exact Or.inr ⟨rfl, Or.inl rfl⟩
          · exact Or.inl h
          · exact Or.inr ⟨hk, Or.inr h⟩
        · rintro (h | ⟨hk, rfl | h⟩)
          · exact Or.inl (Or.inr h)
          · exact Or.inl (Or.inl ⟨hk, rfl⟩)
          · exact Or.inr ⟨hk, h⟩

theorem Goto.ofCommand_isOk (c : Command) (hj : Goto.isJumpOpcode c.opcode = true)
    (hp : c.parameters ≠ []) : ∃ jump, Goto.ofCommand c = .ok jump := by
  unfold Goto.ofCommand
  rw [if_pos hj]
  cases hps : c.parameters with
  | nil => exact absurd hps hp
  | cons p ps => exact ⟨_, rfl⟩

theorem regenLoop_isOk (cmds : List Command) (s : Script)
    (h : ∀ c ∈ cmds, Goto.isJumpOpcode c.opcode = true → c.parameters ≠ []) :
    ∃ s1, Script.regenLoop cmds s = .ok s1 := by
  induction cmds generalizing s with
  | nil => exact ⟨s, rfl⟩
  | cons c cmds ih =>
    have hrest : ∀ c1 ∈ cmds, Goto.isJumpOpcode c1.opcode = true → c1.parameters ≠ [] :=
      fun c1 h1 => h c1 (List.mem_cons_of_mem _ h1)
    simp only [Script.regenLoop]
    split_ifs with hj
    · obtain ⟨jump, hg⟩ := Goto.ofCommand_isOk c hj (h c (List.mem_cons_self _ _) hj)
      rw [hg]
      exact ih _ hrest
    · exact ih _ hrest

theorem edgeAt_nil (k : Int) (e : Goto) : ¬ edgeAt [] k e := by
  simp [edgeAt, mapFind]

/-! ## The jump indices (claims C7, C8, C9) -/

/-- C7: in every script state reached from empty jump indices by calls of
`addJump` and `regenJumpInfo`, an edge is stored in `jumpSources` under its
source exactly when it is stored in `jumpDestinations` under its destination,
every edge under key `k` of `jumpSources` has source `k`, and every edge under
key `k` of `jumpDestinations` has destination `k`. -/
theorem jump_indices_symmetric (s : Script) (h : JumpReachable s) :
    (∀ e, edgeAt s.jumpSources e.source e ↔ edgeAt s.jumpDestinations e.dest e)
      ∧ (∀ k e, edgeAt s.jumpSources k e → e.source = k)
      ∧ (∀ k e, edgeAt s.jumpDestinations k e → e.dest = k) := by
  induction h with
  | init s h1 h2 => exact jumpsSymmetric_of_empty s h1 h2
  | addJump jump _ ih => exact jumpsSymmetric_addJump _ jump ih
  | regen _ hr _ =>
    unfold Script.regenJumpInfo at hr
    exact jumpsSymmetric_regenLoop _ _ _ (jumpsSymmetric_of_empty _ rfl rfl) hr
  | edit commands index _ ih => exact ih

theorem sampleJumpScript_reachable : JumpReachable sampleJumpScript :=
  JumpReachable.regen
    (JumpReachable.init sampleJumpScript.clearJumps rfl rfl)
    (by rfl)

/-- C7 at `sampleJumpScript`, which `regenJumpInfo` produces from empty indices. -/
theorem jump_indices_symmetric_witness :
    JumpReachable sampleJumpScript
      ∧ ((∀ e, edgeAt sampleJumpScript.jumpSources e.source e
            ↔ edgeAt sampleJumpScript.jumpDestinations e.dest e)
        ∧ (∀ k e, edgeAt sampleJumpScript.jumpSources k e → e.source = k)
        ∧ (∀ k e, edgeAt sampleJumpScript.jumpDestinations k e → e.dest = k)) :=
  ⟨sampleJumpScript_reachable, jump_indices_symmetric sampleJumpScript sampleJumpScript_reachable⟩

/-- C8: whatever the jump indices held before, after `regenJumpInfo` the edges
stored in `jumpSources`, and likewise those stored in `jumpDestinations`, are
exactly the edges `Goto(c)` of the jump-class commands `c`; the commands are
unchanged; and a second call changes nothing. The call is defined as soon as
every jump-class command has the operand that `Goto` reads. -/
theorem regenJumpInfo_rebuilds (s : Script) :
    ((∀ c ∈ s.commands, Goto.isJumpOpcode c.opcode = true → c.parameters ≠ []) →
        ∃ s1, s.regenJumpInfo = .ok s1)
      ∧ ∀ s1, s.regenJumpInfo = .ok s1 →
          (∀ e, edgeIn s1.jumpSources e ↔
              ∃ c ∈ s.commands, Goto.isJumpOpcode c.opcode = true ∧ Goto.ofCommand c = .ok e)
            ∧ (∀ e, edgeIn s1.jumpDestinations e ↔
                ∃ c ∈ s.commands, Goto.isJumpOpcode c.opcode = true ∧ Goto.ofCommand c = .ok e)
            ∧ s1.commands = s.commands
            ∧ s1.regenJumpInfo = .ok s1 := by
  refine ⟨fun hops => regenLoop_isOk s.commands s.clearJumps hops, ?_⟩
  intro s1 hr
  have hjump : ∀ (c : Command) (e : Goto), Goto.ofCommand c = .ok e →
      Goto.isJumpOpcode c.opcode = true := by
    intro c e hg
    unfold Goto.ofCommand at hg
    split_ifs at hg with hj
    · exact hj
  obtain ⟨h0, h1, h2⟩ := regenLoop_spec _ _ _ hr
  have h0 : s1.clearJumps = s.clearJumps := h0
  have hc : s1.clearJumps.commands = s.clearJumps.commands := congrArg Script.commands h0
  have hc : s1.commands = s.commands := hc
  refine ⟨?_, ?_, hc, ?_⟩
  · intro e
    constructor
    · rintro ⟨k, hk⟩
      rcases (h1 k e).1 hk with h | ⟨_, c, hcm, hg⟩
      · exact absurd h (edgeAt_nil k e)
      · exact ⟨c, hcm, hjump c e hg, hg⟩
    · rintro ⟨c, hcm, _, hg⟩
      exact ⟨e.source, (h1 _ e).2 (Or.inr ⟨rfl, c, hcm, hg⟩)⟩
  · intro e
    constructor
    · rintro ⟨k, hk⟩
      rcases (h2 k e).1 hk with h | ⟨_, c, hcm, hg⟩
      · exact absurd h (edgeAt_nil k e)
      · exact ⟨c, hcm, hjump c e hg, hg⟩
    · rintro ⟨c, hcm, _, hg⟩
      exact ⟨e.dest, (h2 _ e).2 (Or.inr ⟨rfl, c, hcm, hg⟩)⟩
  · unfold Script.regenJumpInfo
    rw [hc, h0]
    exact hr

/-- C8 at `sampleJumpScript` with a stale edge put into `jumpSources` first:
the call returns `sampleJumpScript`, whose indices hold the one edge of its
`Jump` command. -/
theorem regenJumpInfo_rebuilds_witness :
    ({ sampleJumpScript with jumpSources := [(5, [⟨5, 6, 80⟩])] } : Script).regenJumpInfo
        = .ok sampleJumpScript
      ∧ (∀ e, edgeIn sampleJumpScript.jumpSources e ↔
          ∃ c ∈ ({ sampleJumpScript with jumpSources := [(5, [⟨5, 6, 80⟩])] } : Script).commands,
            Goto.isJumpOpcode c.opcode = true ∧ Goto.ofCommand c = .ok e)
      ∧ sampleJumpScript.regenJumpInfo = .ok sampleJumpScript :=
  have h : ({ sampleJumpScript with jumpSources := [(5, [⟨5, 6, 80⟩])] } : Script).regenJumpInfo
      = .ok sampleJumpScript := by rfl
  have h1 := (regenJumpInfo_rebuilds _).2 sampleJumpScript h
  ⟨h, h1.1, h1.2.2.2⟩

/-- C9: `Goto::operator<` is the lexicographic strict total order on
(source, dest, jumpOpcode): irreflexive, transitive, and total on edges that
differ; two edges are the same set member exactly when the three fields are
equal; and `addJump` of an edge already present leaves both indices unchanged. -/
theorem goto_lt_strict_total_order :
    (∀ a b : Goto, Goto.lt a b = true ↔
        a.source < b.source ∨ (a.source = b.source ∧
          (a.dest < b.dest ∨ (a.dest = b.dest ∧ a.jumpOpcode < b.jumpOpcode))))
      ∧ (∀ a : Goto, Goto.lt a a = false)
      ∧ (∀ a b c : Goto, Goto.lt a b = true → Goto.lt b c = true → Goto.lt a c = true)
      ∧ (∀ a b : Goto, a ≠ b → Goto.lt a b = true ∨ Goto.lt b a = true)
      ∧ (∀ a b : Goto, (Goto.lt a b = false ∧ Goto.lt b a = false) ↔
          (a.source = b.source ∧ a.dest = b.dest ∧ a.jumpOpcode = b.jumpOpcode))
      ∧ (∀ (s : Script) (e : Goto), edgeAt s.jumpSources e.source e →
          edgeAt s.jumpDestinations e.dest e → s.addJump e = s) := by
  refine ⟨Goto.lt_iff, ?_, ?_, ?_, ?_, ?_⟩
  · intro a
    exact ((Goto.equiv_iff_eq a a).2 rfl).1
  · intro a b c hab hbc
    rw [Goto.lt_iff] at hab hbc ⊢
    omega
  · intro a b hne
    by_contra hcon
    simp only [not_or, Bool.not_eq_true] at hcon
    exact hne ((Goto.equiv_iff_eq a b).1 hcon)
  · intro a b
    rw [Goto.equiv_iff_eq]
    constructor
    · rintro rfl
      exact ⟨rfl, rfl, rfl⟩
    · rintro ⟨h1, h2, h3⟩
      obtain ⟨s1, d1, o1⟩ := a
      obtain ⟨s2, d2, o2⟩ := b
      simp only at h1 h2 h3
      simp [h1, h2, h3]
  · intro s e hs hd
    have keep : ∀ (m : List (Int × List Goto)) (k : Int), edgeAt m k e →
        mapModify m k [] (fun set => setInsert set e) = m := by
      intro m k hm
      unfold edgeAt at hm
      unfold mapModify mapContains
      cases hf : mapFind m k with
      | none => simp [hf] at hm
      | some set =>
        rw [hf] at hm
        simp only [Option.isSome_some, if_true]
        exact mapAdjust_eq_self m k _ set hf (setInsert_of_mem set e hm)
    unfold Script.addJump
    simp only [keep _ _ hs, keep _ _ hd]

/-- C9 at `sampleJumpScript`: adding its edge again changes nothing. -/
theorem goto_lt_strict_total_order_witness :
    edgeAt sampleJumpScript.jumpSources (⟨0, 7, 2⟩ : Goto).source ⟨0, 7, 2⟩
      ∧ edgeAt sampleJumpScript.jumpDestinations (⟨0, 7, 2⟩ : Goto).dest ⟨0, 7, 2⟩
      ∧ sampleJumpScript.addJump ⟨0, 7, 2⟩ = sampleJumpScript :=
  have h1 : edgeAt sampleJumpScript.jumpSources (⟨0, 7, 2⟩ : Goto).source ⟨0, 7, 2⟩ := by
    simp [edgeAt, sampleJumpScript, mapFind]
  have h2 : edgeAt sampleJumpScript.jumpDestinations (⟨0, 7, 2⟩ : Goto).dest ⟨0, 7, 2⟩ := by
    simp [edgeAt, sampleJumpScript, mapFind]
  ⟨h1, h2, goto_lt_strict_total_order.2.2.2.2.2 sampleJumpScript ⟨0, 7, 2⟩ h1 h2⟩

/-! ## The jump optimizer (claim C10) -/

/-- C10: `optimizeJump(edge, cmd)` returns `cmd` unchanged when the source or
the destination offset of the edge is absent from `offsetsToIndices`, when the
command at the source is not jump-class, and when the command at the
destination is a `JumpIfFalse` or not a jump at all; a result different from
`cmd` arises only when the destination command is a `Jump` or a `Call`. -/
theorem optimizeJump_unchanged (s : Script) (fuel : Nat) (jump : Goto) (cmd : Command) :
    ((mapFind s.offsetsToIndices jump.source = none
          ∨ mapFind s.offsetsToIndices jump.dest = none) →
        s.optimizeJump (fuel + 1) jump cmd = .ok cmd)
      ∧ (∀ i1 i2 c1 c2, mapFind s.offsetsToIndices jump.source = some i1 →
          mapFind s.offsetsToIndices jump.dest = some i2 →
          s.commands[i1]? = some c1 → s.commands[i2]? = some c2 →
          (Goto.isJumpOpcode c1.opcode = false ∨ Goto.isJumpOpcode c2.opcode = false
            ∨ c2.opcode = Opcode.JumpIfFalse) →
          s.optimizeJump (fuel + 1) jump cmd = .ok cmd)
      ∧ (∀ r, s.optimizeJump fuel jump cmd = .ok r → r ≠ cmd →
          ∃ i1 i2 c1 c2, mapFind s.offsetsToIndices jump.source = some i1
            ∧ mapFind s.offsetsToIndices jump.dest = some i2
            ∧ s.commands[i1]? = some c1 ∧ s.commands[i2]? = some c2
            ∧ Goto.isJumpOpcode c1.opcode = true
            ∧ (c2.opcode = Opcode.Jump ∨ c2.opcode = Opcode.Call)) := by
  refine ⟨?_, ?_, ?_⟩
  · intro h
    unfold Script.optimizeJump
    cases h1 : mapFind s.offsetsToIndices jump.source with
    | none => rfl
    | some i1 =>
      rcases h with h | h
      · rw [h1] at h; cases h
      · simp only [h]
  · intro i1 i2 c1 c2 h1 h2 hc1 hc2 hcase
    unfold Script.optimizeJump
    simp only [h1, h2, hc1, hc2]
    rcases hcase with h | h | h
    · simp [h]
    · simp [h]
    · simp [h, Opcode.JumpIfFalse, Opcode.Call, Opcode.Jump]
  · intro r hr hne
    cases fuel with
    | zero => simp [Script.optimizeJump] at hr
    | succ fuel =>
      unfold Script.optimizeJump at hr
      cases h1 : mapFind s.offsetsToIndices jump.source with
      | none =>
        simp only [h1, Except.ok.injEq] at hr
        exact absurd hr.symm hne
      | some i1 =>
        cases h2 : mapFind s.offsetsToIndices jump.dest with
        | none =>
          simp only [h1, h2, Except.ok.injEq] at hr
          exact absurd hr.symm hne
        | some i2 =>
          cases hc1 : s.commands[i1]? with
          | none => simp [h1, h2, hc1] at hr
          | some c1 =>
            cases hc2 : s.commands[i2]? with
            | none => simp [h1, h2, hc1, hc2] at hr
            | some c2 =>
              simp only [h1, h2, hc1, hc2] at hr
              split_ifs at hr with ha hb
              · simp only [Except.ok.injEq] at hr
                exact absurd hr.symm hne
              · refine ⟨i1, i2, c1, c2, rfl, rfl, hc1, hc2, ?_, ?_⟩
                · simp only [Bool.or_eq_true, Bool.not_eq_true', not_or,
                    Bool.not_eq_false] at ha
                  exact ha.1
                · simp only [Bool.or_eq_true, beq_iff_eq] at hb
                  exact hb.symm
              · simp only [Except.ok.injEq] at hr
                exact absurd hr.symm hne

/-- C10 at `sampleConditionalScript`: the `Jump` at offset 0 targets the
`JumpIfFalse` at offset 7 and is returned unchanged. -/
theorem optimizeJump_unchanged_witness :
    mapFind sampleConditionalScript.offsetsToIndices (⟨0, 7, 0x2⟩ : Goto).source = some 0
      ∧ mapFind sampleConditionalScript.offsetsToIndices (⟨0, 7, 0x2⟩ : Goto).dest = some 1
      ∧ sampleConditionalScript.optimizeJump (0 + 1) ⟨0, 7, 0x2⟩
          { name := "goto", opcode := 0x2, offset := 0, scriptIndex := 0,
            parameters := [{ bytes := [7, 0, 0, 0], bytesSet := true, type := 1, size := 4 }] }
        = .ok { name := "goto", opcode := 0x2, offset := 0, scriptIndex := 0,
                parameters := [{ bytes := [7, 0, 0, 0], bytesSet := true, type := 1, size := 4 }] } :=
  ⟨rfl, rfl,
    (optimizeJump_unchanged sampleConditionalScript 0 ⟨0, 7, 0x2⟩
      { name := "goto", opcode := 0x2, offset := 0, scriptIndex := 0,
        parameters := [{ bytes := [7, 0, 0, 0], bytesSet := true, type := 1, size := 4 }] }).2.1
      0 1 _ _ rfl rfl rfl rfl (Or.inr (Or.inr rfl))⟩

/-! ## Lemmas on the reads of the buffer -/

theorem readByte_eq_ok (bytes : List Byte) (i : Nat) (h : i < bytes.length) :
    readByte bytes i = .ok (byteAt bytes i) := by
  simp [readByte, byteAt, List.getElem?_eq_getElem h]

theorem readByte_lt (bytes : List Byte) (i : Nat) (b : Byte) (h : readByte bytes i = .ok b) :
    i < bytes.length ∧ b = byteAt bytes i := by
  unfold readByte at h
  cases hb : bytes[i]? with
  | none => simp [hb] at h
  | some b1 =>
    have hlt : i < bytes.length := by
      by_contra hcon
      rw [List.getElem?_eq_none (Nat.le_of_not_lt hcon)] at hb
      cases hb
    simp only [hb, Except.ok.injEq] at h
    exact ⟨hlt, by simp [byteAt, hb, h]⟩

theorem readByte_error (bytes : List Byte) (i : Nat) (e : Fault)
    (h : readByte bytes i = .error e) : e = .outOfBounds i ∧ bytes.length ≤ i := by
  unfold readByte at h
  cases hb : bytes[i]? with
  | none =>
    simp only [hb, Except.error.injEq] at h
    exact ⟨h.symm, List.getElem?_eq_none_iff.1 hb⟩
  | some b1 => simp [hb] at h

theorem readU16_eq_ok (bytes : List Byte) (i : Nat) (h : i + 2 ≤ bytes.length) :
    readU16 bytes i = .ok (u16At bytes i) := by
  unfold readU16
  rw [readByte_eq_ok bytes i (by omega), readByte_eq_ok bytes (i + 1) (by omega)]
  rfl

theorem readU16_lt (bytes : List Byte) (i : Nat) (w : Nat) (h : readU16 bytes i = .ok w) :
    i + 2 ≤ bytes.length ∧ w = u16At bytes i := by
  unfold readU16 at h
  cases h1 : readByte bytes i with
  | error e => simp [h1] at h
  | ok lo =>
    cases h2 : readByte bytes (i + 1) with
    | error e => simp [h1, h2] at h
    | ok hi =>
      simp only [h1, h2, Except.ok.injEq] at h
      obtain ⟨_, e1⟩ := readByte_lt _ _ _ h1
      obtain ⟨l2, e2⟩ := readByte_lt _ _ _ h2
      refine ⟨by omega, ?_⟩
      rw [← h, e1, e2]
      rfl

theorem readU16_error (bytes : List Byte) (i : Nat) (e : Fault)
    (h : readU16 bytes i = .error e) : ∃ j, e = .outOfBounds j ∧ bytes.length ≤ j := by
  unfold readU16 at h
  cases h1 : readByte bytes i with
  | error e1 =>
    simp only [h1, Except.error.injEq] at h
    obtain ⟨he, hl⟩ := readByte_error _ _ _ h1
    exact ⟨i, by rw [← h, he], hl⟩
  | ok lo =>
    cases h2 : readByte bytes (i + 1) with
    | error e2 =>
      simp only [h1, h2, Except.error.injEq] at h
      obtain ⟨he, hl⟩ := readByte_error _ _ _ h2
      exact ⟨i + 1, by rw [← h, he], hl⟩
    | ok hi => simp [h1, h2] at h

theorem readBytes_eq_ok (bytes : List Byte) (n cur : Nat) (h : cur + n ≤ bytes.length) :
    readBytes bytes n cur = .ok (slice bytes cur n) := by
  induction n generalizing cur with
  | zero => simp [readBytes, slice]
  | succ n ih =>
    have hlt : cur < bytes.length := by omega
    simp only [readBytes, readByte_eq_ok bytes cur hlt, ih (cur + 1) (by omega)]
    have hb : byteAt bytes cur = bytes[cur] := by
      simp only [byteAt, List.getElem?_eq_getElem hlt, Option.getD_some]
    unfold slice
    rw [List.drop_eq_getElem_cons hlt, List.take_succ_cons, hb]

theorem readBytes_lt (bytes : List Byte) (n cur : Nat) (bs : List Byte)
    (h : readBytes bytes n cur = .ok bs) :
    (n = 0 ∨ cur + n ≤ bytes.length) ∧ bs = slice bytes cur n := by
  induction n generalizing cur bs with
  | zero =>
    simp only [readBytes, Except.ok.injEq] at h
    simp [slice, ← h]
  | succ n ih =>
    have h0 := h
    simp only [readBytes] at h
    cases h1 : readByte bytes cur with
    | error e => simp [h1] at h
    | ok b =>
      cases h2 : readBytes bytes n (cur + 1) with
      | error e => simp [h1, h2] at h
      | ok rest =>
        obtain ⟨hlt, _⟩ := readByte_lt _ _ _ h1
        obtain ⟨hb, _⟩ := ih _ _ h2
        have hle : cur + (n + 1) ≤ bytes.length := by omega
        refine ⟨Or.inr hle, ?_⟩
        have := readBytes_eq_ok bytes (n + 1) cur hle
        rw [h0] at this
        exact Except.ok.inj this

theorem readBytes_error (bytes : List Byte) (n cur : Nat) (e : Fault)
    (h : readBytes bytes n cur = .error e) : ∃ j, e = .outOfBounds j ∧ bytes.length ≤ j := by
  induction n generalizing cur with
  | zero => simp [readBytes] at h
  | succ n ih =>
    simp only [readBytes] at h
    cases h1 : readByte bytes cur with
    | error e1 =>
      simp only [h1, Except.error.injEq] at h
      obtain ⟨he, hl⟩ := readByte_error _ _ _ h1
      exact ⟨cur, by rw [← h, he], hl⟩
    | ok b =>
      cases h2 : readBytes bytes n (cur + 1) with
      | error e2 =>
        simp only [h1, h2, Except.error.injEq] at h
        subst h
        exact ih _ h2
      | ok rest => simp [h1, h2] at h

/-! ## Lemmas on `Command::read` -/

theorem typed_type (param : Value) (tag : Nat) : (Command.typed param tag).type = tag := by
  unfold Command.typed
  split_ifs <;> rfl

theorem typed_bytes (param : Value) (tag : Nat) :
    (Command.typed param tag).bytes = param.bytes := by
  unfold Command.typed
  split_ifs <;> rfl

theorem typed_size (param : Value) (tag : Nat) :
    (Command.typed param tag).size
      = if tag = DataType.EOAL ∨ tag = DataType.Unknown then param.size else getValueSize tag := by
  unfold Command.typed
  by_cases h : tag = DataType.EOAL ∨ tag = DataType.Unknown
  · have : ¬ (tag ≠ DataType.Unknown ∧ tag ≠ DataType.EOAL) := by
      rcases h with h | h <;> simp [h]
    simp [this, h]
  · have : tag ≠ DataType.Unknown ∧ tag ≠ DataType.EOAL := by
      constructor
      · intro h1; exact h (Or.inr h1)
      · intro h1; exact h (Or.inl h1)
    simp [this, h]

theorem getValueSize_pos (tag : Nat) (h1 : 1 ≤ tag) (h2 : tag ≤ 0x13)
    (h3 : tag ≠ DataType.StringVar) : 0 < getValueSize tag := by
  have h3 : tag ≠ 14 := h3
  have : tag = 1 ∨ tag = 2 ∨ tag = 3 ∨ tag = 4 ∨ tag = 5 ∨ tag = 6 ∨ tag = 7 ∨ tag = 8
      ∨ tag = 9 ∨ tag = 10 ∨ tag = 11 ∨ tag = 12 ∨ tag = 13 ∨ tag = 15 ∨ tag = 16
      ∨ tag = 17 ∨ tag = 18 ∨ tag = 19 := by omega
  rcases this with h | h | h | h | h | h | h | h | h | h | h | h | h | h | h | h | h | h <;>
    subst h <;> decide

theorem readPayload_ok (bytes : List Byte) (param v : Value) (cur c : Nat)
    (hcur : cur ≤ bytes.length) (h : Command.readPayload bytes param cur = .ok (v, c)) :
    c = cur + param.size ∧ c ≤ bytes.length ∧ v.type = param.type ∧ v.size = param.size
      ∧ (param.size ≠ 0 → v.bytes = slice bytes cur param.size)
      ∧ (param.size = 0 → v = param) := by
  unfold Command.readPayload at h
  by_cases hz : param.size = 0
  · simp only [hz, ne_eq, not_true_eq_false, if_false, Except.ok.injEq, Prod.mk.injEq] at h
    obtain ⟨hv, hc⟩ := h
    subst hv hc
    simp [hz, hcur]
  · simp only [ne_eq, hz, not_false_eq_true, if_true] at h
    cases hb : readBytes bytes param.size cur with
    | error e => simp [hb] at h
    | ok bs =>
      simp only [hb, Except.ok.injEq, Prod.mk.injEq] at h
      obtain ⟨hv, hc⟩ := h
      obtain ⟨hlen, hbs⟩ := readBytes_lt _ _ _ _ hb
      have hle : cur + param.size ≤ bytes.length := by
        rcases hlen with h0 | h0
        · exact absurd h0 hz
        · exact h0
      subst hv hc
      refine ⟨rfl, hle, rfl, rfl, ?_, ?_⟩
      · intro _; exact hbs
      · intro h0; exact absurd h0 hz

theorem readPayload_eq_ok (bytes : List Byte) (param : Value) (cur : Nat)
    (h : cur + param.size ≤ bytes.length) :
    ∃ v, Command.readPayload bytes param cur = .ok (v, cur + param.size) := by
  unfold Command.readPayload
  by_cases hz : param.size = 0
  · simp [hz]
  · simp only [ne_eq, hz, not_false_eq_true, if_true, readBytes_eq_ok bytes _ _ h]
    exact ⟨_, rfl⟩

theorem readPayload_error (bytes : List Byte) (param : Value) (cur : Nat) (e : Fault)
    (h : Command.readPayload bytes param cur = .error e) :
    ∃ j, e = .outOfBounds j ∧ bytes.length ≤ j := by
  unfold Command.readPayload at h
  split_ifs at h with hz
  cases hb : readBytes bytes param.size cur with
  | error e1 =>
    simp only [hb, Except.error.injEq] at h
    subst h
    exact readBytes_error _ _ _ _ hb
  | ok bs => simp [hb] at h

theorem operandWidth_stringVar (bytes : List Byte) (declared p : Nat)
    (h : (byteAt bytes p).val = DataType.StringVar) :
    operandWidth bytes declared p = 2 + (byteAt bytes (p + 1)).val := by
  simp [operandWidth, h]

theorem operandWidth_other (bytes : List Byte) (declared p : Nat)
    (h : (byteAt bytes p).val ≠ DataType.StringVar) :
    operandWidth bytes declared p
      = 1 + (Command.typed { size := declared } (byteAt bytes p).val).size := by
  simp only [operandWidth, h, if_false, typed_size]
  split_ifs <;> rfl

theorem operandWidth_pos (bytes : List Byte) (declared p : Nat) :
    1 ≤ operandWidth bytes declared p := by
  by_cases hs : (byteAt bytes p).val = DataType.StringVar
  · rw [operandWidth_stringVar _ _ _ hs]; omega
  · rw [operandWidth_other _ _ _ hs]; omega

theorem readParam_ok (bytes : List Byte) (d v : Value) (p c : Nat)
    (h : Command.readParam bytes d p = .ok (v, c)) :
    c = p + operandWidth bytes d.size p ∧ c ≤ bytes.length ∧ OperandDecoded bytes d v p := by
  unfold Command.readParam at h
  cases h1 : readByte bytes p with
  | error e => simp [h1] at h
  | ok tag =>
    obtain ⟨hlt, htag⟩ := readByte_lt _ _ _ h1
    subst htag
    simp only [h1, typed_type] at h
    by_cases hs : (byteAt bytes p).val = DataType.StringVar
    · simp only [hs, if_true] at h
      cases h2 : readByte bytes (p + 1) with
      | error e => simp [h2] at h
      | ok len =>
        obtain ⟨hlt2, hlen⟩ := readByte_lt _ _ _ h2
        subst hlen
        simp only [h2] at h
        obtain ⟨hc, hle, hty, hsz, hb1, hb0⟩ := readPayload_ok _ _ _ _ _ (by omega) h
        have e1 : ((Command.typed d DataType.StringVar).setSize (byteAt bytes (p + 1)).val).size
            = (byteAt bytes (p + 1)).val := rfl
        have e2 : ((Command.typed d DataType.StringVar).setSize (byteAt bytes (p + 1)).val).type
            = DataType.StringVar := typed_type _ _
        have e3 : ((Command.typed d DataType.StringVar).setSize (byteAt bytes (p + 1)).val).bytes
            = d.bytes := typed_bytes _ _
        rw [e1] at hc hsz hb1 hb0
        rw [e2] at hty
        have hw := operandWidth_stringVar bytes d.size p hs
        refine ⟨by omega, hle, ?_, ?_, ?_⟩
        · rw [hty, hs]
        · intro _
          refine ⟨hsz, ?_, ?_⟩
          · intro hnz
            rw [hsz] at hnz ⊢
            exact hb1 hnz
          · intro hz
            rw [hsz] at hz
            rw [hb0 hz, e3]
        · intro _ _ hns
          exact absurd hty hns
    · simp only [hs, if_false] at h
      obtain ⟨hc, hle, hty, hsz, hb1, hb0⟩ := readPayload_ok _ _ _ _ _ (by omega) h
      simp only [typed_type] at hty
      refine ⟨?_, hle, ?_, ?_, ?_⟩
      · rw [hc, operandWidth_other _ _ _ hs]
        simp only [typed_size]
        omega
      · exact hty
      · intro hsv
        rw [hty] at hsv
        exact absurd hsv hs
      · intro hge hle2 hns
        rw [hty] at hge hle2 hns ⊢
        have hpos := getValueSize_pos _ hge hle2 hns
        have hsize : (Command.typed d (byteAt bytes p).val).size
            = getValueSize (byteAt bytes p).val := by
          rw [typed_size]
          have h0 : ¬ ((byteAt bytes p).val = DataType.EOAL
              ∨ (byteAt bytes p).val = DataType.Unknown) := by
            have e0 : DataType.EOAL = 0 := rfl
            have e1 : DataType.Unknown = 20 := rfl
            rw [e0, e1]
            omega
          simp [h0]
        rw [hsize] at hb1
        exact hb1 (by omega)

theorem readParam_eq_ok (bytes : List Byte) (d : Value) (p : Nat)
    (h : p + operandWidth bytes d.size p ≤ bytes.length) :
    ∃ v, Command.readParam bytes d p = .ok (v, p + operandWidth bytes d.size p) := by
  have hw := operandWidth_pos bytes d.size p
  unfold Command.readParam
  simp only [readByte_eq_ok bytes p (by omega), typed_type]
  by_cases hs : (byteAt bytes p).val = DataType.StringVar
  · rw [operandWidth_stringVar _ _ _ hs] at h ⊢
    simp only [hs, if_true, readByte_eq_ok bytes (p + 1) (by omega)]
    obtain ⟨v, hv⟩ := readPayload_eq_ok bytes
      ((Command.typed d DataType.StringVar).setSize (byteAt bytes (p + 1)).val) (p + 2)
      (by show p + 2 + (byteAt bytes (p + 1)).val ≤ bytes.length; omega)
    refine ⟨v, ?_⟩
    rw [hv]
    have e1 : ((Command.typed d DataType.StringVar).setSize (byteAt bytes (p + 1)).val).size
        = (byteAt bytes (p + 1)).val := rfl
    rw [e1, Nat.add_assoc]
  · rw [operandWidth_other _ _ _ hs] at h ⊢
    simp only [typed_size] at h ⊢
    simp only [hs, if_false]
    obtain ⟨v, hv⟩ := readPayload_eq_ok bytes (Command.typed d (byteAt bytes p).val) (p + 1)
      (by simp only [typed_size]; omega)
    refine ⟨v, ?_⟩
    rw [hv]
    simp only [typed_size, Except.ok.injEq, Prod.mk.injEq, true_and]
    omega

theorem readParam_error (bytes : List Byte) (d : Value) (p : Nat) (e : Fault)
    (h : Command.readParam bytes d p = .error e) :
    ∃ j, e = .outOfBounds j ∧ bytes.length ≤ j := by
  unfold Command.readParam at h
  cases h1 : readByte bytes p with
  | error e1 =>
    simp only [h1, Except.error.injEq] at h
    obtain ⟨he, hl⟩ := readByte_error _ _ _ h1
    exact ⟨p, by rw [← h, he], hl⟩
  | ok tag =>
    simp only [h1] at h
    split_ifs at h with hs
    · cases h2 : readByte bytes (p + 1) with
      | error e2 =>
        simp only [h2, Except.error.injEq] at h
        obtain ⟨he, hl⟩ := readByte_error _ _ _ h2
        exact ⟨p + 1, by rw [← h, he], hl⟩
      | ok len =>
        simp only [h2] at h
        exact readPayload_error _ _ _ _ h
    · exact readPayload_error _ _ _ _ h

theorem readParams_ok (bytes : List Byte) (ds vs : List Value) (p c : Nat)
    (hp : p ≤ bytes.length) (h : Command.readParams bytes ds p = .ok (vs, c)) :
    c = p + (operandWidths bytes ds p).sum ∧ c ≤ bytes.length ∧ vs.length = ds.length
      ∧ ∀ k (h1 : k < vs.length) (h2 : k < ds.length),
          OperandDecoded bytes ds[k] vs[k] (p + ((operandWidths bytes ds p).take k).sum) := by
  induction ds generalizing vs p c with
  | nil =>
    simp only [Command.readParams, Except.ok.injEq, Prod.mk.injEq] at h
    obtain ⟨hv, hc⟩ := h
    subst hv hc
    simp [operandWidths, hp]
  | cons d ds ih =>
    simp only [Command.readParams] at h
    cases h1 : Command.readParam bytes d p with
    | error e => simp [h1] at h
    | ok r1 =>
      obtain ⟨v, c1⟩ := r1
      simp only [h1] at h
      cases h2 : Command.readParams bytes ds c1 with
      | error e => simp [h2] at h
      | ok r2 =>
        obtain ⟨vs2, c2⟩ := r2
        simp only [h2, Except.ok.injEq, Prod.mk.injEq] at h
        obtain ⟨hv, hc⟩ := h
        subst hv hc
        obtain ⟨e1, l1, dec1⟩ := readParam_ok _ _ _ _ _ h1
        obtain ⟨e2, l2, len2, dec2⟩ := ih vs2 c1 c2 l1 h2
        subst e1
        refine ⟨?_, l2, by simp [len2], ?_⟩
        · simp only [operandWidths, List.sum_cons]
          omega
        · intro k hk1 hk2
          cases k with
          | zero => simpa [operandWidths] using dec1
          | succ k =>
            have := dec2 k (by simpa using hk1) (by simpa using hk2)
            simpa [operandWidths, Nat.add_assoc] using this

theorem readParams_eq_ok (bytes : List Byte) (ds : List Value) (p : Nat)
    (h : p + (operandWidths bytes ds p).sum ≤ bytes.length) :
    ∃ vs, Command.readParams bytes ds p = .ok (vs, p + (operandWidths bytes ds p).sum) := by
  induction ds generalizing p with
  | nil => exact ⟨[], by simp [Command.readParams, operandWidths]⟩
  | cons d ds ih =>
    simp only [operandWidths, List.sum_cons] at h ⊢
    obtain ⟨v, hv⟩ := readParam_eq_ok bytes d p (by omega)
    obtain ⟨vs, hvs⟩ := ih (p + operandWidth bytes d.size p) (by omega)
    refine ⟨v :: vs, ?_⟩
    simp only [Command.readParams, hv, hvs, Nat.add_assoc]

theorem readParams_error (bytes : List Byte) (ds : List Value) (p : Nat) (e : Fault)
    (h : Command.readParams bytes ds p = .error e) :
    ∃ j, e = .outOfBounds j ∧ bytes.length ≤ j := by
  induction ds generalizing p with
  | nil => simp [Command.readParams] at h
  | cons d ds ih =>
    simp only [Command.readParams] at h
    cases h1 : Command.readParam bytes d p with
    | error e1 =>
      simp only [h1, Except.error.injEq] at h
      subst h
      exact readParam_error _ _ _ _ h1
    | ok r1 =>
      obtain ⟨v, c1⟩ := r1
      simp only [h1] at h
      cases h2 : Command.readParams bytes ds c1 with
      | error e2 =>
        simp only [h2, Except.error.injEq] at h
        subst h
        exact ih _ h2
      | ok r2 => simp [h2] at h

/-- The cursor after the command at `cur`: the two opcode bytes and, for an
opcode registered with a non-empty name, the operands of its definition. -/
theorem read_ok (table : OpcodeTable) (bytes : List Byte) (cur c : Nat) (cmd : Command)
    (table1 : OpcodeTable) (h : Command.read table bytes cur = .ok (cmd, c, table1)) :
    cur + 2 ≤ bytes.length ∧ c ≤ bytes.length
      ∧ ((Command.get table (u16At bytes cur)).toBool = false →
          cmd = { Command.get table (u16At bytes cur) with opcode := u16At bytes cur }
            ∧ c = cur + 2 ∧ table1 = table)
      ∧ ((Command.get table (u16At bytes cur)).toBool = true →
          cmd.name = (Command.get table (u16At bytes cur)).name
            ∧ cmd.opcode = (Command.get table (u16At bytes cur)).opcode
            ∧ c = cur + 2
                + (operandWidths bytes (Command.get table (u16At bytes cur)).parameters
                    (cur + 2)).sum
            ∧ cmd.parameters.length = (Command.get table (u16At bytes cur)).parameters.length
            ∧ ∀ k (h1 : k < cmd.parameters.length)
                (h2 : k < (Command.get table (u16At bytes cur)).parameters.length),
                OperandDecoded bytes (Command.get table (u16At bytes cur)).parameters[k]
                  cmd.parameters[k]
                  (cur + 2 + ((operandWidths bytes
                    (Command.get table (u16At bytes cur)).parameters (cur + 2)).take k).sum)) := by
  unfold Command.read at h
  cases h1 : readU16 bytes cur with
  | error e => simp [h1] at h
  | ok w =>
    obtain ⟨hlen, hw⟩ := readU16_lt _ _ _ h1
    subst hw
    simp only [h1] at h
    cases hb : (Command.get table (u16At bytes cur)).toBool with
    | false =>
      simp only [hb, Bool.not_false, if_true, Except.ok.injEq, Prod.mk.injEq] at h
      obtain ⟨hc, hcur, ht⟩ := h
      subst hc hcur ht
      refine ⟨hlen, hlen, ?_, ?_⟩
      · intro _; exact ⟨rfl, rfl, rfl⟩
      · intro hcon; cases hcon
    | true =>
      simp only [hb, Bool.not_true, Bool.false_eq_true, if_false] at h
      cases h2 : Command.readParams bytes (Command.get table (u16At bytes cur)).parameters
          (cur + 2) with
      | error e => simp [h2] at h
      | ok r =>
        obtain ⟨ps, c1⟩ := r
        simp only [h2, Except.ok.injEq, Prod.mk.injEq] at h
        obtain ⟨hc, hcur, ht⟩ := h
        subst hc hcur ht
        obtain ⟨e1, l1, len1, dec1⟩ := readParams_ok _ _ _ _ _ hlen h2
        refine ⟨hlen, l1, ?_, ?_⟩
        · intro hcon; cases hcon
        · intro _
          exact ⟨rfl, rfl, e1, len1, dec1⟩

theorem read_error (table : OpcodeTable) (bytes : List Byte) (cur : Nat) (e : Fault)
    (h : Command.read table bytes cur = .error e) :
    ∃ j, e = .outOfBounds j ∧ bytes.length ≤ j := by
  unfold Command.read at h
  cases h1 : readU16 bytes cur with
  | error e1 =>
    simp only [h1, Except.error.injEq] at h
    subst h
    exact readU16_error _ _ _ h1
  | ok w =>
    simp only [h1] at h
    split_ifs at h with hb
    cases h2 : Command.readParams bytes (Command.get table w).parameters (cur + 2) with
    | error e2 =>
      simp only [h2, Except.error.injEq] at h
      subst h
      exact readParams_error _ _ _ _ h2
    | ok r => simp [h2] at h

theorem read_eq_ok (table : OpcodeTable) (bytes : List Byte) (cur : Nat)
    (h : cur + 2 + (if (Command.get table (u16At bytes cur)).toBool then
          (operandWidths bytes (Command.get table (u16At bytes cur)).parameters (cur + 2)).sum
        else 0) ≤ bytes.length) :
    ∃ cmd c table1, Command.read table bytes cur = .ok (cmd, c, table1) := by
  unfold Command.read
  rw [readU16_eq_ok bytes cur (by omega)]
  by_cases hb : (Command.get table (u16At bytes cur)).toBool = true
  · simp only [hb, if_true] at h
    obtain ⟨vs, hvs⟩ := readParams_eq_ok bytes
      (Command.get table (u16At bytes cur)).parameters (cur + 2) h
    simp only [hb, Bool.not_true, Bool.false_eq_true, if_false, hvs]
    exact ⟨_, _, _, rfl⟩
  · have hb : (Command.get table (u16At bytes cur)).toBool = false := by simpa using hb
    simp only [hb, Bool.not_false, if_true]
    exact ⟨_, _, _, rfl⟩

theorem get_of_mapFind (table : OpcodeTable) (op : Nat) (d : Command)
    (h : mapFind table op = some d) : Command.get table op = d := by
  simp [Command.get, h]

theorem get_of_mapFind_none (table : OpcodeTable) (op : Nat)
    (h : mapFind table op = none) : Command.get table op = Command.nullCommand := by
  simp [Command.get, h]

/-! ## The instruction decoder (claims C2, C3) -/

/-- C2, as the code has it: for an opcode registered with a non-empty name and
`n` operands and a buffer long enough, `Command::read` returns an occurrence
with the name and the opcode of the definition and `n` operands in the order
of the definition; operand `k` has the type given by its tag byte; for a
fixed-size tag in [1, 0x13] its payload is the `getValueSize` bytes after the
tag, for a variable-length string with length byte `L > 0` the `L` bytes after
the length byte, and for `L = 0` the payload of the definition's operand, left
in place; the cursor advances by 2 plus the sum of the operand widths. -/
theorem read_registered (table : OpcodeTable) (bytes : List Byte) (cur : Nat) (d : Command)
    (hd : mapFind table (u16At bytes cur) = some d) (hname : d.name ≠ "")
    (hlen : cur + 2 + (operandWidths bytes d.parameters (cur + 2)).sum ≤ bytes.length) :
    ∃ cmd table1,
      Command.read table bytes cur
          = .ok (cmd, cur + 2 + (operandWidths bytes d.parameters (cur + 2)).sum, table1)
        ∧ cmd.name = d.name ∧ cmd.opcode = d.opcode
        ∧ cmd.parameters.length = d.parameters.length
        ∧ ∀ k (h1 : k < cmd.parameters.length) (h2 : k < d.parameters.length),
            OperandDecoded bytes d.parameters[k] cmd.parameters[k]
              (cur + 2 + ((operandWidths bytes d.parameters (cur + 2)).take k).sum) := by
  have hget := get_of_mapFind table _ d hd
  have hb : (Command.get table (u16At bytes cur)).toBool = true := by
    rw [hget]
    simp [Command.toBool, hname]
  obtain ⟨cmd, c, table1, hr⟩ := read_eq_ok table bytes cur (by rw [hb, if_pos rfl, hget]; exact hlen)
  obtain ⟨_, _, _, hreg⟩ := read_ok _ _ _ _ _ _ hr
  obtain ⟨hn, ho, hc, hl, hdec⟩ := hreg hb
  rw [hget] at hn ho hc hl
  refine ⟨cmd, table1, by rw [hr, hc], hn, ho, hl, ?_⟩
  intro k h1 h2
  have := hdec k h1 (by rw [hget]; exact h2)
  simp only [hget] at this
  exact this

/-- C2 at `sampleTable`: the bytes `06 00 | 03 03 00 | 04 2A` decode as
`setlocalint` with a local reference and an 8-bit immediate. -/
theorem read_registered_witness :
    mapFind sampleTable (u16At [6, 0, 3, 3, 0, 4, 0x2A] 0)
        = some { name := "setlocalint", opcode := 0x6, parameters := [{ size := 1 }, { size := 2 }] }
      ∧ ∃ cmd table1,
          Command.read sampleTable [6, 0, 3, 3, 0, 4, 0x2A] 0 = .ok (cmd, 7, table1)
            ∧ cmd.name = "setlocalint" ∧ cmd.opcode = 0x6 ∧ cmd.parameters.length = 2 :=
  have hd : mapFind sampleTable (u16At [6, 0, 3, 3, 0, 4, 0x2A] 0)
      = some { name := "setlocalint", opcode := 0x6,
               parameters := [{ size := 1 }, { size := 2 }] } := by rfl
  have h := read_registered sampleTable [6, 0, 3, 3, 0, 4, 0x2A] 0 _ hd (by decide) (by decide)
  ⟨hd, h.elim fun cmd h1 => h1.elim fun table1 h2 => ⟨cmd, table1, h2.1, h2.2.1, h2.2.2.1, h2.2.2.2.1⟩⟩

/-- C2 fails in two places. An operand whose tag byte is 0 (or `Unknown`)
keeps the size that its definition declares and that many bytes are consumed:
the bytes `02 00 | 00 09` decode, with `sampleTable`, to a `goto` whose operand
holds the byte `09`, and the cursor advances by 4, not by the 3 bytes of the
opcode, the tag and `getValueSize` of the tag. And a variable-length string of
length 0 keeps the payload of its definition: with `payloadTable` the bytes
`05 00 | 0E 00` decode to an operand that holds `[7]`, while no byte follows the
length byte. -/
theorem read_registered_counterexample :
    Command.read sampleTable [2, 0, 0, 9] 0
        = .ok ({ name := "goto $0", opcode := 0x2,
                 parameters := [{ bytes := [9], bytesSet := true, type := 0, size := 1 }] },
               4,
               [(0x2, { name := "goto $0", opcode := 0x2, parameters := [{ type := 0, size := 1 }] }),
                (0x6, { name := "setlocalint", opcode := 0x6,
                        parameters := [{ size := 1 }, { size := 2 }] }),
                (0x4D, { name := "jump_if_false $0", opcode := 0x4D,
                         parameters := [{ size := 1 }] })])
      ∧ 0 + 2 + (claimedWidths [2, 0, 0, 9] 1 (0 + 2)).sum = 3
      ∧ Command.read payloadTable [5, 0, 0x0E, 0] 0
          = .ok ({ name := "print", opcode := 0x5,
                   parameters := [{ bytes := [7], bytesSet := false, type := 0x0E, size := 0 }] },
                 4,
                 [(0x5, { name := "print", opcode := 0x5,
                          parameters := [{ bytes := [7], type := 0x0E, size := 1 }] })])
      ∧ ¬ OperandAsClaimed [5, 0, 0x0E, 0]
            { bytes := [7], bytesSet := false, type := 0x0E, size := 0 } 2 := by
  refine ⟨by rfl, by rfl, by rfl, ?_⟩
  intro h
  have h1 := h.2.1 rfl
  revert h1
  decide

/-- An opcode that is not registered decodes, when its two bytes are inside the
buffer, to an occurrence with empty name, the raw opcode and no operands, and
the cursor advances by 2. -/
theorem read_unregistered (table : OpcodeTable) (bytes : List Byte) (cur : Nat)
    (hlen : cur + 2 ≤ bytes.length) (hd : mapFind table (u16At bytes cur) = none) :
    Command.read table bytes cur
      = .ok ({ Command.nullCommand with opcode := u16At bytes cur }, cur + 2, table) := by
  unfold Command.read
  rw [readU16_eq_ok bytes cur hlen]
  simp only [get_of_mapFind_none table _ hd]
  rfl

/-- One iteration of the loop of `Decompiler::decompile` on an unregistered
opcode that is neither 0 nor jump-class: the occurrence is recorded at the
offset of its opcode bytes, narrowed to the `int32_t` field, with the next
index, and the cursor advances by 2. -/
theorem step_unregistered (bytes : List Byte) (st : DecompileState)
    (hlen : st.cursor + 2 ≤ bytes.length)
    (hd : mapFind st.table (u16At bytes st.cursor) = none)
    (hz : u16At bytes st.cursor ≠ 0)
    (hj : Goto.isJumpOpcode (u16At bytes st.cursor) = false) :
    ∃ st1, Decompiler.step bytes st = .ok st1 ∧ st1.cursor = st.cursor + 2
      ∧ st1.script.commands = st.script.commands
          ++ [{ name := "", opcode := u16At bytes st.cursor,
                offset := toInt32 (Int.ofNat st.cursor),
                parameters := [], scriptIndex := st.script.commands.length }]
      ∧ st1.script.offsetsToIndices
          = mapSet st.script.offsetsToIndices (toInt32 (Int.ofNat st.cursor))
              st.script.commands.length := by
  unfold Decompiler.step
  rw [read_unregistered st.table bytes st.cursor hlen hd]
  simp only [hz, if_false, hj, Bool.false_eq_true]
  exact ⟨_, rfl, rfl, rfl, rfl⟩

/-- C3 fails on the code when the unregistered opcode is jump-class: on the
bytes `50 00` (`Call`, absent from `sampleTable`), and on the bytes `02 00`
(`Jump`) with an empty table, `Decompiler::decompile` records the occurrence
without operands and then builds `Goto(command)`, which reads `parameters[0]`. -/
theorem decompile_unregistered_call :
    Decompiler.decompile [0x50, 0x00] sampleTable = .error .noOperand
      ∧ Decompiler.decompile [0x02, 0x00] [] = .error .noOperand := by
  exact ⟨by rfl, by rfl⟩

/-! ## Lemmas on the disassembly loop -/

theorem step_ok (bytes : List Byte) (st st1 : DecompileState)
    (h : Decompiler.step bytes st = .ok st1) :
    ∃ cmd cur table, Command.read st.table bytes st.cursor = .ok (cmd, cur, table)
      ∧ st1.cursor = cur ∧ st1.table = table
      ∧ st1.spans = st.spans ++ [⟨st.cursor, cur, cmd.opcode⟩]
      ∧ (cmd.opcode = 0 → st1.script = st.script)
      ∧ (cmd.opcode ≠ 0 →
          st1.script.commands = st.script.commands
              ++ [{ cmd with offset := toInt32 (Int.ofNat st.cursor),
                             scriptIndex := st.script.commands.length }]
            ∧ st1.script.offsetsToIndices
                = mapSet st.script.offsetsToIndices (toInt32 (Int.ofNat st.cursor))
                    st.script.commands.length) := by
  unfold Decompiler.step at h
  cases hr : Command.read st.table bytes st.cursor with
  | error e => simp [hr] at h
  | ok r =>
    obtain ⟨cmd, cur, table⟩ := r
    simp only [hr] at h
    refine ⟨cmd, cur, table, rfl, ?_⟩
    by_cases h0 : cmd.opcode = 0
    · simp only [h0, if_true, Except.ok.injEq] at h
      subst h
      simp [h0]
    · simp only [h0, if_false] at h
      split_ifs at h with hj
      · split at h
        · simp at h
        · simp only [Except.ok.injEq] at h
          subst h
          simp [h0, addJump_commands, addJump_offsetsToIndices]
      · simp only [Except.ok.injEq] at h
        subst h
        simp [h0]

theorem Goto.ofCommand_error (c : Command) (e : Fault) (h : Goto.ofCommand c = .error e) :
    e = .noOperand ∨ e = .notJump := by
  unfold Goto.ofCommand at h
  by_cases hj : Goto.isJumpOpcode c.opcode = true
  · rw [if_pos hj] at h
    cases hp : c.parameters with
    | nil =>
      simp only [hp, Except.error.injEq] at h
      exact Or.inl h.symm
    | cons p ps => simp [hp] at h
  · rw [if_neg hj] at h
    simp only [Except.error.injEq] at h
    exact Or.inr h.symm

theorem step_error (bytes : List Byte) (st : DecompileState) (e : Fault)
    (h : Decompiler.step bytes st = .error e) : e ≠ .outOfFuel := by
  unfold Decompiler.step at h
  cases hr : Command.read st.table bytes st.cursor with
  | error e1 =>
    simp only [hr, Except.error.injEq] at h
    obtain ⟨j, hj, _⟩ := read_error _ _ _ _ hr
    rw [← h, hj]
    simp
  | ok r =>
    obtain ⟨cmd, cur, table⟩ := r
    simp only [hr] at h
    split_ifs at h with h0 hj
    split at h
    · rename_i e1 hg
      simp only [Except.error.injEq] at h
      subst h
      rcases Goto.ofCommand_error _ _ hg with h1 | h1 <;> simp [h1]
    · simp at h

theorem step_cursor (bytes : List Byte) (st st1 : DecompileState)
    (h : Decompiler.step bytes st = .ok st1) :
    st.cursor + 2 ≤ st1.cursor ∧ st1.cursor ≤ bytes.length := by
  obtain ⟨cmd, cur, table, hr, hc, _⟩ := step_ok _ _ _ h
  obtain ⟨h2, hle, hun, hreg⟩ := read_ok _ _ _ _ _ _ hr
  subst hc
  refine ⟨?_, hle⟩
  cases hb : (Command.get st.table (u16At bytes st.cursor)).toBool with
  | false =>
    obtain ⟨_, hc, _⟩ := hun hb
    omega
  | true =>
    obtain ⟨_, _, hc, _⟩ := hreg hb
    omega

/-- A budget of at least `bytes.length - cursor` iterations is never used up:
more budget does not change the result of the loop. -/
theorem Decompiler.loop_fuel (bytes : List Byte) (fuel extra : Nat) (st : DecompileState)
    (h : bytes.length - st.cursor ≤ fuel) :
    Decompiler.loop bytes (fuel + extra) st = Decompiler.loop bytes fuel st := by
  induction fuel generalizing st with
  | zero =>
    have hge : ¬ st.cursor < bytes.length := by omega
    cases extra with
    | zero => rfl
    | succ extra => simp [Decompiler.loop, hge]
  | succ fuel ih =>
    rw [Nat.add_right_comm]
    simp only [Decompiler.loop]
    split_ifs with hlt
    · cases hs : Decompiler.step bytes st with
      | error e => rfl
      | ok st1 =>
        have := (step_cursor _ _ _ hs).1
        exact ih st1 (by omega)
    · rfl

/-- The loop never stops for lack of budget when started with a budget of
at least `bytes.length - cursor`. -/
theorem Decompiler.loop_ne_outOfFuel (bytes : List Byte) (fuel : Nat) (st : DecompileState)
    (h : bytes.length - st.cursor ≤ fuel) :
    Decompiler.loop bytes fuel st ≠ .error .outOfFuel := by
  induction fuel generalizing st with
  | zero =>
    have hge : ¬ st.cursor < bytes.length := by omega
    simp [Decompiler.loop, hge]
  | succ fuel ih =>
    simp only [Decompiler.loop]
    split_ifs with hlt
    · cases hs : Decompiler.step bytes st with
      | error e =>
        have := step_error _ _ _ hs
        simpa using this
      | ok st1 =>
        have := (step_cursor _ _ _ hs).1
        exact ih st1 (by omega)
    · simp

/-- Induction over the iterations of the loop: a property that holds at the
start and is kept by every iteration holds at the end, where the cursor has
reached the end of the buffer. -/
theorem Decompiler.loop_induct (bytes : List Byte) (P : DecompileState → Prop)
    (hstep : ∀ st st1, P st → st.cursor < bytes.length →
      Decompiler.step bytes st = .ok st1 → P st1)
    (fuel : Nat) (st st1 : DecompileState) (h0 : P st)
    (h : Decompiler.loop bytes fuel st = .ok st1) :
    P st1 ∧ bytes.length ≤ st1.cursor := by
  induction fuel generalizing st with
  | zero =>
    simp only [Decompiler.loop] at h
    split_ifs at h with hlt
    simp only [Except.ok.injEq] at h
    subst h
    exact ⟨h0, by omega⟩
  | succ fuel ih =>
    simp only [Decompiler.loop] at h
    split_ifs at h with hlt
    · cases hs : Decompiler.step bytes st with
      | error e => simp [hs] at h
      | ok st2 =>
        simp only [hs] at h
        exact ih st2 (hstep st st2 h0 hlt hs) h
    · simp only [Except.ok.injEq] at h
      subst h
      exact ⟨h0, by omega⟩

/-- The budget of `Decompiler.run` is never used up. -/
theorem run_ne_outOfFuel (bytes : List Byte) (table : OpcodeTable) :
    Decompiler.run bytes table ≠ .error .outOfFuel :=
  Decompiler.loop_ne_outOfFuel bytes bytes.length _ (Nat.sub_le _ _)

theorem run_cursor (bytes : List Byte) (table : OpcodeTable) (st : DecompileState)
    (h : Decompiler.run bytes table = .ok st) : st.cursor = bytes.length := by
  unfold Decompiler.run at h
  have := Decompiler.loop_induct bytes (fun s => s.cursor ≤ bytes.length)
    (fun s s1 _ _ hs => (step_cursor _ _ _ hs).2) _ _ _ (Nat.zero_le _) h
  omega

/-- Below 2^31 the narrowing to `int32_t` keeps the value. -/
theorem toInt32_ofNat (n : Nat) (h : n < 2147483648) : toInt32 (Int.ofNat n) = Int.ofNat n := by
  unfold toInt32
  simp only [Int.ofNat_eq_coe]
  omega

theorem offsetIndexExact_step (bytes : List Byte) (st st1 : DecompileState)
    (hb : st.cursor < 2147483648)
    (h0 : OffsetIndexExact st.script st.cursor) (h : Decompiler.step bytes st = .ok st1) :
    OffsetIndexExact st1.script st1.cursor := by
  obtain ⟨hcur, _⟩ := step_cursor _ _ _ h
  obtain ⟨cmd, cur, table, hr, hc, _, _, hskip, hrec⟩ := step_ok _ _ _ h
  rw [toInt32_ofNat _ hb] at hrec
  obtain ⟨hidx, hkeys, hpw⟩ := h0
  have hlt : Int.ofNat st.cursor < Int.ofNat st1.cursor := by
    simp only [Int.ofNat_eq_coe]; omega
  by_cases hz : cmd.opcode = 0
  · rw [hskip hz]
    refine ⟨?_, hkeys, hpw⟩
    intro i c hi
    obtain ⟨a, b, c1, d⟩ := hidx i c hi
    exact ⟨a, b, by omega, d⟩
  · obtain ⟨hcmds, ho2i⟩ := hrec hz
    refine ⟨?_, ?_, ?_⟩
    · intro i c hi
      rw [hcmds, List.getElem?_append] at hi
      split_ifs at hi with hlen
      · obtain ⟨a, b, c1, d⟩ := hidx i c hi
        refine ⟨a, b, by omega, ?_⟩
        rw [ho2i, mapFind_mapSet]
        have hne : ¬ Int.ofNat st.cursor = c.offset := by omega
        simp only [hne, if_false]
        exact d
      · cases hk : i - st.script.commands.length with
        | succ m =>
          rw [hk] at hi
          simp at hi
        | zero =>
          rw [hk] at hi
          simp only [List.getElem?_cons_zero, Option.some.injEq] at hi
          subst hi
          refine ⟨by simp only; omega, by simp, hlt, ?_⟩
          rw [ho2i, mapFind_mapSet]
          simp only [if_true]
          congr 1
          omega
    · intro k v hf
      rw [ho2i, mapFind_mapSet] at hf
      split_ifs at hf with hk
      · simp only [Option.some.injEq] at hf
        subst hf
        rw [hcmds, List.getElem?_append_right (Nat.le_refl _)]
        simp only [Nat.sub_self, List.getElem?_cons_zero, Option.some.injEq, exists_eq_left']
        exact hk
      · obtain ⟨c, hc1, hc2⟩ := hkeys k v hf
        refine ⟨c, ?_, hc2⟩
        have hv : v < st.script.commands.length := by
          by_contra hcon
          rw [List.getElem?_eq_none (Nat.le_of_not_lt hcon)] at hc1
          cases hc1
        rw [hcmds, List.getElem?_append_left hv]
        exact hc1
    · rw [hcmds, List.map_append, List.pairwise_append]
      refine ⟨hpw, by simp, ?_⟩
      intro a ha b hb
      simp only [List.map_cons, List.map_nil, List.mem_singleton] at hb
      subst hb
      obtain ⟨c, hcm, rfl⟩ := List.mem_map.1 ha
      obtain ⟨i, hi⟩ := List.mem_iff_getElem?.1 hcm
      exact (hidx i c hi).2.2.1

theorem offsetIndexExact_run (bytes : List Byte) (table : OpcodeTable) (st : DecompileState)
    (hlen : bytes.length ≤ 2147483648)
    (h : Decompiler.run bytes table = .ok st) : OffsetIndexExact st.script st.cursor := by
  unfold Decompiler.run at h
  refine (Decompiler.loop_induct bytes (fun s => OffsetIndexExact s.script s.cursor)
    (fun s s1 h0 hc hs => offsetIndexExact_step bytes s s1 (by omega) h0 hs) _ _ _ ?_ h).1
  refine ⟨?_, ?_, ?_⟩
  · intro i c hi
    simp at hi
  · intro k v hf
    simp [mapFind] at hf
  · simp

theorem decompile_eq_ok (bytes : List Byte) (table : OpcodeTable) (s : Script)
    (h : Decompiler.decompile bytes table = .ok s) :
    ∃ st, Decompiler.run bytes table = .ok st ∧ st.script = s := by
  unfold Decompiler.decompile at h
  cases hr : Decompiler.run bytes table with
  | error e => simp [hr] at h
  | ok st =>
    simp only [hr, Except.ok.injEq] at h
    exact ⟨st, rfl, h⟩

/-! ## A buffer beyond the range of `int32_t` -/

theorem u16At_replicate (N cur : Nat) (h : cur + 2 ≤ N) :
    u16At (List.replicate N (1 : Byte)) cur = 257 := by
  unfold u16At byteAt
  rw [List.getElem?_replicate, List.getElem?_replicate, if_pos (by omega), if_pos (by omega)]
  rfl

/-- The loop of `Decompiler::decompile` on a buffer of `2 * n` bytes 1 with an
empty table: it returns, with `n` commands, the command at index `i` at the
offset `2 * i` narrowed to the `int32_t` field. -/
theorem loop_replicate (n : Nat) : ∀ (fuel : Nat) (st : DecompileState), st.table = [] →
    st.cursor = 2 * st.script.commands.length → st.script.commands.length ≤ n →
    n - st.script.commands.length ≤ fuel →
    (∀ (i : Nat) (c : Command), st.script.commands[i]? = some c →
      c.offset = toInt32 (Int.ofNat (2 * i))) →
    ∃ st1, Decompiler.loop (List.replicate (2 * n) 1) fuel st = .ok st1
      ∧ st1.script.commands.length = n
      ∧ ∀ (i : Nat) (c : Command), st1.script.commands[i]? = some c →
          c.offset = toInt32 (Int.ofNat (2 * i)) := by
  intro fuel
  induction fuel with
  | zero =>
    intro st _ hcur hle hfuel hoff
    refine ⟨st, ?_, by omega, hoff⟩
    simp only [Decompiler.loop, List.length_replicate]
    rw [if_neg (by omega)]
  | succ fuel ih =>
    intro st htab hcur hle hfuel hoff
    simp only [Decompiler.loop, List.length_replicate]
    by_cases hlt : st.cursor < 2 * n
    · rw [if_pos hlt]
      have hw := u16At_replicate (2 * n) st.cursor (by omega)
      obtain ⟨st1, hs, hc1, hcmds, _⟩ := step_unregistered (List.replicate (2 * n) 1) st
        (by rw [List.length_replicate]; omega) (by rw [htab]; rfl) (by rw [hw]; decide)
        (by rw [hw]; rfl)
      have htab1 : st1.table = [] := by
        obtain ⟨cmd, cur, table, hr, _, ht, _⟩ := step_ok _ _ _ hs
        rw [read_unregistered st.table _ st.cursor (by rw [List.length_replicate]; omega)
          (by rw [htab]; rfl)] at hr
        simp only [Except.ok.injEq, Prod.mk.injEq] at hr
        rw [ht, ← hr.2.2, htab]
      have hlen1 : st1.script.commands.length = st.script.commands.length + 1 := by
        rw [hcmds, List.length_append]
        rfl
      rw [hs]
      refine ih st1 htab1 (by omega) (by omega) (by omega) ?_
      intro i c hi
      rw [hcmds, List.getElem?_append] at hi
      split_ifs at hi with hil
      · exact hoff i c hi
      · cases hk : i - st.script.commands.length with
        | succ m =>
          rw [hk] at hi
          simp at hi
        | zero =>
          rw [hk] at hi
          simp only [List.getElem?_cons_zero, Option.some.injEq] at hi
          subst hi
          show toInt32 (Int.ofNat st.cursor) = _
          congr 2
          omega
    · rw [if_neg hlt]
      exact ⟨st, rfl, by omega, hoff⟩

/-- The method `Decompiler::decompile` on a buffer of `2 * n` bytes 1 with an
empty table returns `n` commands, the one at index `i` at the offset `2 * i`
narrowed to the `int32_t` field. -/
theorem decompile_replicate (N n : Nat) (hN : N = 2 * n) :
    ∃ s, Decompiler.decompile (List.replicate N 1) [] = .ok s
      ∧ s.commands.length = n
      ∧ ∀ (i : Nat) (c : Command), s.commands[i]? = some c →
          c.offset = toInt32 (Int.ofNat (2 * i)) := by
  subst hN
  obtain ⟨st, hrun, hlen, hoff⟩ := loop_replicate n (List.replicate (2 * n) (1 : Byte)).length
    { table := [] } rfl rfl (Nat.zero_le _) (by rw [List.length_replicate]; simp; omega)
    (fun i c hi => by simp at hi)
  refine ⟨st.script, ?_, hlen, hoff⟩
  unfold Decompiler.decompile Decompiler.run
  rw [hrun]

/-- The value 2^31 narrowed to an `int32_t` is -2^31. -/
theorem toInt32_wrap : toInt32 (Int.ofNat (2 * 1073741824)) = -2147483648 := by
  unfold toInt32
  norm_num

/-- On `wrapBuffer` the command at index 0 has the offset 0 and the command at
index 2^30, read at the byte 2^31, has the offset -2^31. -/
theorem decompile_wrapBuffer :
    ∃ s c0 c1, Decompiler.decompile wrapBuffer [] = .ok s
      ∧ s.commands[0]? = some c0 ∧ s.commands[1073741824]? = some c1
      ∧ c0.offset = 0 ∧ c1.offset = -2147483648 := by
  obtain ⟨s, hs, hlen, hoff⟩ := decompile_replicate 2147483650 1073741825 (by norm_num)
  have h0 : 0 < s.commands.length := by rw [hlen]; norm_num
  have h1 : 1073741824 < s.commands.length := by rw [hlen]; norm_num
  refine ⟨s, s.commands[0], s.commands[1073741824], hs, List.getElem?_eq_getElem h0,
    List.getElem?_eq_getElem h1, ?_, ?_⟩
  · rw [hoff 0 _ (List.getElem?_eq_getElem h0)]
    rfl
  · rw [hoff 1073741824 _ (List.getElem?_eq_getElem h1)]
    exact toInt32_wrap

/-! ## The offset index (claim C6) -/

/-- C6, amended: after `Decompiler::decompile` on a buffer of at most 2^31
bytes, for every `i` below `commands.size()`, `commands[i].scriptIndex = i` and
`offsetsToIndices[commands[i].offset] = i`; `offsetsToIndices` has no other
keys; and the offsets of the commands are strictly increasing in `i`. -/
theorem decompile_offset_index (bytes : List Byte) (table : OpcodeTable) (s : Script)
    (hlen : bytes.length ≤ 2147483648) (h : Decompiler.decompile bytes table = .ok s) :
    (∀ i (hi : i < s.commands.length),
        s.commands[i].scriptIndex = i
          ∧ mapFind s.offsetsToIndices s.commands[i].offset = some i)
      ∧ (∀ k v, mapFind s.offsetsToIndices k = some v →
          ∃ hv : v < s.commands.length, s.commands[v].offset = k)
      ∧ (∀ i j (hi : i < s.commands.length) (hj : j < s.commands.length), i < j →
          s.commands[i].offset < s.commands[j].offset) := by
  obtain ⟨st, hrun, hs⟩ := decompile_eq_ok _ _ _ h
  obtain ⟨hidx, hkeys, hpw⟩ := offsetIndexExact_run _ _ _ hlen hrun
  rw [hs] at hidx hkeys hpw
  refine ⟨?_, ?_, ?_⟩
  · intro i hi
    obtain ⟨a, _, _, d⟩ := hidx i _ (List.getElem?_eq_getElem hi)
    exact ⟨a, d⟩
  · intro k v hf
    obtain ⟨c, hc1, hc2⟩ := hkeys k v hf
    obtain ⟨hv, hget⟩ := List.getElem?_eq_some.1 hc1
    exact ⟨hv, by rw [hget]; exact hc2⟩
  · intro i j hi hj hij
    have := List.pairwise_iff_getElem.1 hpw i j (by simpa using hi) (by simpa using hj) hij
    simpa using this

/-- C6, amended, on the bytes `06 00 | 03 03 00 | 04 2A | 00 00 | 09 00` with
`sampleTable`: two commands are recorded, at offsets 0 and 9. -/
theorem decompile_offset_index_witness :
    Decompiler.decompile [6, 0, 3, 3, 0, 4, 0x2A, 0, 0, 9, 0] sampleTable
        = .ok { commands :=
                  [{ name := "setlocalint", opcode := 0x6, offset := 0, scriptIndex := 0,
                     parameters := [{ bytes := [3, 0], bytesSet := true, type := 3, size := 2 },
                                    { bytes := [0x2A], bytesSet := true, type := 4, size := 1 }] },
                   { name := "", opcode := 0x9, offset := 9, scriptIndex := 1, parameters := [] }]
                offsetsToIndices := [(0, 0), (9, 1)] }
      ∧ ∀ k v, mapFind [((0 : Int), 0), (9, 1)] k = some v →
          ∃ hv : v < 2,
            ([{ name := "setlocalint", opcode := 0x6, offset := 0, scriptIndex := 0,
                parameters := [{ bytes := [3, 0], bytesSet := true, type := 3, size := 2 },
                               { bytes := [0x2A], bytesSet := true, type := 4, size := 1 }] },
              { name := "", opcode := 0x9, offset := 9, scriptIndex := 1, parameters := [] }]
              : List Command)[v].offset = k :=
  have h : Decompiler.decompile [6, 0, 3, 3, 0, 4, 0x2A, 0, 0, 9, 0] sampleTable
      = .ok { commands :=
                [{ name := "setlocalint", opcode := 0x6, offset := 0, scriptIndex := 0,
                   parameters := [{ bytes := [3, 0], bytesSet := true, type := 3, size := 2 },
                                  { bytes := [0x2A], bytesSet := true, type := 4, size := 1 }] },
                 { name := "", opcode := 0x9, offset := 9, scriptIndex := 1, parameters := [] }]
              offsetsToIndices := [(0, 0), (9, 1)] } := by rfl
  ⟨h, (decompile_offset_index _ _ _ (by decide) h).2.1⟩

/-- C6 fails beyond 2^31 bytes: on `wrapBuffer`, a buffer of 2^31 + 2 bytes,
the command at index 0 has the offset 0 and the command at the later index
2^30, read at the byte 2^31, has the offset -2^31 in the `int32_t` field, so
the offsets are not strictly increasing. -/
theorem decompile_offset_index_counterexample :
    ∃ s c0 c1, Decompiler.decompile wrapBuffer [] = .ok s
      ∧ s.commands[0]? = some c0 ∧ s.commands[1073741824]? = some c1
      ∧ c0.offset = 0 ∧ c1.offset = -2147483648 ∧ ¬ (c0.offset < c1.offset) := by
  obtain ⟨s, c0, c1, h, h0, h1, e0, e1⟩ := decompile_wrapBuffer
  refine ⟨s, c0, c1, h, h0, h1, e0, e1, ?_⟩
  rw [e0, e1]
  decide

/-! ## Lemmas on the byte spans -/

theorem spansTile_le (l : List Span) (a b : Nat) (h : spansTile l a b) : a ≤ b := by
  induction l generalizing a with
  | nil => exact Nat.le_of_eq h
  | cons sp rest ih =>
    obtain ⟨_, h2, h3⟩ := h
    have := ih _ h3
    omega

theorem spansTile_append (l : List Span) (a b c op : Nat) (h : spansTile l a b) (hbc : b < c) :
    spansTile (l ++ [⟨b, c, op⟩]) a c := by
  induction l generalizing a with
  | nil =>
    have hab : a = b := h
    subst hab
    exact ⟨rfl, hbc, rfl⟩
  | cons sp rest ih =>
    obtain ⟨h1, h2, h3⟩ := h
    exact ⟨h1, h2, ih _ h3⟩

theorem slice_append (bytes : List Byte) (a m n : Nat) :
    slice bytes a m ++ slice bytes (a + m) n = slice bytes a (m + n) := by
  unfold slice
  rw [List.take_add, List.drop_drop]

theorem spansTile_flatten (bytes : List Byte) (l : List Span) (a b : Nat)
    (h : spansTile l a b) :
    (l.map (Span.bytesOf bytes)).flatten = slice bytes a (b - a) := by
  induction l generalizing a with
  | nil =>
    have hab : a = b := h
    subst hab
    simp [slice]
  | cons sp rest ih =>
    obtain ⟨h1, h2, h3⟩ := h
    have hle := spansTile_le _ _ _ h3
    simp only [List.map_cons, List.flatten_cons, ih _ h3, Span.bytesOf]
    subst h1
    have e1 : sp.stop = sp.start + (sp.stop - sp.start) := by omega
    have e2 : b - sp.start = (sp.stop - sp.start) + (b - sp.stop) := by omega
    rw [e2, ← slice_append, ← e1]

theorem spansTile_pairwise (l : List Span) (a b : Nat) (h : spansTile l a b) :
    (∀ sp ∈ l, a ≤ sp.start ∧ sp.start < sp.stop ∧ sp.stop ≤ b)
      ∧ List.Pairwise (fun x y : Span => x.stop ≤ y.start) l := by
  induction l generalizing a with
  | nil => simp
  | cons sp rest ih =>
    obtain ⟨h1, h2, h3⟩ := h
    obtain ⟨hin, hpw⟩ := ih _ h3
    have hle := spansTile_le _ _ _ h3
    refine ⟨?_, ?_⟩
    · intro x hx
      rcases List.mem_cons.1 hx with rfl | hx
      · exact ⟨by omega, by omega, hle⟩
      · obtain ⟨p1, p2, p3⟩ := hin x hx
        exact ⟨by omega, p2, p3⟩
    · rw [List.pairwise_cons]
      exact ⟨fun y hy => (hin y hy).1, hpw⟩

theorem recordedSpans_append (l : List Span) (sp : Span) :
    recordedSpans (l ++ [sp])
      = recordedSpans l ++ (if sp.opcode ≠ 0 then [sp] else []) := by
  unfold recordedSpans
  rw [List.filter_append]
  by_cases h : sp.opcode = 0 <;> simp [List.filter, h]

/-- The loop invariant on the spans: they lie one after the other from 0 to
the cursor, and the starts of the recorded ones, narrowed to `int32_t`, are
the offsets of the commands. -/
theorem spans_step (bytes : List Byte) (st st1 : DecompileState)
    (h0 : spansTile st.spans 0 st.cursor
      ∧ (recordedSpans st.spans).map (fun sp => toInt32 (Int.ofNat sp.start))
          = st.script.commands.map Command.offset
      ∧ ∀ c ∈ st.script.commands, c.opcode ≠ 0)
    (h : Decompiler.step bytes st = .ok st1) :
    spansTile st1.spans 0 st1.cursor
      ∧ (recordedSpans st1.spans).map (fun sp => toInt32 (Int.ofNat sp.start))
          = st1.script.commands.map Command.offset
      ∧ ∀ c ∈ st1.script.commands, c.opcode ≠ 0 := by
  obtain ⟨hcur, _⟩ := step_cursor _ _ _ h
  obtain ⟨cmd, cur, table, hr, hc, _, hsp, hskip, hrec⟩ := step_ok _ _ _ h
  obtain ⟨htile, hstart, hop⟩ := h0
  subst hc
  refine ⟨?_, ?_, ?_⟩
  · rw [hsp]
    exact spansTile_append _ _ _ _ _ htile (by omega)
  · rw [hsp, recordedSpans_append]
    by_cases hz : cmd.opcode = 0
    · rw [hskip hz]
      simpa [hz] using hstart
    · rw [(hrec hz).1]
      simpa [hz] using hstart
  · by_cases hz : cmd.opcode = 0
    · rw [hskip hz]
      exact hop
    · rw [(hrec hz).1]
      intro c hcm
      rcases List.mem_append.1 hcm with hcm | hcm
      · exact hop c hcm
      · simp only [List.mem_singleton] at hcm
        subst hcm
        exact hz

theorem spans_run (bytes : List Byte) (table : OpcodeTable) (st : DecompileState)
    (h : Decompiler.run bytes table = .ok st) :
    spansTile st.spans 0 st.cursor
      ∧ (recordedSpans st.spans).map (fun sp => toInt32 (Int.ofNat sp.start))
          = st.script.commands.map Command.offset
      ∧ ∀ c ∈ st.script.commands, c.opcode ≠ 0 := by
  unfold Decompiler.run at h
  refine (Decompiler.loop_induct bytes
    (fun s => spansTile s.spans 0 s.cursor
      ∧ (recordedSpans s.spans).map (fun sp => toInt32 (Int.ofNat sp.start))
          = s.script.commands.map Command.offset
      ∧ ∀ c ∈ s.script.commands, c.opcode ≠ 0)
    (fun s s1 h0 _ hs => spans_step bytes s s1 h0 hs) _ _ _ ?_ h).1
  refine ⟨rfl, rfl, ?_⟩
  intro c hc
  simp at hc

/-! ## The byte spans (claim C1) -/

/-- C1, as the code has it: when `Decompiler::decompile` stays inside the
buffer, the byte spans of all the commands read by its loop (the recorded
occurrences and the skipped commands of opcode 0), in order, do not overlap and
leave no gap: the first starts at 0, each next one starts where the previous one
ended, the last ends at the end of the buffer, and they concatenate to the whole
buffer. The occurrences recorded are the commands read whose opcode is not 0;
the offset of each is the start of its span narrowed to the `int32_t` field,
which is the start itself when the buffer has at most 2^31 bytes; their spans
do not overlap and are in increasing order. -/
theorem decompile_spans (bytes : List Byte) (table : OpcodeTable) (st : DecompileState)
    (h : Decompiler.run bytes table = .ok st) :
    Decompiler.decompile bytes table = .ok st.script
      ∧ spansTile st.spans 0 bytes.length
      ∧ (st.spans.map (Span.bytesOf bytes)).flatten = bytes
      ∧ (recordedSpans st.spans).map (fun sp => toInt32 (Int.ofNat sp.start))
          = st.script.commands.map Command.offset
      ∧ (bytes.length ≤ 2147483648 →
          (recordedSpans st.spans).map (fun sp => Int.ofNat sp.start)
            = st.script.commands.map Command.offset)
      ∧ List.Pairwise (fun x y : Span => x.stop ≤ y.start) (recordedSpans st.spans) := by
  obtain ⟨htile, hstart, _⟩ := spans_run _ _ _ h
  rw [run_cursor _ _ _ h] at htile
  refine ⟨?_, htile, ?_, hstart, ?_, ?_⟩
  · simp [Decompiler.decompile, h]
  · rw [spansTile_flatten bytes _ _ _ htile]
    simp [slice]
  · intro hlen
    rw [← hstart]
    apply List.map_congr_left
    intro sp hsp
    have hin := (spansTile_pairwise _ _ _ htile).1 sp (List.mem_of_mem_filter hsp)
    exact (toInt32_ofNat _ (by omega)).symm
  · exact (spansTile_pairwise _ _ _ htile).2.filter _

/-- C1 on the bytes `00 00 | 06 00 03 03 00 04 2A | 09 00` with `sampleTable`:
three commands are read and the two with a non-zero opcode are recorded, at the
offsets 2 and 9 where their spans start. -/
theorem decompile_spans_witness :
    Decompiler.run [0, 0, 6, 0, 3, 3, 0, 4, 0x2A, 9, 0] sampleTable
        = .ok { script :=
                  { commands :=
                      [{ name := "setlocalint", opcode := 0x6, offset := 2, scriptIndex := 0,
                         parameters :=
                           [{ bytes := [3, 0], bytesSet := true, type := 3, size := 2 },
                            { bytes := [0x2A], bytesSet := true, type := 4, size := 1 }] },
                       { name := "", opcode := 0x9, offset := 9, scriptIndex := 1,
                         parameters := [] }]
                    offsetsToIndices := [(2, 0), (9, 1)] }
                table :=
                  [(0x2, { name := "goto $0", opcode := 0x2, parameters := [{ size := 1 }] }),
                   (0x6, { name := "setlocalint", opcode := 0x6,
                           parameters := [{ type := 3, size := 1 }, { type := 4, size := 2 }] }),
                   (0x4D, { name := "jump_if_false $0", opcode := 0x4D,
                            parameters := [{ size := 1 }] })]
                cursor := 11
                spans := [⟨0, 2, 0⟩, ⟨2, 9, 6⟩, ⟨9, 11, 9⟩] }
      ∧ spansTile [⟨0, 2, 0⟩, ⟨2, 9, 6⟩, ⟨9, 11, 9⟩] 0 11
      ∧ (recordedSpans [⟨0, 2, 0⟩, ⟨2, 9, 6⟩, ⟨9, 11, 9⟩]).map (fun sp => Int.ofNat sp.start)
          = [2, 9] :=
  have h : Decompiler.run [0, 0, 6, 0, 3, 3, 0, 4, 0x2A, 9, 0] sampleTable
      = .ok { script :=
                { commands :=
                    [{ name := "setlocalint", opcode := 0x6, offset := 2, scriptIndex := 0,
                       parameters :=
                         [{ bytes := [3, 0], bytesSet := true, type := 3, size := 2 },
                          { bytes := [0x2A], bytesSet := true, type := 4, size := 1 }] },
                     { name := "", opcode := 0x9, offset := 9, scriptIndex := 1,
                       parameters := [] }]
                  offsetsToIndices := [(2, 0), (9, 1)] }
              table :=
                [(0x2, { name := "goto $0", opcode := 0x2, parameters := [{ size := 1 }] }),
                 (0x6, { name := "setlocalint", opcode := 0x6,
                         parameters := [{ type := 3, size := 1 }, { type := 4, size := 2 }] }),
                 (0x4D, { name := "jump_if_false $0", opcode := 0x4D,
                          parameters := [{ size := 1 }] })]
              cursor := 11
              spans := [⟨0, 2, 0⟩, ⟨2, 9, 6⟩, ⟨9, 11, 9⟩] } := by rfl
  ⟨h, (decompile_spans _ _ _ h).2.1, (decompile_spans _ _ _ h).2.2.2.2.1 (by decide)⟩

/-- C1 fails when the buffer holds an opcode 0: on the bytes `00 00 | 05 00`
the only occurrence recorded spans the bytes 2 to 4, so the spans of the
occurrences do not start at 0 and their bytes `05 00` are not a prefix of the
buffer. And an occurrence's offset is not always the start of its span: on
`wrapBuffer`, a buffer of 2^31 + 2 bytes, the occurrence read at the byte 2^31
has the offset -2^31. -/
theorem decompile_spans_counterexample :
    (Decompiler.run [0, 0, 5, 0] []).map (fun st => recordedSpans st.spans)
        = .ok [⟨2, 4, 5⟩]
      ∧ (Decompiler.decompile [0, 0, 5, 0] []).map (fun s => s.commands.map Command.offset)
          = .ok [2]
      ∧ ¬ (∃ b, spansTile [⟨2, 4, 5⟩] 0 b)
      ∧ ¬ ((([⟨2, 4, 5⟩] : List Span).map (Span.bytesOf [0, 0, 5, 0])).flatten
            <+: [0, 0, 5, 0])
      ∧ ∃ s c, Decompiler.decompile wrapBuffer [] = .ok s ∧ c ∈ s.commands
          ∧ c.offset = -2147483648 := by
  refine ⟨by rfl, by rfl, ?_, ?_, ?_⟩
  · rintro ⟨b, h1, _⟩
    cases h1
  · decide
  · obtain ⟨s, _, c1, h, _, h1, _, e1⟩ := decompile_wrapBuffer
    obtain ⟨hlt, hget⟩ := List.getElem?_eq_some.1 h1
    exact ⟨s, c1, h, hget ▸ List.getElem_mem hlt, e1⟩

/-! ## Opcode 0 (claim C4) -/

theorem step_of_read_zero (bytes : List Byte) (st : DecompileState) (cmd : Command) (c : Nat)
    (table : OpcodeTable) (hr : Command.read st.table bytes st.cursor = .ok (cmd, c, table))
    (hz : cmd.opcode = 0) :
    Decompiler.step bytes st
      = .ok { st with table := table, cursor := c,
                      spans := st.spans ++ [⟨st.cursor, c, cmd.opcode⟩] } := by
  unfold Decompiler.step
  simp only [hr, hz, if_true]

/-- C4, as the code has it: whenever the 16-bit word at the cursor is 0 and
opcode 0 is unregistered, registered with an empty name, or registered with
opcode field 0 and no operands, the disassembler advances the cursor by exactly
the 2 opcode bytes and records nothing; when opcode 0 is registered with
operands, `Command::read` decodes them before the command is skipped, and
still nothing is recorded; no occurrence in the output of
`Decompiler::decompile` has opcode 0. -/
theorem nop_skipped (bytes : List Byte) (table : OpcodeTable) :
    (∀ st : DecompileState, st.cursor + 2 ≤ bytes.length → u16At bytes st.cursor = 0 →
        ((Command.get st.table 0).name = ""
          ∨ ((Command.get st.table 0).parameters = [] ∧ (Command.get st.table 0).opcode = 0)) →
        ∃ st1, Decompiler.step bytes st = .ok st1 ∧ st1.cursor = st.cursor + 2
          ∧ st1.script = st.script)
      ∧ (∀ st st1 : DecompileState, u16At bytes st.cursor = 0 →
          ((Command.get st.table 0).name = "" ∨ (Command.get st.table 0).opcode = 0) →
          Decompiler.step bytes st = .ok st1 → st1.script = st.script)
      ∧ (∀ s, Decompiler.decompile bytes table = .ok s → ∀ c ∈ s.commands, c.opcode ≠ 0) := by
  refine ⟨?_, ?_, ?_⟩
  · intro st hlen hw hdef
    have hbound : st.cursor + 2 + (if (Command.get st.table (u16At bytes st.cursor)).toBool then
          (operandWidths bytes (Command.get st.table (u16At bytes st.cursor)).parameters
            (st.cursor + 2)).sum
        else 0) ≤ bytes.length := by
      rw [hw]
      rcases hdef with hn | ⟨hp, _⟩
      · simp [Command.toBool, hn, hlen]
      · rw [hp]
        simp [operandWidths, hlen]
    obtain ⟨cmd, c, table1, hr⟩ := read_eq_ok st.table bytes st.cursor hbound
    obtain ⟨_, _, hun, hreg⟩ := read_ok _ _ _ _ _ _ hr
    rw [hw] at hun hreg
    have hres : cmd.opcode = 0 ∧ c = st.cursor + 2 := by
      cases hb : (Command.get st.table 0).toBool with
      | false =>
        obtain ⟨h1, h2, _⟩ := hun hb
        exact ⟨by rw [h1], h2⟩
      | true =>
        obtain ⟨_, h1, h2, _⟩ := hreg hb
        rcases hdef with hn | ⟨hp, ho⟩
        · simp [Command.toBool, hn] at hb
        · rw [hp] at h2
          exact ⟨by rw [h1, ho], by simpa [operandWidths] using h2⟩
    exact ⟨_, step_of_read_zero bytes st cmd c table1 hr hres.1, hres.2, rfl⟩
  · intro st st1 hw hdef hs
    obtain ⟨cmd, cur, table1, hr, _, _, _, hskip, _⟩ := step_ok _ _ _ hs
    obtain ⟨_, _, hun, hreg⟩ := read_ok _ _ _ _ _ _ hr
    rw [hw] at hun hreg
    apply hskip
    cases hb : (Command.get st.table 0).toBool with
    | false =>
      obtain ⟨h1, _, _⟩ := hun hb
      rw [h1]
    | true =>
      obtain ⟨_, h1, _⟩ := hreg hb
      rcases hdef with hn | ho
      · simp [Command.toBool, hn] at hb
      · rw [h1, ho]
  · intro s hs
    obtain ⟨st, hrun, hst⟩ := decompile_eq_ok _ _ _ hs
    rw [← hst]
    exact (spans_run _ _ _ hrun).2.2

/-- C4 on the bytes `00 00 | 09 00` with `sampleTable`, where opcode 0 is not
registered: the first iteration moves the cursor from 0 to 2 and records
nothing. -/
theorem nop_skipped_witness :
    u16At [0, 0, 9, 0] 0 = 0
      ∧ ∃ st1, Decompiler.step [0, 0, 9, 0] { table := sampleTable } = .ok st1
          ∧ st1.cursor = 0 + 2 ∧ st1.script = {} :=
  ⟨rfl, (nop_skipped [0, 0, 9, 0] sampleTable).1 { table := sampleTable } (by decide) rfl
    (Or.inl rfl)⟩

/-- C4 fails when opcode 0 is registered with an operand: on the bytes
`00 00 | 04 07` the word at the cursor is 0 and the iteration moves the cursor
by 4 bytes, past the operand, not by 2. -/
theorem nop_skipped_counterexample :
    u16At [0, 0, 4, 7] 0 = 0
      ∧ (Decompiler.step [0, 0, 4, 7] { table := nopOperandTable }).map (fun st => st.cursor)
          = .ok 4
      ∧ (Decompiler.step [0, 0, 4, 7] { table := nopOperandTable }).map (fun st => st.script)
          = .ok {} := by
  refine ⟨by rfl, by rfl, by rfl⟩

/-! ## Reads and the end of the buffer (claim C5) -/

theorem byteAt_take (bytes : List Byte) (n i : Nat) (h : i < n) :
    byteAt (bytes.take n) i = byteAt bytes i := by
  unfold byteAt
  rw [List.getElem?_take_of_lt h]

theorem operandWidth_take (bytes : List Byte) (n declared p : Nat)
    (h : p + operandWidth (bytes.take n) declared p ≤ n) :
    operandWidth bytes declared p = operandWidth (bytes.take n) declared p := by
  have hw := operandWidth_pos (bytes.take n) declared p
  have hp : byteAt (bytes.take n) p = byteAt bytes p := byteAt_take _ _ _ (by omega)
  by_cases hs : (byteAt bytes p).val = DataType.StringVar
  · have hs1 : (byteAt (bytes.take n) p).val = DataType.StringVar := by rw [hp]; exact hs
    rw [operandWidth_stringVar _ _ _ hs1] at h ⊢
    rw [operandWidth_stringVar _ _ _ hs, byteAt_take _ _ _ (by omega)]
  · have hs1 : (byteAt (bytes.take n) p).val ≠ DataType.StringVar := by rw [hp]; exact hs
    rw [operandWidth_other _ _ _ hs1, operandWidth_other _ _ _ hs, hp]

theorem operandWidths_take (bytes : List Byte) (n : Nat) (ds : List Value) (p : Nat)
    (h : p + (operandWidths (bytes.take n) ds p).sum ≤ n) :
    operandWidths bytes ds p = operandWidths (bytes.take n) ds p := by
  induction ds generalizing p with
  | nil => rfl
  | cons d ds ih =>
    simp only [operandWidths, List.sum_cons] at h ⊢
    have hw := operandWidth_take bytes n d.size p (by omega)
    rw [hw, ih _ (by omega)]

/-- C5, as the code has it: `Command::read` checks no bound. A read that
stays inside the buffer consumes the bytes from the cursor up to the returned
cursor, which is at most the length of the buffer; every fault of
`Command::read` is a read at an index at or beyond the length of the buffer;
a buffer that ends inside an instruction (after its first byte and before its
last) is read at or beyond its end instead of being cut there;
`Decompiler::decompile` stays inside the buffer only when the last instruction
ends exactly at the end of the buffer; and its loop reads nothing once the
cursor has reached the end of the buffer. -/
theorem read_bounds (table : OpcodeTable) (bytes : List Byte) :
    (∀ cur cmd c table1, Command.read table bytes cur = .ok (cmd, c, table1) →
        cur + 2 ≤ c ∧ c ≤ bytes.length)
      ∧ (∀ cur e, Command.read table bytes cur = .error e →
          ∃ j, e = .outOfBounds j ∧ bytes.length ≤ j)
      ∧ (∀ cur cmd c table1 n, Command.read table bytes cur = .ok (cmd, c, table1) →
          cur < n → n < c →
          ∃ j, Command.read table (bytes.take n) cur = .error (.outOfBounds j) ∧ n ≤ j)
      ∧ (∀ st, Decompiler.run bytes table = .ok st → st.cursor = bytes.length)
      ∧ (∀ fuel st, bytes.length ≤ st.cursor → Decompiler.loop bytes fuel st = .ok st) := by
  have hfirst : ∀ (bs : List Byte) cur cmd c table1,
      Command.read table bs cur = .ok (cmd, c, table1) → cur + 2 ≤ c ∧ c ≤ bs.length := by
    intro bs cur cmd c table1 hr
    obtain ⟨_, hle, hun, hreg⟩ := read_ok _ _ _ _ _ _ hr
    refine ⟨?_, hle⟩
    cases hb : (Command.get table (u16At bs cur)).toBool with
    | false =>
      obtain ⟨_, hc, _⟩ := hun hb
      omega
    | true =>
      obtain ⟨_, _, hc, _⟩ := hreg hb
      omega
  refine ⟨hfirst bytes, fun cur e h => read_error _ _ _ _ h, ?_,
    fun st h => run_cursor _ _ _ h, ?_⟩
  swap
  · intro fuel st hge
    have hnot : ¬ st.cursor < bytes.length := Nat.not_lt.2 hge
    cases fuel <;> simp [Decompiler.loop, hnot]
  intro cur cmd c table1 n hr hcur hn
  obtain ⟨_, hle, hun, hreg⟩ := read_ok _ _ _ _ _ _ hr
  have hlen : (bytes.take n).length = n := by
    rw [List.length_take]
    omega
  cases hT : Command.read table (bytes.take n) cur with
  | error e =>
    obtain ⟨j, hj, hjl⟩ := read_error _ _ _ _ hT
    rw [hlen] at hjl
    exact ⟨j, by rw [hj], hjl⟩
  | ok r =>
    exfalso
    obtain ⟨cmd2, c2, table2⟩ := r
    obtain ⟨h2, hle2, hun2, hreg2⟩ := read_ok _ _ _ _ _ _ hT
    rw [hlen] at h2 hle2
    have hw : u16At (bytes.take n) cur = u16At bytes cur := by
      unfold u16At
      rw [byteAt_take _ _ _ (by omega), byteAt_take _ _ _ (by omega)]
    rw [hw] at hun2 hreg2
    cases hb : (Command.get table (u16At bytes cur)).toBool with
    | false =>
      obtain ⟨_, hc, _⟩ := hun hb
      omega
    | true =>
      obtain ⟨_, _, hc, _⟩ := hreg hb
      obtain ⟨_, _, hc2, _⟩ := hreg2 hb
      rw [hc2] at hle2
      have := operandWidths_take bytes n (Command.get table (u16At bytes cur)).parameters
        (cur + 2) hle2
      rw [this] at hc
      omega

/-- C5 on the bytes `06 00 | 03 03 00 | 04 2A` with `sampleTable`, cut after 4
bytes: the read of the second byte of the local reference is at index 4. -/
theorem read_bounds_witness :
    ∃ cmd table1, Command.read sampleTable [6, 0, 3, 3, 0, 4, 0x2A] 0 = .ok (cmd, 7, table1)
      ∧ ∃ j, Command.read sampleTable (([6, 0, 3, 3, 0, 4, 0x2A] : List Byte).take 4) 0
            = .error (.outOfBounds j) ∧ 4 ≤ j :=
  ⟨_, _, rfl,
    (read_bounds sampleTable [6, 0, 3, 3, 0, 4, 0x2A]).2.2.1 0 _ 7 _ 4 rfl (by decide) (by decide)⟩

/-- C5 fails on a buffer that ends in the middle of an opcode or of an
operand: on the single byte `01` the opcode word is read at indices 0 and 1,
and on the bytes `06 00 | 03 03` the operand of `setlocalint` is read at
index 4; both indices are the length of the buffer. -/
theorem read_bounds_counterexample :
    Decompiler.decompile [1] sampleTable = .error (.outOfBounds 1)
      ∧ ([1] : List Byte).length ≤ 1
      ∧ Decompiler.decompile [6, 0, 3, 3] sampleTable = .error (.outOfBounds 4)
      ∧ ([6, 0, 3, 3] : List Byte).length ≤ 4 := by
  refine ⟨by rfl, by decide, by rfl, by decide⟩

/-! ## Lemmas on the recursion of `optimizeJump` -/

theorem commandAt?_eq_some (s : Script) (d : Int) (c : Command)
    (h : s.commandAt? d = some c) :
    ∃ i, mapFind s.offsetsToIndices d = some i ∧ s.commands[i]? = some c := by
  unfold Script.commandAt? at h
  cases hf : mapFind s.offsetsToIndices d with
  | none => simp [hf] at h
  | some i =>
    simp only [hf] at h
    exact ⟨i, rfl, h⟩

/-- One call of `optimizeJump` whose two offsets are present: what it
returns, in terms of the two commands found. -/
theorem optimizeJump_succ (s : Script) (fuel : Nat) (jump : Goto) (cmd first second : Command)
    (h1 : s.commandAt? jump.source = some first) (h2 : s.commandAt? jump.dest = some second) :
    s.optimizeJump (fuel + 1) jump cmd
      = if !Goto.isJumpOpcode first.opcode || !Goto.isJumpOpcode second.opcode then .ok cmd
        else if isUnconditional second.opcode then
          match first.parameters, second.parameters with
          | _ :: ps, q :: _ =>
            match Goto.ofCommand { first with parameters := q :: ps } with
            | .error e => .error e
            | .ok next => s.optimizeJump fuel next { first with parameters := q :: ps }
          | _, _ => .error .noOperand
        else .ok cmd := by
  obtain ⟨i1, hf1, hc1⟩ := commandAt?_eq_some _ _ _ h1
  obtain ⟨i2, hf2, hc2⟩ := commandAt?_eq_some _ _ _ h2
  simp only [Script.optimizeJump, hf1, hf2, hc1, hc2, isUnconditional]

theorem optimizeJump_absent (s : Script) (fuel : Nat) (jump : Goto) (cmd : Command)
    (h : mapFind s.offsetsToIndices jump.source = none
      ∨ mapFind s.offsetsToIndices jump.dest = none) :
    s.optimizeJump (fuel + 1) jump cmd = .ok cmd := by
  unfold Script.optimizeJump
  cases h1 : mapFind s.offsetsToIndices jump.source with
  | none => rfl
  | some i1 =>
    rcases h with h | h
    · rw [h1] at h; cases h
    · simp only [h]

/-- A result of `optimizeJump` comes from a call that returned its own
argument at once: either the first call, or the last call of the recursion,
which was made on the edge `Goto(r)` of the result `r`. -/
theorem optimizeJump_result (s : Script) (fuel : Nat) (jump : Goto) (cmd r : Command)
    (h : s.optimizeJump fuel jump cmd = .ok r) :
    (r = cmd ∧ ∀ fuel1, s.optimizeJump (fuel1 + 1) jump cmd = .ok cmd)
      ∨ (∃ g, Goto.ofCommand r = .ok g ∧ ∀ fuel1, s.optimizeJump (fuel1 + 1) g r = .ok r) := by
  induction fuel generalizing jump cmd with
  | zero => simp [Script.optimizeJump] at h
  | succ fuel ih =>
    unfold Script.optimizeJump at h
    cases h1 : mapFind s.offsetsToIndices jump.source with
    | none =>
      simp only [h1, Except.ok.injEq] at h
      exact Or.inl ⟨h.symm, fun f => optimizeJump_absent s f jump cmd (Or.inl h1)⟩
    | some i1 =>
      cases h2 : mapFind s.offsetsToIndices jump.dest with
      | none =>
        simp only [h1, h2, Except.ok.injEq] at h
        exact Or.inl ⟨h.symm, fun f => optimizeJump_absent s f jump cmd (Or.inr h2)⟩
      | some i2 =>
        cases hc1 : s.commands[i1]? with
        | none => simp [h1, h2, hc1] at h
        | some first =>
          cases hc2 : s.commands[i2]? with
          | none => simp [h1, h2, hc1, hc2] at h
          | some second =>
            simp only [h1, h2, hc1, hc2] at h
            have hat1 : s.commandAt? jump.source = some first := by
              simp [Script.commandAt?, h1, hc1]
            have hat2 : s.commandAt? jump.dest = some second := by
              simp [Script.commandAt?, h2, hc2]
            have hstep := fun f => optimizeJump_succ s f jump cmd first second hat1 hat2
            split_ifs at h with ha hb
            · simp only [Except.ok.injEq] at h
              refine Or.inl ⟨h.symm, fun f => ?_⟩
              rw [hstep f, if_pos ha]
            · split at h
              · rename_i p ps q qs hp hq
                split at h
                · simp at h
                · rename_i next hg
                  rcases ih next _ h with ⟨hr, hall⟩ | hex
                  · exact Or.inr ⟨next, by rw [hr]; exact hg, by rw [hr]; exact hall⟩
                  · exact Or.inr hex
              · simp at h
            · simp only [Except.ok.injEq] at h
              refine Or.inl ⟨h.symm, fun f => ?_⟩
              have hb1 : isUnconditional second.opcode = false := by
                simpa [isUnconditional] using hb
              rw [hstep f, if_neg ha, hb1]
              rfl

/-! ## Idempotence of the jump optimizer (claim C12) -/

/-- C12: if `r = optimizeJump(Goto(c), c)` is returned for a jump command
`c`, then `optimizeJump(Goto(r), r) = r`: optimizing an already optimized edge
changes nothing. (This holds for every script, whatever its offset index.) -/
theorem optimizeJump_idempotent (s : Script) (fuel : Nat) (c r : Command) (g : Goto)
    (hg : Goto.ofCommand c = .ok g) (hr : s.optimizeJump fuel g c = .ok r) :
    ∃ g1, Goto.ofCommand r = .ok g1 ∧ ∀ fuel1, s.optimizeJump (fuel1 + 1) g1 r = .ok r := by
  rcases optimizeJump_result s fuel g c r hr with ⟨hrc, hall⟩ | hex
  · exact ⟨g, by rw [hrc]; exact hg, by rw [hrc]; exact hall⟩
  · exact hex

/-- C12 at `chainScript`: the `Jump` at offset 0 is rewritten to target offset
14, and optimizing the rewritten command on its own edge returns it unchanged. -/
theorem optimizeJump_idempotent_witness :
    Goto.ofCommand chainJump = .ok ⟨0, 7, 0x2⟩
      ∧ chainScript.optimizeJump 3 ⟨0, 7, 0x2⟩ chainJump = .ok chainJumpOptimized
      ∧ ∃ g1, Goto.ofCommand chainJumpOptimized = .ok g1
          ∧ ∀ fuel1, chainScript.optimizeJump (fuel1 + 1) g1 chainJumpOptimized
              = .ok chainJumpOptimized :=
  ⟨rfl, rfl,
    optimizeJump_idempotent chainScript 3 chainJump chainJumpOptimized ⟨0, 7, 0x2⟩ rfl rfl⟩

/-! ## Lemmas on chains of targets -/

theorem abs32_of_offset (x : Int) (h0 : 0 ≤ x) (h1 : x < 2147483648) : abs32 x = x := by
  unfold abs32 toInt32
  have : Int.ofNat x.natAbs = x := by
    simpa using Int.natAbs_of_nonneg h0
  rw [this]
  omega

theorem Command.with_parameters_self (c : Command) (ps : List Value) (h : c.parameters = ps) :
    { c with parameters := ps } = c := by
  cases c
  simp only at h
  subst h
  rfl

theorem mapFind_mem {κ : Type} {β : Type} [DecidableEq κ] (m : List (κ × β)) (k : κ) (v : β)
    (h : mapFind m k = some v) : (k, v) ∈ m := by
  induction m with
  | nil => simp [mapFind] at h
  | cons a m ih =>
    obtain ⟨k2, v2⟩ := a
    simp only [mapFind] at h
    by_cases hk : k2 = k
    · simp only [hk, if_true, Option.some.injEq] at h
      subst hk
      subst h
      exact List.mem_cons_self _ _
    · simp only [hk, if_false] at h
      exact List.mem_cons_of_mem _ (ih h)

theorem indexInvertible_of_check (s : Script) (h : indexInvertibleCheck s = true) :
    IndexInvertible s := by
  unfold indexInvertibleCheck at h
  simp only [Bool.and_eq_true, List.all_eq_true] at h
  obtain ⟨⟨ha, hb⟩, hc⟩ := h
  refine ⟨?_, ?_, ?_⟩
  · intro k i hf
    have := ha (k, i) (mapFind_mem _ _ _ hf)
    simp only at this
    cases hc1 : s.commands[i]? with
    | none => simp [hc1] at this
    | some c =>
      simp only [hc1, decide_eq_true_eq] at this
      exact ⟨c, rfl, this⟩
  · intro i c hic
    have hlt : i < s.commands.length := by
      by_contra hge
      rw [List.getElem?_eq_none (by omega)] at hic
      cases hic
    have := hb i (List.mem_range.mpr hlt)
    simpa [hic] using this
  · intro c hmem
    have := hc c hmem
    simpa using this

/-! ## Chains of jumps (claims C11, C13) -/

theorem mapFind_of_toBool (table : OpcodeTable) (op : Nat)
    (h : (Command.get table op).toBool = true) :
    mapFind table op = some (Command.get table op) := by
  unfold Command.get at h ⊢
  cases hf : mapFind table op with
  | none =>
    rw [hf] at h
    simp [Command.toBool, Command.nullCommand] at h
  | some d => rfl

theorem get_mapAdjust_self (table : OpcodeTable) (op : Nat) (f : Command → Command)
    (h : (Command.get table op).toBool = true) :
    Command.get (mapAdjust table op f) op = f (Command.get table op) := by
  have hf := mapFind_of_toBool table op h
  unfold Command.get
  rw [mapFind_mapAdjust, if_pos rfl]
  cases hm : mapFind table op with
  | none => rw [hm] at hf; cases hf
  | some d => rfl

theorem get_mapAdjust_other (table : OpcodeTable) (op op1 : Nat) (f : Command → Command)
    (h : op ≠ op1) : Command.get (mapAdjust table op f) op1 = Command.get table op1 := by
  unfold Command.get
  rw [mapFind_mapAdjust, if_neg h]

theorem backfill_length (ds vs : List Value) (h : vs.length = ds.length) :
    (Command.backfill ds vs).length = ds.length := by
  simp [Command.backfill, h]

theorem backfill_types (ds vs : List Value) (h : vs.length = ds.length) :
    (Command.backfill ds vs).map (fun v => v.type) = vs.map (fun v => v.type) := by
  induction ds generalizing vs with
  | nil =>
    cases vs with
    | nil => rfl
    | cons v vs => simp at h
  | cons d ds ih =>
    cases vs with
    | nil => simp at h
    | cons v vs =>
      simp only [List.length_cons, Nat.add_right_cancel_iff] at h
      have := ih vs h
      simp only [Command.backfill] at this
      simp [Command.backfill, this]

/-- The registry after `Command::read` of a registered opcode. -/
theorem read_registered_table (table : OpcodeTable) (bytes : List Byte) (cur c : Nat)
    (cmd : Command) (table1 : OpcodeTable)
    (hb : (Command.get table (u16At bytes cur)).toBool = true)
    (h : Command.read table bytes cur = .ok (cmd, c, table1)) :
    table1 = mapAdjust table (u16At bytes cur)
        (fun d => { d with parameters := Command.backfill d.parameters cmd.parameters })
      ∧ cmd.parameters.length = (Command.get table (u16At bytes cur)).parameters.length := by
  have hlen := (read_ok table bytes cur c cmd table1 h).2.2.2 hb
  refine ⟨?_, hlen.2.2.2.1⟩
  unfold Command.read at h
  cases h1 : readU16 bytes cur with
  | error e => simp [h1] at h
  | ok w =>
    obtain ⟨_, hw⟩ := readU16_lt _ _ _ h1
    subst hw
    simp only [h1, hb, Bool.not_true, Bool.false_eq_true, if_false] at h
    cases h2 : Command.readParams bytes (Command.get table (u16At bytes cur)).parameters
        (cur + 2) with
    | error e => simp [h2] at h
    | ok r =>
      obtain ⟨ps, c1⟩ := r
      simp only [h2, Except.ok.injEq, Prod.mk.injEq] at h
      obtain ⟨hc, _, ht⟩ := h
      subst hc
      exact ht.symm

theorem definitionTypes_read (table : OpcodeTable) (bytes : List Byte) (cur c : Nat)
    (cmd : Command) (table1 : OpcodeTable)
    (hb : (Command.get table (u16At bytes cur)).toBool = true)
    (h : Command.read table bytes cur = .ok (cmd, c, table1)) :
    definitionTypes table1 (u16At bytes cur) = cmd.parameters.map (fun v => v.type)
      ∧ (Command.get table1 (u16At bytes cur)).toBool = true := by
  obtain ⟨ht, hlen⟩ := read_registered_table table bytes cur c cmd table1 hb h
  subst ht
  unfold definitionTypes
  rw [get_mapAdjust_self _ _ _ hb]
  exact ⟨backfill_types _ _ hlen, hb⟩

/-! ## The back-fill of operand types (claim C25) -/

/-- C25 as claimed fails on `twoOccurrences` with `sampleTable`: after the
decode of the first occurrence of opcode 6 the definition has the operand types
3 and 4, and the decode of the second occurrence changes them to 4 and 4. -/
theorem read_backfill_counterexample :
    ∃ cmd1 c1 table1 cmd2 c2 table2,
      Command.read sampleTable twoOccurrences 0 = .ok (cmd1, c1, table1)
        ∧ Command.read table1 twoOccurrences 7 = .ok (cmd2, c2, table2)
        ∧ definitionTypes table1 6 = [3, 4] ∧ definitionTypes table2 6 = [4, 4] :=
  ⟨_, _, _, _, _, _, rfl, rfl, rfl, rfl⟩

/-- C25, amended: every decode of a registered opcode with `Command::read`
sets the operand types of its definition to the types of the occurrence just
decoded, so a second decode leaves them unchanged exactly when the second
occurrence carries the same type tags as the first. -/
theorem read_backfill (table : OpcodeTable) (bytes : List Byte) (cur1 cur2 c1 c2 : Nat)
    (cmd1 cmd2 : Command) (table1 table2 : OpcodeTable)
    (hreg : (Command.get table (u16At bytes cur1)).toBool = true)
    (h1 : Command.read table bytes cur1 = .ok (cmd1, c1, table1))
    (hop : u16At bytes cur2 = u16At bytes cur1)
    (h2 : Command.read table1 bytes cur2 = .ok (cmd2, c2, table2)) :
    definitionTypes table1 (u16At bytes cur1) = cmd1.parameters.map (fun v => v.type)
      ∧ definitionTypes table2 (u16At bytes cur1) = cmd2.parameters.map (fun v => v.type)
      ∧ (definitionTypes table2 (u16At bytes cur1) = definitionTypes table1 (u16At bytes cur1)
          ↔ cmd2.parameters.map (fun v => v.type) = cmd1.parameters.map (fun v => v.type)) := by
  obtain ⟨e1, hreg1⟩ := definitionTypes_read table bytes cur1 c1 cmd1 table1 hreg h1
  rw [← hop] at hreg1
  obtain ⟨e2, _⟩ := definitionTypes_read table1 bytes cur2 c2 cmd2 table2 hreg1 h2
  rw [hop] at e2
  exact ⟨e1, e2, by rw [e1, e2]⟩

/-- C25, amended, on `twoOccurrences` with `sampleTable`. -/
theorem read_backfill_witness :
    ∃ cmd1 c1 table1 cmd2 c2 table2,
      Command.read sampleTable twoOccurrences 0 = .ok (cmd1, c1, table1)
        ∧ Command.read table1 twoOccurrences 7 = .ok (cmd2, c2, table2)
        ∧ definitionTypes table1 (u16At twoOccurrences 0) = cmd1.parameters.map (fun v => v.type)
        ∧ definitionTypes table2 (u16At twoOccurrences 0) = cmd2.parameters.map (fun v => v.type)
        ∧ (definitionTypes table2 (u16At twoOccurrences 0)
            = definitionTypes table1 (u16At twoOccurrences 0)
          ↔ cmd2.parameters.map (fun v => v.type) = cmd1.parameters.map (fun v => v.type)) :=
  ⟨_, _, _, _, _, _, rfl, rfl,
    read_backfill sampleTable twoOccurrences 0 7 _ _ _ _ _ _ rfl rfl rfl rfl⟩

/-! ## Lemmas on the payload of a decoded operand -/

theorem slice_length (bytes : List Byte) (p n : Nat) (h : p + n ≤ bytes.length) :
    (slice bytes p n).length = n := by
  unfold slice
  rw [List.length_take, List.length_drop]
  omega

theorem readPayload_payload (bytes : List Byte) (param v : Value) (cur c : Nat)
    (hcur : cur ≤ bytes.length) (h : Command.readPayload bytes param cur = .ok (v, c)) :
    (param.size ≠ 0 → v.bytes.length = param.size) ∧ (param.size = 0 → v.bytes = param.bytes) := by
  obtain ⟨hc, hle, _, _, hb1, hb0⟩ := readPayload_ok bytes param v cur c hcur h
  refine ⟨fun hz => ?_, fun hz => by rw [hb0 hz]⟩
  rw [hb1 hz]
  exact slice_length _ _ _ (by omega)

theorem readParam_payload (bytes : List Byte) (d v : Value) (p c : Nat)
    (h : Command.readParam bytes d p = .ok (v, c)) : PayloadDecoded bytes d v p := by
  have hdec := (readParam_ok bytes d v p c h).2.2
  refine ⟨hdec.1, ?_, ?_⟩
  · intro hu he
    unfold Command.readParam at h
    cases h1 : readByte bytes p with
    | error e => simp [h1] at h
    | ok tag =>
      obtain ⟨hlt, htag⟩ := readByte_lt _ _ _ h1
      subst htag
      simp only [h1, typed_type] at h
      rw [hdec.1] at hu he
      unfold impliedLength
      by_cases hs : (byteAt bytes p).val = DataType.StringVar
      · simp only [hs, if_true] at h ⊢
        cases h2 : readByte bytes (p + 1) with
        | error e => simp [h2] at h
        | ok len =>
          obtain ⟨hlt2, hlen⟩ := readByte_lt _ _ _ h2
          subst hlen
          simp only [h2] at h
          have := readPayload_payload _ _ _ _ _ (by omega) h
          simpa [Value.setSize, typed_bytes] using this
      · simp only [hs, if_false] at h ⊢
        have := readPayload_payload _ _ _ _ _ (by omega) h
        have hsz : (Command.typed d (byteAt bytes p).val).size
            = getValueSize (byteAt bytes p).val := by
          rw [typed_size, if_neg]
          rintro (h0 | h0)
          · exact he h0
          · exact hu h0
        simpa [hsz, typed_bytes] using this
  · intro hue
    unfold Command.readParam at h
    cases h1 : readByte bytes p with
    | error e => simp [h1] at h
    | ok tag =>
      obtain ⟨hlt, htag⟩ := readByte_lt _ _ _ h1
      subst htag
      simp only [h1, typed_type] at h
      rw [hdec.1] at hue
      have hs : (byteAt bytes p).val ≠ DataType.StringVar := by
        rcases hue with h0 | h0 <;> rw [h0] <;> decide
      simp only [hs, if_false] at h
      have := readPayload_payload _ _ _ _ _ (by omega) h
      have hsz : (Command.typed d (byteAt bytes p).val).size = d.size := by
        rw [typed_size, if_pos]
        exact hue.symm
      simpa [hsz, typed_bytes] using this

theorem readParams_payload (bytes : List Byte) (ds vs : List Value) (p c : Nat)
    (h : Command.readParams bytes ds p = .ok (vs, c)) :
    ∀ k (h1 : k < vs.length) (h2 : k < ds.length),
      PayloadDecoded bytes ds[k] vs[k] (p + ((operandWidths bytes ds p).take k).sum) := by
  induction ds generalizing vs p c with
  | nil => intro k _ h2; simp at h2
  | cons d ds ih =>
    simp only [Command.readParams] at h
    cases h1 : Command.readParam bytes d p with
    | error e => simp [h1] at h
    | ok r1 =>
      obtain ⟨v, c1⟩ := r1
      simp only [h1] at h
      cases h2 : Command.readParams bytes ds c1 with
      | error e => simp [h2] at h
      | ok r2 =>
        obtain ⟨vs2, c2⟩ := r2
        simp only [h2, Except.ok.injEq, Prod.mk.injEq] at h
        obtain ⟨hv, hc⟩ := h
        subst hv hc
        have e1 := (readParam_ok _ _ _ _ _ h1).1
        subst e1
        intro k hk1 hk2
        cases k with
        | zero => simpa [operandWidths] using readParam_payload _ _ _ _ _ h1
        | succ k =>
          have := ih vs2 _ _ h2 k (by simpa using hk1) (by simpa using hk2)
          simpa [operandWidths, Nat.add_assoc] using this

/-! ## The payload lengths (claim C26) -/

/-- C26 as claimed fails on the bytes `02 00 | 00 09` with `sampleTable`: the
operand of the occurrence has the tag `EOAL`, which is not the placeholder tag,
and a payload of one byte, while the length its tag implies is 0. -/
theorem read_payload_length_counterexample :
    ∃ cmd c table1 v,
      Command.read sampleTable [2, 0, 0, 9] 0 = .ok (cmd, c, table1)
        ∧ cmd.parameters = [v] ∧ v.type = (byteAt [2, 0, 0, 9] 2).val
        ∧ v.type ≠ DataType.Unknown
        ∧ v.bytes.length = 1 ∧ impliedLength [2, 0, 0, 9] 2 = 0 :=
  ⟨_, _, _, _, rfl, rfl, rfl, by decide, rfl, rfl⟩

/-- C26, amended: every operand produced by `Command::read` of a registered
opcode, for every buffer and opcode table, has the type of its tag byte, and a
payload whose length is the length implied by its tag (`getValueSize` of the
tag, or the length byte for a variable-length string) when that length is not
zero, except operands with the `Unknown` or the `EOAL` tag, whose payload has
the size that the operand of the definition declares when that is not zero;
an operand whose length is zero keeps the payload of the definition. -/
theorem read_payload_length (table : OpcodeTable) (bytes : List Byte) (cur c : Nat)
    (cmd : Command) (table1 : OpcodeTable)
    (hreg : (Command.get table (u16At bytes cur)).toBool = true)
    (h : Command.read table bytes cur = .ok (cmd, c, table1)) :
    cmd.parameters.length = (Command.get table (u16At bytes cur)).parameters.length
      ∧ ∀ k (h1 : k < cmd.parameters.length)
          (h2 : k < (Command.get table (u16At bytes cur)).parameters.length),
          PayloadDecoded bytes (Command.get table (u16At bytes cur)).parameters[k]
            cmd.parameters[k]
            (cur + 2 + ((operandWidths bytes
              (Command.get table (u16At bytes cur)).parameters (cur + 2)).take k).sum) := by
  refine ⟨((read_ok table bytes cur c cmd table1 h).2.2.2 hreg).2.2.2.1, ?_⟩
  unfold Command.read at h
  cases h1 : readU16 bytes cur with
  | error e => simp [h1] at h
  | ok w =>
    obtain ⟨_, hw⟩ := readU16_lt _ _ _ h1
    subst hw
    simp only [h1, hreg, Bool.not_true, Bool.false_eq_true, if_false] at h
    cases h2 : Command.readParams bytes (Command.get table (u16At bytes cur)).parameters
        (cur + 2) with
    | error e => simp [h2] at h
    | ok r =>
      obtain ⟨ps, c1⟩ := r
      simp only [h2, Except.ok.injEq, Prod.mk.injEq] at h
      obtain ⟨hc, _, _⟩ := h
      subst hc
      exact readParams_payload _ _ _ _ _ h2

/-- C26, amended, on the first occurrence of `twoOccurrences` with
`sampleTable`: its operands have payloads of 2 bytes and 1 byte. -/
theorem read_payload_length_witness :
    ∃ cmd c table1,
      Command.read sampleTable twoOccurrences 0 = .ok (cmd, c, table1)
        ∧ cmd.parameters.length = (Command.get sampleTable (u16At twoOccurrences 0)).parameters.length
        ∧ ∀ k (h1 : k < cmd.parameters.length)
            (h2 : k < (Command.get sampleTable (u16At twoOccurrences 0)).parameters.length),
            PayloadDecoded twoOccurrences
              (Command.get sampleTable (u16At twoOccurrences 0)).parameters[k]
              cmd.parameters[k]
              (0 + 2 + ((operandWidths twoOccurrences
                (Command.get sampleTable (u16At twoOccurrences 0)).parameters (0 + 2)).take k).sum) :=
  ⟨_, _, _, rfl, read_payload_length sampleTable twoOccurrences 0 _ _ _ rfl rfl⟩

/-! ## The `setlocalint` scenario (claim C27) -/

/-- C27 as claimed fails with `sampleTable`: after the opcode bytes `06 00` the
decoder takes `03` as the type tag of the first operand and `00 2A` as its
payload, and then reads the type tag of the second operand past the end of the
buffer. -/
theorem decompile_setlocalint_counterexample :
    Decompiler.decompile [0, 0, 6, 0, 3, 0, 0x2A] sampleTable = .error (.outOfBounds 7) := by
  rfl

/-- C27, amended: with opcode 0x0006 registered as `setlocalint` with two
operands and opcode 0 not registered, decoding the bytes of opcode 0 followed
by opcode 0x0006 and the operand bytes `03 03 00 04 2A` (each operand preceded
by its type tag: `03` with the two bytes `03 00`, `04` with the byte `2A`)
yields exactly one occurrence, named `setlocalint`, with two operands, the
second of which is an `S8` carrying the value 42. -/
theorem decompile_setlocalint (table : OpcodeTable) (d : Command) (d1 d2 : Value)
    (h0 : (Command.get table 0).toBool = false) (h6 : Command.get table 6 = d)
    (hname : d.name = "setlocalint") (hop : d.opcode = 6) (hps : d.parameters = [d1, d2]) :
    ∃ s c v1 v2, Decompiler.decompile [0, 0, 6, 0, 3, 3, 0, 4, 0x2A] table = .ok s
      ∧ s.commands = [c] ∧ c.name = "setlocalint" ∧ c.offset = 2 ∧ c.parameters = [v1, v2]
      ∧ v2.type = DataType.S8 ∧ v2.bytes = [0x2A] ∧ leNat v2.bytes = 42 := by
  have hb6 : (Command.get table 6).toBool = true := by
    rw [h6]
    simp [Command.toBool, hname]
  have hr0 : Command.read table [0, 0, 6, 0, 3, 3, 0, 4, 0x2A] 0
      = .ok ({ Command.get table 0 with opcode := 0 }, 2, table) := by
    have e : readU16 [0, 0, 6, 0, 3, 3, 0, 4, 0x2A] 0 = .ok 0 := rfl
    simp only [Command.read, e, h0, Bool.not_false, if_true]
  have hr6 : ∃ table1, Command.read table [0, 0, 6, 0, 3, 3, 0, 4, 0x2A] 2
      = .ok ({ d with parameters :=
                [{ d1 with type := 3, size := 2, bytesSet := true, bytes := [3, 0] },
                 { d2 with type := 4, size := 1, bytesSet := true, bytes := [0x2A] }] }, 9,
             table1) := by
    have e : readU16 [0, 0, 6, 0, 3, 3, 0, 4, 0x2A] 2 = .ok 6 := rfl
    have ep : Command.readParams [0, 0, 6, 0, 3, 3, 0, 4, 0x2A] [d1, d2] 4
        = .ok ([{ d1 with type := 3, size := 2, bytesSet := true, bytes := [3, 0] },
                { d2 with type := 4, size := 1, bytesSet := true, bytes := [0x2A] }], 9) := rfl
    simp only [Command.read, e, hb6, Bool.not_true, Bool.false_eq_true, if_false]
    rw [h6, hps, ep]
    exact ⟨_, rfl⟩
  obtain ⟨table1, hr6⟩ := hr6
  refine ⟨{ commands := [{ d with offset := 2, scriptIndex := 0, parameters :=
                [{ d1 with type := 3, size := 2, bytesSet := true, bytes := [3, 0] },
                 { d2 with type := 4, size := 1, bytesSet := true, bytes := [0x2A] }] }]
            offsetsToIndices := [(2, 0)] },
    _, { d1 with type := 3, size := 2, bytesSet := true, bytes := [3, 0] },
    { d2 with type := 4, size := 1, bytesSet := true, bytes := [0x2A] },
    ?_, rfl, hname, rfl, rfl, rfl, rfl, rfl⟩
  have e2 : toInt32 (Int.ofNat 2) = 2 := rfl
  simp [Decompiler.decompile, Decompiler.run, Decompiler.loop, Decompiler.step, hr0, hr6, hop,
    Goto.isJumpOpcode, Opcode.Jump, Opcode.JumpIfFalse, Opcode.Call, mapSet, mapModify,
    mapContains, mapFind, mapInsertNew]
  exact e2

/-- C27, amended, with `sampleTable`. -/
theorem decompile_setlocalint_witness :
    ∃ s c v1 v2, Decompiler.decompile [0, 0, 6, 0, 3, 3, 0, 4, 0x2A] sampleTable = .ok s
      ∧ s.commands = [c] ∧ c.name = "setlocalint" ∧ c.offset = 2 ∧ c.parameters = [v1, v2]
      ∧ v2.type = DataType.S8 ∧ v2.bytes = [0x2A] ∧ leNat v2.bytes = 42 :=
  decompile_setlocalint sampleTable
    { name := "setlocalint", opcode := 0x6, parameters := [{ size := 1 }, { size := 2 }] }
    { size := 1 } { size := 2 } rfl rfl rfl rfl rfl

/-! ## The sub-code of a conditional (claim C14) -/

/-- C14 as claimed fails at the sub-code 8: `ifInfo` returns the count 245
with the combination `Or`, and 245 is not 8 - 19. -/
theorem ifInfo_counterexample :
    FullIf.ifInfo (ifCommand 0 0 8) = .ok (245, .Or) ∧ ((245 : Nat) : Int) ≠ 8 - 19 :=
  ⟨rfl, by decide⟩

/-- C14, amended: for a command whose first operand has the sub-code byte `b`,
`FullIf::ifInfo` returns (1, None) when `b = 0`, (b + 1, And) when
`1 ≤ b ≤ 7`, (b - 19, Or) when `19 ≤ b ≤ 27`, and the combination `Invalid`
when `28 ≤ b`. -/
theorem ifInfo_spec (cmd : Command) (p : Value) (ps : List Value) (b : Nat)
    (hp : cmd.parameters = p :: ps) (hb : p.castUInt8 = b) :
    (b = 0 → FullIf.ifInfo cmd = .ok (1, .None))
      ∧ (1 ≤ b → b ≤ 7 → FullIf.ifInfo cmd = .ok (b + 1, .And))
      ∧ (19 ≤ b → b ≤ 27 → FullIf.ifInfo cmd = .ok (b - 19, .Or))
      ∧ (28 ≤ b → ∃ n, FullIf.ifInfo cmd = .ok (n, .Invalid)) := by
  unfold FullIf.ifInfo
  simp only [hp, hb]
  refine ⟨?_, ?_, ?_, ?_⟩
  · intro h0
    simp [h0]
  · intro h1 h7
    have e1 : ¬ b = 0 := by omega
    have e2 : b < 8 := by omega
    have e3 : (b + 1) % 256 = b + 1 := by omega
    simp [e1, e2, e3]
  · intro h19 h27
    have e1 : ¬ b = 0 := by omega
    have e2 : ¬ b < 8 := by omega
    have e3 : b < 28 := by omega
    have e4 : (b + 256 - 19) % 256 = b - 19 := by omega
    simp only [e1, e2, e3, e4, if_false, if_true]
  · intro h28
    have e1 : ¬ b = 0 := by omega
    have e2 : ¬ b < 8 := by omega
    have e3 : ¬ b < 28 := by omega
    exact ⟨0, by simp [e1, e2, e3]⟩

/-- C14, amended, at the sub-codes 3, 21 and 30: (4, And), (2, Or) and
`Invalid`. -/
theorem ifInfo_spec_witness :
    FullIf.ifInfo (ifCommand 0 0 3) = .ok (4, .And)
      ∧ FullIf.ifInfo (ifCommand 0 0 21) = .ok (2, .Or)
      ∧ ∃ n, FullIf.ifInfo (ifCommand 0 0 30) = .ok (n, .Invalid) :=
  ⟨(ifInfo_spec (ifCommand 0 0 3) _ _ 3 rfl rfl).2.1 (by decide) (by decide),
    (ifInfo_spec (ifCommand 0 0 21) _ _ 21 rfl rfl).2.2.1 (by decide) (by decide),
    (ifInfo_spec (ifCommand 0 0 30) _ _ 30 rfl rfl).2.2.2 (by decide)⟩

/-! ## Lemmas on `ifStatementFromIndex` -/

theorem conditionsNamed_spec (commands : List Command) (j count : Nat)
    (h : j + count ≤ commands.length) :
    ∃ b, Script.conditionsNamed commands j count = .ok b
      ∧ (b = true ↔ ∀ k, j ≤ k → k < j + count → ∃ c, commands[k]? = some c ∧ c.name ≠ "") := by
  induction count generalizing j with
  | zero => exact ⟨true, rfl, by simp; intro k h1 h2; omega⟩
  | succ count ih =>
    have hj : j < commands.length := by omega
    simp only [Script.conditionsNamed, List.getElem?_eq_getElem hj]
    by_cases hname : commands[j].name = ""
    · refine ⟨false, by simp [hname], ?_⟩
      simp only [Bool.false_eq_true, false_iff, not_forall]
      refine ⟨j, le_refl _, by omega, ?_⟩
      rintro ⟨c, hc, hne⟩
      rw [List.getElem?_eq_getElem hj] at hc
      cases hc
      exact hne hname
    · obtain ⟨b, hb, hiff⟩ := ih (j + 1) (by omega)
      refine ⟨b, by simp [hname, hb], ?_⟩
      rw [hiff]
      constructor
      · intro hall k h1 h2
        by_cases hk : k = j
        · subst hk
          exact ⟨_, List.getElem?_eq_getElem hj, hname⟩
        · exact hall k (by omega) (by omega)
      · intro hall k h1 h2
        exact hall k (by omega) (by omega)

theorem bodyEnd_append (t : Int) (body rest : List Command) (u : Nat)
    (hbody : ∀ b ∈ body, b.offset ≠ t) (hrest : ∀ r, rest.head? = some r → r.offset = t) :
    Script.bodyEnd t (body ++ rest) u
      = match body.getLast? with
        | none => u
        | some c => toSizeT c.offset := by
  induction body generalizing u with
  | nil =>
    cases rest with
    | nil => rfl
    | cons r rest =>
      have := hrest r rfl
      simp [Script.bodyEnd, this]
  | cons b body ih =>
    have hb : b.offset ≠ t := hbody b (List.mem_cons_self _ _)
    have ih1 := ih (toSizeT b.offset) (fun x hx => hbody x (List.mem_cons_of_mem _ hx))
    have e : Script.bodyEnd t ((b :: body) ++ rest) u
        = Script.bodyEnd t (body ++ rest) (toSizeT b.offset) := by
      simp [Script.bodyEnd, hb]
    rw [e, ih1]
    cases body with
    | nil => rfl
    | cons b1 body =>
      obtain ⟨d, hd⟩ : ∃ d, (b1 :: body).getLast? = some d :=
        ⟨_, List.getLast?_eq_getLast _ (by simp)⟩
      rw [List.getLast?_cons_cons, hd]

theorem body_split (t : Int) (l : List Command) :
    ∃ body rest, l = body ++ rest ∧ (∀ b ∈ body, b.offset ≠ t)
      ∧ (∀ r, rest.head? = some r → r.offset = t) := by
  induction l with
  | nil => exact ⟨[], [], rfl, by simp, by simp⟩
  | cons c l ih =>
    by_cases hc : c.offset = t
    · exact ⟨[], c :: l, rfl, by simp, by simp [hc]⟩
    · obtain ⟨body, rest, hl, hb, hr⟩ := ih
      refine ⟨c :: body, rest, by rw [hl]; rfl, ?_, hr⟩
      intro b hb1
      rcases List.mem_cons.1 hb1 with h | h
      · rw [h]; exact hc
      · exact hb b h

/-! ## The shape of a conditional (claim C15) -/

/-- C15 as claimed fails on a script whose only command is an `If` with
sub-code 0: command 1 is missing, so it is not a `JumpIfFalse`, but the
candidate is not discarded: `ifStatementFromIndex` indexes `commands` past its
end. -/
theorem ifStatementFromIndex_counterexample :
    Script.ifStatementFromIndex { commands := [ifCommand 0 0 0] } 0 0
      = .error (.badIndex 1) := by
  rfl

/-- C15, amended: for an `If` command `c` at index `i` that is not yet a key
of `ifStatements`, whose sub-code is valid with a condition count `n ≥ 1`, in a
script that has a command at index `i + n + 2` and whose command `i + n + 1`,
if a `JumpIfFalse`, has an operand, `ifStatementFromIndex(i)` returns, and it
yields a conditional exactly when commands `i + 1 .. i + n - 1` all have
non-empty names and command `i + n + 1` is a `JumpIfFalse`; otherwise it
returns the discarded candidate. The conditional has `conditionStartOffset`,
`conditionEndOffset`, `jifOffset` and `bodyStartOffset` at the offsets of the
commands `i`, `i + n`, `i + n + 1` and `i + n + 2`; and when its body, the
commands from index `i + n + 2` up to the first one whose offset is the
absolute value of the `JumpIfFalse` target (all of them if there is none), is
not empty, `bodyEndOffset` is the offset of the last command of the body. -/
theorem ifStatementFromIndex_spec (s : Script) (unset i n : Nat) (c : Command)
    (comb : CombinationType)
    (hi : s.commands[i]? = some c) (hop : c.opcode = Opcode.If)
    (hnew : mapContains s.ifStatements c.offset = false)
    (hinfo : FullIf.ifInfo c = .ok (n, comb)) (hvalid : comb ≠ .Invalid) (hn : 1 ≤ n)
    (hlen : i + n + 2 < s.commands.length)
    (hjp : ∀ jif, s.commands[i + n + 1]? = some jif → jif.opcode = Opcode.JumpIfFalse →
      jif.parameters ≠ []) :
    ∃ f, s.ifStatementFromIndex unset i = .ok f
      ∧ (f.combination ≠ .Invalid ↔
          (∀ k, i + 1 ≤ k → k < i + n → ∃ ck, s.commands[k]? = some ck ∧ ck.name ≠ "")
            ∧ ∃ jif, s.commands[i + n + 1]? = some jif ∧ jif.opcode = Opcode.JumpIfFalse)
      ∧ (f.combination = .Invalid → f = { combination := .Invalid })
      ∧ (f.combination ≠ .Invalid →
          ∃ endCmd jif p ps bodyCmd body rest,
            s.commands[i + n]? = some endCmd ∧ s.commands[i + n + 1]? = some jif
              ∧ jif.parameters = p :: ps ∧ s.commands[i + n + 2]? = some bodyCmd
              ∧ f.combination = comb ∧ f.conditionCount = n
              ∧ f.conditionStartOffset = toSizeT c.offset
              ∧ f.conditionEndOffset = toSizeT endCmd.offset
              ∧ f.jifOffset = jif.offset
              ∧ f.bodyStartOffset = toSizeT bodyCmd.offset
              ∧ s.commands.drop (i + n + 2) = body ++ rest
              ∧ (∀ b ∈ body, b.offset ≠ abs32 p.castInt32)
              ∧ (∀ r, rest.head? = some r → r.offset = abs32 p.castInt32)
              ∧ (∀ last, body.getLast? = some last → f.bodyEndOffset = toSizeT last.offset)) := by
  have hguard : c.opcode = Opcode.If ∧ mapContains s.ifStatements c.offset = false := ⟨hop, hnew⟩
  obtain ⟨b, hb, hbiff⟩ := conditionsNamed_spec s.commands (i + 1) (i + n - (i + 1)) (by omega)
  have hmax : max (i + 1) (i + n) = i + n := by omega
  have hbiff1 : b = true ↔
      ∀ k, i + 1 ≤ k → k < i + n → ∃ ck, s.commands[k]? = some ck ∧ ck.name ≠ "" := by
    rw [hbiff]
    constructor
    · intro h k h1 h2
      exact h k h1 (by omega)
    · intro h k h1 h2
      exact h k h1 (by omega)
  have h1 : i + n < s.commands.length := by omega
  have h2 : i + n + 1 < s.commands.length := by omega
  have e1 := List.getElem?_eq_getElem h1
  have e2 := List.getElem?_eq_getElem h2
  have e3 := List.getElem?_eq_getElem hlen
  simp only [Script.ifStatementFromIndex, hi, hguard, and_self, if_true, Script.ifCandidate, hinfo,
    hb, hmax]
  cases b with
  | false =>
    refine ⟨_, rfl, ?_, fun _ => rfl, fun h => absurd rfl h⟩
    simp only [ne_eq, not_true_eq_false, false_iff, not_and]
    intro hall
    have := hbiff1.2 hall
    cases this
  | true =>
    have hall := hbiff1.1 rfl
    simp only [e1, e2]
    by_cases hjif : s.commands[i + n + 1].opcode = Opcode.JumpIfFalse
    · have hps := hjp _ e2 hjif
      obtain ⟨p, ps, hpp⟩ := List.exists_cons_of_ne_nil hps
      obtain ⟨body, rest, hsplit, hbody, hrest⟩ :=
        body_split (abs32 p.castInt32) (s.commands.drop (i + n + 2))
      simp only [hjif, ne_eq, not_true_eq_false, if_false, hpp, e3]
      refine ⟨_, rfl, ?_, ?_, ?_⟩
      · simp only [ne_eq, hvalid, not_false_eq_true, true_iff]
        exact ⟨hall, _, rfl, hjif⟩
      · intro h
        exact absurd h hvalid
      · intro _
        refine ⟨_, _, p, ps, _, body, rest, rfl, rfl, hpp, rfl, rfl, rfl, rfl, rfl, rfl, rfl, hsplit,
          hbody, hrest, ?_⟩
        intro last hlast
        simp only [hsplit, bodyEnd_append _ _ _ _ hbody hrest, hlast]
    · simp only [ne_eq, hjif, not_false_eq_true, if_true]
      refine ⟨_, rfl, ?_, fun _ => rfl, fun h => absurd rfl h⟩
      simp only [ne_eq, not_true_eq_false, false_iff, not_and, not_exists]
      intro _ jif hj
      simp only [Option.some.injEq] at hj
      subst hj
      exact hjif

/-- C15, amended, at the `If` command of `sampleIfScript`: the conditional has
its condition at offsets 0 to 4, its `JumpIfFalse` at offset 11 and its body
at offsets 18 to 22. -/
theorem ifStatementFromIndex_spec_witness :
    Script.ifStatementFromIndex sampleIfScript 0 0
        = .ok { combination := .None, conditionCount := 1, jifOffset := 11,
                conditionStartOffset := 0, conditionEndOffset := 4,
                bodyStartOffset := 18, bodyEndOffset := 22 }
      ∧ ∃ f, Script.ifStatementFromIndex sampleIfScript 0 0 = .ok f
          ∧ (f.combination ≠ .Invalid ↔
              (∀ k, 0 + 1 ≤ k → k < 0 + 1 →
                  ∃ ck, sampleIfScript.commands[k]? = some ck ∧ ck.name ≠ "")
                ∧ ∃ jif, sampleIfScript.commands[0 + 1 + 1]? = some jif
                    ∧ jif.opcode = Opcode.JumpIfFalse) :=
  ⟨rfl,
    (ifStatementFromIndex_spec sampleIfScript 0 0 1 (ifCommand 0 0 0) .None rfl rfl rfl rfl
      (by decide) (by decide) (by decide)
      (fun jif h _ => by
        have e : jif = jumpCommand 0x4D 11 2 [29, 0, 0, 0] := by
          simpa [sampleIfScript] using h.symm
        rw [e]
        simp [jumpCommand])).imp (fun _ h => ⟨h.1, h.2.1⟩)⟩

/-! ## Conditionals with an empty body (claim C16) -/

/-- C16 fails in the code: `emptyBodyScript`, decompiled from `emptyBodyBytes`,
holds a candidate conditional whose `JumpIfFalse` targets the command just
after it, and `createIfStatements` records it under the key 0, with a
`bodyEndOffset` that was never assigned. -/
theorem createIfStatements_empty_body :
    Decompiler.decompile emptyBodyBytes ifTable = .ok emptyBodyScript
      ∧ ∀ unset, Script.createIfStatements emptyBodyScript [] unset
          = .ok ({ emptyBodyScript with
                   ifStatements :=
                     [(0, { combination := .None, conditionCount := 1, jifOffset := 11,
                            conditionStartOffset := 0, conditionEndOffset := 4,
                            bodyStartOffset := 18, bodyEndOffset := unset 0 })] }, [0]) :=
  ⟨by rfl, fun unset => by
    have h1 : Script.findIfCommands emptyBodyScript.commands 0 = [0] := rfl
    have h2 : Script.ifStatementFromIndex emptyBodyScript (unset 0) 0
        = .ok { combination := .None, conditionCount := 1, jifOffset := 11,
                conditionStartOffset := 0, conditionEndOffset := 4,
                bodyStartOffset := 18, bodyEndOffset := unset 0 } := rfl
    have h3 : (emptyBodyScript.setIf
        { combination := .None, conditionCount := 1, jifOffset := 11,
          conditionStartOffset := 0, conditionEndOffset := 4,
          bodyStartOffset := 18, bodyEndOffset := unset 0 }).ifStatements
        = [(0, { combination := .None, conditionCount := 1, jifOffset := 11,
                 conditionStartOffset := 0, conditionEndOffset := 4,
                 bodyStartOffset := 18, bodyEndOffset := unset 0 })] := by
      show mapSet [] (sizeToInt32 0) _ = _
      rfl
    simp only [Script.createIfStatements, if_true, h1, Script.recordIfs, h2]
    rw [if_neg (by decide)]
    simp only [Except.ok.injEq, Prod.mk.injEq, and_true]
    rw [← h3]
    rfl⟩

/-! ## Lemmas on `createIfStatements` -/

theorem sizeToInt32_toSizeT (x : Int) (h0 : -2147483648 ≤ x) (h1 : x < 2147483648) :
    sizeToInt32 (toSizeT x) = x := by
  unfold sizeToInt32 toSizeT toInt32
  have hnn : 0 ≤ x % 18446744073709551616 := Int.emod_nonneg _ (by decide)
  have e : Int.ofNat (x % 18446744073709551616).toNat = x % 18446744073709551616 := by
    simpa using Int.toNat_of_nonneg hnn
  rw [e]
  omega

/-- An unassigned `bodyEndOffset` has no part in whether a candidate is
valid, and a valid candidate starts at the offset of its `If` command. -/
theorem ifCandidate_unset (commands : List Command) (u1 u2 i : Nat) (c : Command) (f1 : FullIf)
    (h : Script.ifCandidate commands u1 i c = .ok f1) :
    ∃ f2, Script.ifCandidate commands u2 i c = .ok f2 ∧ f2.combination = f1.combination
      ∧ (f1.combination ≠ .Invalid → f1.conditionStartOffset = toSizeT c.offset) := by
  unfold Script.ifCandidate at h ⊢
  cases hinfo : FullIf.ifInfo c with
  | error e => simp [hinfo] at h
  | ok r =>
    obtain ⟨count, comb⟩ := r
    simp only [hinfo] at h ⊢
    cases hcn : Script.conditionsNamed commands (i + 1) (i + count - (i + 1)) with
    | error e => simp [hcn] at h
    | ok b =>
      simp only [hcn] at h ⊢
      cases b with
      | false =>
        simp only [Except.ok.injEq] at h
        subst h
        exact ⟨_, rfl, rfl, fun hne => absurd rfl hne⟩
      | true =>
        simp only at h ⊢
        cases he : commands[max (i + 1) (i + count)]? with
        | none => simp [he] at h
        | some endCmd =>
          simp only [he] at h ⊢
          cases hj : commands[max (i + 1) (i + count) + 1]? with
          | none => simp [hj] at h
          | some jif =>
            simp only [hj] at h ⊢
            by_cases hop : jif.opcode = Opcode.JumpIfFalse
            · simp only [hop, ne_eq, not_true_eq_false, if_false] at h ⊢
              cases hp : jif.parameters with
              | nil => simp [hp] at h
              | cons p ps =>
                simp only [hp] at h ⊢
                cases hb : commands[max (i + 1) (i + count) + 2]? with
                | none => simp [hb] at h
                | some bodyCmd =>
                  simp only [hb, Except.ok.injEq] at h ⊢
                  subst h
                  exact ⟨_, rfl, rfl, fun _ => rfl⟩
            · simp only [ne_eq, hop, not_false_eq_true, if_true, Except.ok.injEq] at h ⊢
              subst h
              exact ⟨_, rfl, rfl, fun hne => absurd rfl hne⟩

theorem mapContains_mapSet {κ : Type} {β : Type} [DecidableEq κ] [LT κ]
    [DecidableRel (α := κ) (· < ·)] (m : List (κ × β)) (k : κ) (v : β) (k1 : κ) :
    mapContains (mapSet m k v) k1 = (decide (k = k1) || mapContains m k1) := by
  unfold mapContains
  rw [mapFind_mapSet]
  by_cases h : k = k1 <;> simp [h]

theorem setIf_commands (s : Script) (st : FullIf) : (s.setIf st).commands = s.commands := rfl

theorem recordIfs_frame (unset : Nat → Nat) (l : List Nat) (s s1 : Script)
    (h : Script.recordIfs unset l s = .ok s1) :
    s1.commands = s.commands
      ∧ ∀ k, mapContains s.ifStatements k = true → mapContains s1.ifStatements k = true := by
  induction l generalizing s with
  | nil =>
    simp only [Script.recordIfs, Except.ok.injEq] at h
    subst h
    exact ⟨rfl, fun _ hk => hk⟩
  | cons i rest ih =>
    simp only [Script.recordIfs] at h
    cases hst : s.ifStatementFromIndex (unset i) i with
    | error e => simp [hst] at h
    | ok st =>
      simp only [hst] at h
      by_cases hinv : st.combination = .Invalid
      · simp only [hinv, if_true] at h
        exact ih s h
      · simp only [hinv, if_false] at h
        obtain ⟨hc, hk⟩ := ih _ h
        refine ⟨by rw [hc]; rfl, fun k hkk => hk k ?_⟩
        show mapContains (mapSet s.ifStatements _ st) k = true
        rw [mapContains_mapSet, hkk, Bool.or_true]

theorem settled_mono (s s1 : Script) (i : Nat) (hc : s1.commands = s.commands)
    (hk : ∀ k, mapContains s.ifStatements k = true → mapContains s1.ifStatements k = true)
    (h : Settled s i) : Settled s1 i := by
  intro u
  obtain ⟨st, hst, hinv⟩ := h u
  unfold Script.ifStatementFromIndex at hst ⊢
  rw [hc]
  cases hi : s.commands[i]? with
  | none => simp [hi] at hst
  | some c =>
    simp only [hi] at hst ⊢
    by_cases hg1 : c.opcode = Opcode.If ∧ mapContains s1.ifStatements c.offset = false
    · have hg : c.opcode = Opcode.If ∧ mapContains s.ifStatements c.offset = false := by
        refine ⟨hg1.1, ?_⟩
        cases hm : mapContains s.ifStatements c.offset with
        | false => rfl
        | true =>
          have := hk _ hm
          rw [hg1.2] at this
          cases this
      rw [if_pos hg] at hst
      rw [if_pos hg1]
      exact ⟨st, hst, hinv⟩
    · rw [if_neg hg1]
      exact ⟨_, rfl, rfl⟩

theorem settled_of_invalid (s : Script) (u i : Nat) (st : FullIf)
    (h : s.ifStatementFromIndex u i = .ok st) (hinv : st.combination = .Invalid) :
    Settled s i := by
  intro u2
  unfold Script.ifStatementFromIndex at h ⊢
  cases hi : s.commands[i]? with
  | none => simp [hi] at h
  | some c =>
    simp only [hi] at h ⊢
    by_cases hg : c.opcode = Opcode.If ∧ mapContains s.ifStatements c.offset = false
    · rw [if_pos hg] at h ⊢
      obtain ⟨f2, hf2, hcomb, _⟩ := ifCandidate_unset s.commands u u2 i c st h
      exact ⟨f2, hf2, by rw [hcomb, hinv]⟩
    · rw [if_neg hg]
      exact ⟨_, rfl, rfl⟩

theorem settled_of_recorded (s : Script) (hoff : OffsetsInt32 s) (u i : Nat) (st : FullIf)
    (h : s.ifStatementFromIndex u i = .ok st) (hinv : st.combination ≠ .Invalid) :
    Settled (s.setIf st) i := by
  intro u2
  unfold Script.ifStatementFromIndex at h ⊢
  rw [setIf_commands]
  cases hi : s.commands[i]? with
  | none => simp [hi] at h
  | some c =>
    simp only [hi] at h ⊢
    by_cases hg : c.opcode = Opcode.If ∧ mapContains s.ifStatements c.offset = false
    · rw [if_pos hg] at h
      obtain ⟨_, _, _, hstart⟩ := ifCandidate_unset s.commands u u2 i c st h
      have hmem : c ∈ s.commands := List.getElem?_mem hi
      obtain ⟨h0, h1⟩ := hoff c hmem
      have hkey : sizeToInt32 st.conditionStartOffset = c.offset := by
        rw [hstart hinv, sizeToInt32_toSizeT _ h0 h1]
      have hcont : mapContains (s.setIf st).ifStatements c.offset = true := by
        show mapContains (mapSet s.ifStatements _ st) c.offset = true
        rw [mapContains_mapSet, hkey]
        simp
      rw [if_neg (by rw [hcont]; simp)]
      exact ⟨_, rfl, rfl⟩
    · rw [if_neg hg] at h
      simp only [Except.ok.injEq] at h
      subst h
      exact absurd rfl hinv

theorem recordIfs_settles (unset : Nat → Nat) (l : List Nat) (s s1 : Script)
    (hoff : OffsetsInt32 s) (h : Script.recordIfs unset l s = .ok s1) :
    ∀ i ∈ l, Settled s1 i := by
  induction l generalizing s with
  | nil => intro i hi; cases hi
  | cons j rest ih =>
    simp only [Script.recordIfs] at h
    cases hst : s.ifStatementFromIndex (unset j) j with
    | error e => simp [hst] at h
    | ok st =>
      simp only [hst] at h
      by_cases hinv : st.combination = .Invalid
      · simp only [hinv, if_true] at h
        intro i hi
        rcases List.mem_cons.1 hi with hij | hir
        · subst hij
          obtain ⟨hc, hk⟩ := recordIfs_frame unset rest s s1 h
          exact settled_mono s s1 i hc hk (settled_of_invalid s _ i st hst hinv)
        · exact ih s hoff h i hir
      · simp only [hinv, if_false] at h
        intro i hi
        rcases List.mem_cons.1 hi with hij | hir
        · subst hij
          obtain ⟨hc, hk⟩ := recordIfs_frame unset rest _ s1 h
          exact settled_mono _ s1 i hc hk (settled_of_recorded s hoff _ i st hst hinv)
        · exact ih (s.setIf st) hoff h i hir

theorem recordIfs_of_settled (unset : Nat → Nat) (l : List Nat) (s : Script)
    (h : ∀ i ∈ l, Settled s i) : Script.recordIfs unset l s = .ok s := by
  induction l with
  | nil => rfl
  | cons j rest ih =>
    obtain ⟨st, hst, hinv⟩ := h j (List.mem_cons_self _ _) (unset j)
    simp only [Script.recordIfs, hst, hinv, if_true]
    exact ih (fun i hi => h i (List.mem_cons_of_mem _ hi))

/-- A second run of `createIfStatements` returns and changes neither the
script nor the cache. -/
theorem createIfStatements_again (s : Script) (cache : List Nat) (u1 u2 : Nat → Nat)
    (s1 : Script) (cache1 : List Nat) (hoff : OffsetsInt32 s)
    (h : s.createIfStatements cache u1 = .ok (s1, cache1)) :
    s1.createIfStatements cache1 u2 = .ok (s1, cache1) := by
  unfold Script.createIfStatements at h ⊢
  cases hr : Script.recordIfs u1
      (if cache = [] then Script.findIfCommands s.commands 0 else cache) s with
  | error e => simp [hr] at h
  | ok s2 =>
    simp only [hr, Except.ok.injEq, Prod.mk.injEq] at h
    obtain ⟨hs, hcache⟩ := h
    subst hs
    obtain ⟨hc, _⟩ := recordIfs_frame _ _ _ _ hr
    have hsettled := recordIfs_settles _ _ _ _ hoff hr
    rw [hcache] at hsettled
    have hcache2 : (if cache1 = [] then Script.findIfCommands s2.commands 0 else cache1)
        = cache1 := by
      by_cases hnil : cache1 = []
      · rw [if_pos hnil, hc]
        by_cases hcn : cache = []
        · rw [if_pos hcn] at hcache
          rw [hcache]
        · rw [if_neg hcn] at hcache
          exact absurd (hcache.trans hnil) hcn
      · rw [if_neg hnil]
    simp only [hcache2, recordIfs_of_settled u2 cache1 s2 hsettled]

/-! ## The discovery loop of `prettyPrint` (claim C17) -/

/-- C17: for a script whose offsets are `int32_t` values, the loop of
`prettyPrint` that discovers conditionals terminates, with a budget of two
passes or more: if the first pass of `createIfStatements` returns, a second
run of it on the result changes neither `ifStatements` nor anything else of the
script, the loop returns after at most two passes, and it stops after the first
pass exactly when that pass added no conditional. (If the first pass indexes
out of range, so does the loop.) -/
theorem discoverIfs_terminates (s : Script) (cache : List Nat) (unset : Nat → Nat → Nat)
    (fuel : Nat) (hoff : OffsetsInt32 s) :
    (∀ e, s.createIfStatements cache (unset 0) = .error e →
        Script.discoverIfs unset (fuel + 2) s cache s.ifStatements.length 0 = .error e)
      ∧ ∀ s1 cache1, s.createIfStatements cache (unset 0) = .ok (s1, cache1) →
          (∀ u, s1.createIfStatements cache1 u = .ok (s1, cache1))
            ∧ ∃ passes, passes ≤ 2
                ∧ Script.discoverIfs unset (fuel + 2) s cache s.ifStatements.length 0
                    = .ok (s1, cache1, passes)
                ∧ (passes = 1 ↔ s1.ifStatements.length = s.ifStatements.length) := by
  refine ⟨?_, ?_⟩
  · intro e he
    simp only [Script.discoverIfs, he]
  · intro s1 cache1 h
    have hagain := fun u => createIfStatements_again s cache (unset 0) u s1 cache1 hoff h
    refine ⟨hagain, ?_⟩
    by_cases hlen : s1.ifStatements.length = s.ifStatements.length
    · refine ⟨1, by omega, ?_, by simp [hlen]⟩
      simp only [Script.discoverIfs, h, hlen, if_true, Nat.zero_add]
    · refine ⟨2, le_refl _, ?_, by simp [hlen]⟩
      simp only [Script.discoverIfs, h, hlen, if_false, hagain (unset (0 + 1)), if_true]

/-- C17 on `sampleIfScript`: the first pass records the conditional at offset
0, the second pass changes nothing, and the loop returns after two passes. -/
theorem discoverIfs_terminates_witness :
    ∃ s1 cache1 passes,
      Script.createIfStatements sampleIfScript [] (fun _ => 0) = .ok (s1, cache1)
        ∧ (∀ u, s1.createIfStatements cache1 u = .ok (s1, cache1))
        ∧ passes ≤ 2
        ∧ Script.discoverIfs (fun _ _ => 0) 2 sampleIfScript []
            sampleIfScript.ifStatements.length 0 = .ok (s1, cache1, passes)
        ∧ (passes = 1 ↔ s1.ifStatements.length = sampleIfScript.ifStatements.length) :=
  have h : Script.createIfStatements sampleIfScript [] (fun _ => 0)
      = .ok (sampleIfScript.setIf
          { combination := .None, conditionCount := 1, jifOffset := 11,
            conditionStartOffset := 0, conditionEndOffset := 4,
            bodyStartOffset := 18, bodyEndOffset := 22 }, [0]) := by rfl
  have hw := (discoverIfs_terminates sampleIfScript [] (fun _ _ => 0) 0
    (by unfold OffsetsInt32; decide)).2 _ _ h
  hw.2.elim (fun passes hp => ⟨_, _, passes, h, hw.1, hp.1, hp.2.1, hp.2.2⟩)

/-! ## Lemmas on `createWhileLoops` -/

theorem indexOf_commands (s : Script) (k : Int) : (s.indexOf k).1.commands = s.commands := rfl

theorem indexOf_ifStatements (s : Script) (k : Int) :
    (s.indexOf k).1.ifStatements = s.ifStatements := rfl

theorem indexOf_snd (s : Script) (k : Int) : (s.indexOf k).2 = s.look k := rfl

theorem indexOf_inRange (s : Script) (k : Int) (h : IndexInRange s)
    (hne : 0 < s.commands.length) : IndexInRange (s.indexOf k).1 := by
  intro k1 i hf
  rw [indexOf_commands]
  unfold Script.indexOf at hf
  simp only [mapFind_mapModify] at hf
  by_cases hk : k = k1
  · subst hk
    simp only [if_true, id_eq, Option.some.injEq] at hf
    cases hm : mapFind s.offsetsToIndices k with
    | none =>
      rw [hm] at hf
      simp only [Option.getD_none] at hf
      omega
    | some j =>
      rw [hm] at hf
      simp only [Option.getD_some] at hf
      subst hf
      exact h k j hm
  · simp only [hk, if_false] at hf
    exact h k1 i hf

theorem look_lt (s : Script) (k : Int) (h : IndexInRange s) (hne : 0 < s.commands.length) :
    s.look k < s.commands.length := by
  unfold Script.look
  cases hm : mapFind s.offsetsToIndices k with
  | none => simpa using hne
  | some j => simpa using h k j hm

theorem markWhile_commands (s : Script) (k : Int) : (s.markWhile k).commands = s.commands := rfl

theorem indexInRange_of_invertible (s : Script) (h : IndexInvertible s) : IndexInRange s := by
  intro k i hf
  obtain ⟨c, hc, _⟩ := h.1 k i hf
  by_contra hge
  rw [List.getElem?_eq_none (by omega)] at hc
  cases hc

theorem findFrom_bounds (l search : List Char) (i p : Nat) (h : findFrom l search i = some p) :
    i ≤ p ∧ p - i + search.length ≤ l.length := by
  induction l generalizing i with
  | nil =>
    simp only [findFrom] at h
    split_ifs at h with hs
    simp only [Option.some.injEq] at h
    subst h
    simp [hs]
  | cons c cs ih =>
    simp only [findFrom] at h
    split_ifs at h with hpre
    · simp only [Option.some.injEq] at h
      subst h
      have := (List.isPrefixOf_iff_prefix.1 hpre).length_le
      simp only [Nat.sub_self, Nat.zero_add, le_refl, true_and]
      exact this
    · obtain ⟨h1, h2⟩ := ih (i + 1) h
      simp only [List.length_cons]
      omega

theorem findSub_bounds (s search : List Char) (pos p : Nat) (h : findSub s search pos = some p) :
    pos ≤ p ∧ p + search.length ≤ s.length := by
  unfold findSub at h
  split_ifs at h with hlt
  obtain ⟨h1, h2⟩ := findFrom_bounds _ _ _ _ h
  rw [List.length_drop] at h2
  omega

theorem replaceAllLoop_isOk (search replace : List Char) (hs : search ≠ []) (fuel : Nat) :
    ∀ (s : List Char) (pos : Nat), s.length - pos < fuel →
      ∃ r, replaceAllLoop search replace fuel s pos = .ok r := by
  have hlen : 1 ≤ search.length := List.length_pos.2 hs
  induction fuel with
  | zero => intro s pos h; omega
  | succ fuel ih =>
    intro s pos h
    simp only [replaceAllLoop]
    cases hf : findSub s search pos with
    | none => exact ⟨s, rfl⟩
    | some p =>
      obtain ⟨h1, h2⟩ := findSub_bounds _ _ _ _ hf
      refine ih _ _ ?_
      simp only [List.length_append, List.length_take, List.length_drop]
      omega

/-- The loop of `replaceAll` returns for every search string that is not
empty: the budget is never used up. -/
theorem replaceAll_isOk (s search replace : List Char) (hs : search ≠ []) :
    ∃ r, replaceAll s search replace = .ok r :=
  replaceAllLoop_isOk search replace hs _ s 0 (by omega)

theorem findFrom_after_prefix (pre rest : List Char) (c0 : Char) (tl : List Char) (i : Nat)
    (hpre : c0 ∉ pre) :
    findFrom (pre ++ (c0 :: tl) ++ rest) (c0 :: tl) i = some (i + pre.length) := by
  induction pre generalizing i with
  | nil =>
    have : (c0 :: tl).isPrefixOf ([] ++ (c0 :: tl) ++ rest) = true := by
      rw [List.isPrefixOf_iff_prefix]
      exact ⟨rest, by simp⟩
    simp only [List.nil_append, List.cons_append] at this ⊢
    simp [findFrom, this]
  | cons c pre ih =>
    have hc : c0 ≠ c := fun h => hpre (by rw [h]; exact List.mem_cons_self _ _)
    have hne : (c0 :: tl).isPrefixOf (c :: (pre ++ (c0 :: tl) ++ rest)) = false := by
      simp [List.isPrefixOf, hc]
    have := ih (i + 1) (fun h => hpre (List.mem_cons_of_mem _ h))
    show findFrom (c :: (pre ++ (c0 :: tl) ++ rest)) (c0 :: tl) i = _
    rw [findFrom, hne]
    simp only [Bool.false_eq_true, if_false, this, List.length_cons]
    congr 1
    omega

/-- One token at the end of a prefix without `$`: `replaceTokens` puts the
replacement after the prefix. -/
theorem replaceTokens_suffix (pre : List Char) (r : String) (hpre : '$' ∉ pre) :
    replaceTokens (String.mk (pre ++ ['$', '0'])) [r] = .ok (String.mk (pre ++ r.data)) := by
  have h0 : (toString 0).data = ['0'] := by decide
  have hfind : findSub (pre ++ ['$', '0']) ['$', '0'] 0 = some pre.length := by
    unfold findSub
    simp only [Nat.not_lt_zero, if_false, List.drop_zero]
    have := findFrom_after_prefix pre [] '$' ['0'] 0 hpre
    simpa using this
  have hnone : findSub (pre ++ r.data) ['$', '0'] (pre.length + r.data.length) = none := by
    unfold findSub
    have : (pre ++ r.data).drop (pre.length + r.data.length) = [] := by
      apply List.drop_eq_nil_of_le
      simp
    rw [if_neg (by simp), this]
    rfl
  have hs1 : (pre ++ ['$', '0']).take pre.length ++ r.data
      ++ (pre ++ ['$', '0']).drop (pre.length + ['$', '0'].length) = pre ++ r.data := by
    simp
  have hall : replaceAll (pre ++ ['$', '0']) ['$', '0'] r.data = .ok (pre ++ r.data) := by
    unfold replaceAll
    have hfuel : (pre ++ ['$', '0']).length + 1 = pre.length + 1 + 1 + 1 := by simp
    rw [hfuel, replaceAllLoop, hfind]
    simp only []
    rw [hs1, replaceAllLoop, hnone]
  simp only [replaceTokens, replaceTokensLoop, h0, hall]

theorem replaceTokens_proc (r : String) : replaceTokens "proc_$0" [r] = .ok ("proc_" ++ r) := by
  have := replaceTokens_suffix "proc_".data r (by decide)
  have e1 : String.mk ("proc_".data ++ ['$', '0']) = "proc_$0" := by decide
  have e2 : String.mk ("proc_".data ++ r.data) = "proc_" ++ r := rfl
  rw [e1, e2] at this
  exact this

theorem replaceTokens_label (r : String) : replaceTokens "label_$0" [r] = .ok ("label_" ++ r) := by
  have := replaceTokens_suffix "label_".data r (by decide)
  have e1 : String.mk ("label_".data ++ ['$', '0']) = "label_$0" := by decide
  have e2 : String.mk ("label_".data ++ r.data) = "label_" ++ r := rfl
  rw [e1, e2] at this
  exact this

/-! ## Lemmas on `createLabels` -/

theorem setLabel_ifStatements (s : Script) (l : Label) :
    (s.setLabel l).ifStatements = s.ifStatements := rfl

theorem labelJump_congr (s s1 : Script) (hidden : List Int) (cmd : Command) (D : Int)
    (h : s1.ifStatements = s.ifStatements) : LabelJump s1 hidden cmd D ↔ LabelJump s hidden cmd D := by
  unfold LabelJump
  rw [h]

theorem labelLoop_spec (hidden : List Int) (cmds : List Command) (s s1 : Script)
    (h : Script.labelLoop hidden cmds s = .ok s1) :
    s1.ifStatements = s.ifStatements
      ∧ (∀ D, mapContains s1.labelLocations D = true ↔
          mapContains s.labelLocations D = true ∨ ∃ cmd ∈ cmds, LabelJump s hidden cmd D)
      ∧ (∀ D l, mapFind s1.labelLocations D = some l →
          mapFind s.labelLocations D = some l
            ∨ (l.offset = D ∧ l.name = "label_" ++ toString D)) := by
  induction cmds generalizing s with
  | nil =>
    simp only [Script.labelLoop, Except.ok.injEq] at h
    subst h
    exact ⟨rfl, by simp, fun D l hl => Or.inl hl⟩
  | cons cmd rest ih =>
    simp only [Script.labelLoop] at h
    have hskip : (∀ D, ¬ LabelJump s hidden cmd D) → Script.labelLoop hidden rest s = .ok s1 →
        s1.ifStatements = s.ifStatements
          ∧ (∀ D, mapContains s1.labelLocations D = true ↔
              mapContains s.labelLocations D = true
                ∨ ∃ c ∈ cmd :: rest, LabelJump s hidden c D)
          ∧ (∀ D l, mapFind s1.labelLocations D = some l →
              mapFind s.labelLocations D = some l
                ∨ (l.offset = D ∧ l.name = "label_" ++ toString D)) := by
      intro hno h1
      obtain ⟨hi, hl, hn⟩ := ih s h1
      refine ⟨hi, fun D => ?_, hn⟩
      rw [hl D]
      constructor
      · rintro (hx | ⟨c, hc, hx⟩)
        · exact Or.inl hx
        · exact Or.inr ⟨c, List.mem_cons_of_mem _ hc, hx⟩
      · rintro (hx | ⟨c, hc, hx⟩)
        · exact Or.inl hx
        · rcases List.mem_cons.1 hc with he | hr
          · subst he
            exact absurd hx (hno D)
          · exact Or.inr ⟨c, hr, hx⟩
    by_cases hhid : hidden.contains cmd.offset = true
    · simp only [hhid, if_true] at h
      refine hskip ?_ h
      rintro D ⟨hnot, _⟩
      exact hnot (by simpa using hhid)
    · simp only [hhid, Bool.false_eq_true, if_false] at h
      by_cases hcond : Goto.isJumpOpcode cmd.opcode = true ∧ cmd.opcode ≠ Opcode.Call
          ∧ mapContains s.ifStatements cmd.offset = false
      · rw [if_pos hcond] at h
        cases hg : Goto.ofCommand cmd with
        | error e => simp [hg] at h
        | ok jump =>
          simp only [hg, replaceTokens_label] at h
          obtain ⟨hi, hl, hn⟩ := ih _ h
          have hlj : LabelJump s hidden cmd jump.dest :=
            ⟨by simpa using hhid, hcond.1, hcond.2.1, hcond.2.2, jump, hg, rfl⟩
          have honly : ∀ D, LabelJump s hidden cmd D → D = jump.dest := by
            rintro D ⟨_, _, _, _, g, hg1, hd⟩
            rw [hg] at hg1
            cases hg1
            exact hd.symm
          refine ⟨hi, fun D => ?_, fun D l hl1 => ?_⟩
          · rw [hl D]
            have hset : mapContains (s.setLabel
                { offset := jump.dest, name := "label_" ++ toString jump.dest }).labelLocations D
                = (decide (jump.dest = D) || mapContains s.labelLocations D) :=
              mapContains_mapSet _ _ _ _
            rw [hset]
            constructor
            · rintro (hx | ⟨c, hc, hx⟩)
              · simp only [Bool.or_eq_true, decide_eq_true_eq] at hx
                rcases hx with hx | hx
                · exact Or.inr ⟨cmd, List.mem_cons_self _ _, by rw [← hx]; exact hlj⟩
                · exact Or.inl hx
              · exact Or.inr ⟨c, List.mem_cons_of_mem _ hc,
                  (labelJump_congr s _ hidden c D rfl).1 hx⟩
            · rintro (hx | ⟨c, hc, hx⟩)
              · exact Or.inl (by simp [hx])
              · rcases List.mem_cons.1 hc with he | hr
                · subst he
                  exact Or.inl (by simp [honly D hx])
                · exact Or.inr ⟨c, hr, (labelJump_congr s _ hidden c D rfl).2 hx⟩
          · rcases hn D l hl1 with hx | hx
            · have hfind : mapFind (s.setLabel
                  { offset := jump.dest, name := "label_" ++ toString jump.dest }).labelLocations D
                  = if jump.dest = D then
                      some { offset := jump.dest, name := "label_" ++ toString jump.dest }
                    else mapFind s.labelLocations D := mapFind_mapSet _ _ _ _
              rw [hfind] at hx
              by_cases hd : jump.dest = D
              · subst hd
                simp only [if_true, Option.some.injEq] at hx
                subst hx
                exact Or.inr ⟨rfl, rfl⟩
              · simp only [hd, if_false] at hx
                exact Or.inl hx
            · exact Or.inr hx
      · rw [if_neg hcond] at h
        refine hskip ?_ h
        rintro D ⟨_, h1, h2, h3, _⟩
        exact hcond ⟨h1, h2, h3⟩

theorem labelLoop_isOk (hidden : List Int) (cmds : List Command) (s : Script)
    (hp : ∀ c ∈ cmds, Goto.isJumpOpcode c.opcode = true → c.parameters ≠ []) :
    ∃ s1, Script.labelLoop hidden cmds s = .ok s1 := by
  induction cmds generalizing s with
  | nil => exact ⟨s, rfl⟩
  | cons cmd rest ih =>
    have hp1 : ∀ c ∈ rest, Goto.isJumpOpcode c.opcode = true → c.parameters ≠ [] :=
      fun c hc => hp c (List.mem_cons_of_mem _ hc)
    simp only [Script.labelLoop]
    by_cases hhid : hidden.contains cmd.offset = true
    · simp only [hhid, if_true]
      exact ih s hp1
    · simp only [hhid, Bool.false_eq_true, if_false]
      by_cases hcond : Goto.isJumpOpcode cmd.opcode = true ∧ cmd.opcode ≠ Opcode.Call
          ∧ mapContains s.ifStatements cmd.offset = false
      · rw [if_pos hcond]
        obtain ⟨jump, hg⟩ := Goto.ofCommand_isOk cmd hcond.1
          (hp cmd (List.mem_cons_self _ _) hcond.1)
        simp only [hg, replaceTokens_label]
        exact ih _ hp1
      · rw [if_neg hcond]
        exact ih s hp1

/-! ## Labels (claim C21) -/

/-- C21 fails in the code: in the script decompiled from `labelAnchorBytes`,
`createIfStatements` resolves the conditional anchored at offset 7, the
destination of the `Jump` at offset 0; `createWhileLoops` changes nothing; and
`createLabels` stores the label `label_7` at the anchor 7, as it stores
`label_36` at the destination of the `JumpIfFalse`. -/
theorem createLabels_labels_anchor :
    ∃ s s1 s2, Decompiler.decompile labelAnchorBytes loopTable = .ok s
      ∧ s.commands.map (fun c => (c.offset, c.opcode))
          = [(0, 0x2), (7, 0xD6), (11, 0x38), (18, 0x4D), (25, 0x1), (29, 0x4), (36, 0x1)]
      ∧ s.createIfStatements [] (fun _ => 0) = .ok (s1, [1])
      ∧ s1.ifStatements.map Prod.fst = [7]
      ∧ s1.createWhileLoops [] = .ok (s1, [])
      ∧ s1.createLabels [] = .ok s2
      ∧ s2.labelLocations
          = [(7, { offset := 7, name := "label_7" }), (36, { offset := 36, name := "label_36" })] :=
  ⟨_, _, _, rfl, rfl, rfl, rfl, rfl, rfl, rfl⟩

/-- What `createLabels` stores, its test `ifStatements.count(cmd.offset)`
being on the offset of the jump: after `createLabels` on an empty
`labelLocations` has returned, a label exists at offset `D` if and only if some
jump-class command that is not a `Call`, whose offset is not hidden and is not
itself a key of `ifStatements`, has the destination `D`; the label stored at `D`
has the offset `D` and the name `label_` followed by the decimal of `D`. And
`createLabels` does return for every script whose jump-class commands have an
operand. -/
theorem createLabels_spec (s : Script) (hidden : List Int) (hempty : s.labelLocations = []) :
    (∀ s1, s.createLabels hidden = .ok s1 →
        (∀ D, mapContains s1.labelLocations D = true ↔
            ∃ cmd ∈ s.commands, cmd.offset ∉ hidden ∧ Goto.isJumpOpcode cmd.opcode = true
              ∧ cmd.opcode ≠ Opcode.Call ∧ mapContains s.ifStatements cmd.offset = false
              ∧ ∃ g, Goto.ofCommand cmd = .ok g ∧ g.dest = D)
          ∧ ∀ D l, mapFind s1.labelLocations D = some l →
              l.offset = D ∧ l.name = "label_" ++ toString D)
      ∧ ((∀ c ∈ s.commands, Goto.isJumpOpcode c.opcode = true → c.parameters ≠ []) →
          ∃ s1, s.createLabels hidden = .ok s1) := by
  refine ⟨fun s1 hrun => ?_, fun hp => labelLoop_isOk hidden s.commands s hp⟩
  obtain ⟨_, hl, hn⟩ := labelLoop_spec hidden s.commands s s1 hrun
  refine ⟨fun D => ?_, fun D l hf => ?_⟩
  · rw [hl D, hempty]
    constructor
    · rintro (hx | hx)
      · simp [mapContains, mapFind] at hx
      · exact hx
    · intro hx
      exact Or.inr hx
  · rcases hn D l hf with hx | hx
    · rw [hempty] at hx
      simp [mapFind] at hx
    · exact hx

/-- On `labelAnchorScript` with the offset 0 hidden, only the `JumpIfFalse` at
offset 18 is left to make a label, at its destination 36. -/
theorem createLabels_spec_witness :
    (∀ s1, labelAnchorScript.createLabels [0] = .ok s1 →
        (∀ D, mapContains s1.labelLocations D = true ↔
            ∃ cmd ∈ labelAnchorScript.commands, cmd.offset ∉ [0]
              ∧ Goto.isJumpOpcode cmd.opcode = true
              ∧ cmd.opcode ≠ Opcode.Call
              ∧ mapContains labelAnchorScript.ifStatements cmd.offset = false
              ∧ ∃ g, Goto.ofCommand cmd = .ok g ∧ g.dest = D)
          ∧ ∀ D l, mapFind s1.labelLocations D = some l →
              l.offset = D ∧ l.name = "label_" ++ toString D)
      ∧ ∃ s1, labelAnchorScript.createLabels [0] = .ok s1 :=
  ⟨(createLabels_spec labelAnchorScript [0] rfl).1,
    (createLabels_spec labelAnchorScript [0] rfl).2 (by decide)⟩

/-! ## Lemmas on `createProcedures` -/

theorem mapFind_eq_none_iff {κ : Type} {β : Type} [DecidableEq κ] (m : List (κ × β)) (k : κ) :
    mapFind m k = none ↔ k ∉ m.map Prod.fst := by
  induction m with
  | nil => simp [mapFind]
  | cons a m ih =>
    obtain ⟨k2, v2⟩ := a
    simp only [mapFind, List.map_cons, List.mem_cons, not_or]
    by_cases hk : k2 = k
    · simp [hk]
    · simp only [hk, if_false, ih]
      constructor
      · intro h; exact ⟨fun e => hk e.symm, h⟩
      · intro h; exact h.2

theorem mapAdjust_keys {κ : Type} {β : Type} [DecidableEq κ] (m : List (κ × β)) (k : κ)
    (f : β → β) : (mapAdjust m k f).map Prod.fst = m.map Prod.fst := by
  induction m with
  | nil => rfl
  | cons a m ih =>
    obtain ⟨k2, v2⟩ := a
    simp only [mapAdjust]
    by_cases hk : k2 = k
    · simp [hk]
    · simp [hk, ih]

theorem mapInsertNew_keys_perm {κ : Type} {β : Type} [LT κ] [DecidableRel (α := κ) (· < ·)]
    (m : List (κ × β)) (k : κ) (v : β) :
    ((mapInsertNew m k v).map Prod.fst).Perm (k :: m.map Prod.fst) := by
  induction m with
  | nil => simp [mapInsertNew]
  | cons a m ih =>
    obtain ⟨k2, v2⟩ := a
    simp only [mapInsertNew]
    by_cases hlt : k < k2
    · simp [hlt]
    · simp only [hlt, if_false, List.map_cons]
      exact (List.Perm.cons k2 ih).trans (List.Perm.swap k k2 _)

theorem mapSet_keys_nodup {κ : Type} {β : Type} [DecidableEq κ] [LT κ]
    [DecidableRel (α := κ) (· < ·)] (m : List (κ × β)) (k : κ) (v : β)
    (h : (m.map Prod.fst).Nodup) : ((mapSet m k v).map Prod.fst).Nodup := by
  unfold mapSet mapModify mapContains
  cases hf : mapFind m k with
  | none =>
    simp only [Option.isSome_none, Bool.false_eq_true, if_false]
    rw [(mapInsertNew_keys_perm m k v).nodup_iff]
    exact List.nodup_cons.2 ⟨(mapFind_eq_none_iff m k).1 hf, h⟩
  | some v0 =>
    simp only [Option.isSome_some, if_true]
    rw [mapAdjust_keys]
    exact h

theorem procedureEnd_frame (startLevel : Nat) (l : List Command) (s s2 : Script) (e e2 : Nat)
    (h : Script.procedureEnd startLevel l s e = .ok (s2, e2)) :
    s2.allProcedures = s.allProcedures ∧ s2.commands = s.commands := by
  induction l generalizing s e with
  | nil =>
    simp only [Script.procedureEnd, Except.ok.injEq, Prod.mk.injEq] at h
    obtain ⟨hs, _⟩ := h
    subst hs
    exact ⟨rfl, rfl⟩
  | cons c rest ih =>
    simp only [Script.procedureEnd] at h
    cases heo : c.effectiveOffset with
    | error e1 => simp [heo] at h
    | ok eo =>
      simp only [heo] at h
      cases ht : (s.indexOf eo).1.commands[(s.indexOf eo).2]? with
      | none => simp [ht] at h
      | some target =>
        simp only [ht] at h
        split_ifs at h with hret
        · simp only [Except.ok.injEq, Prod.mk.injEq] at h
          obtain ⟨hs, _⟩ := h
          subst hs
          exact ⟨rfl, rfl⟩
        · exact ih (s.indexOf eo).1 _ h

theorem procedureEnd_isOk (startLevel : Nat) (l : List Command) (s : Script) (e : Nat)
    (hr : IndexInRange s) (hne : 0 < s.commands.length)
    (hp : ∀ c ∈ l, c.opcode = Opcode.Jump → c.parameters ≠ []) :
    ∃ s2 e2, Script.procedureEnd startLevel l s e = .ok (s2, e2) ∧ IndexInRange s2 := by
  induction l generalizing s e with
  | nil => exact ⟨s, e, rfl, hr⟩
  | cons c rest ih =>
    simp only [Script.procedureEnd]
    have heo : ∃ eo, c.effectiveOffset = .ok eo := by
      unfold Command.effectiveOffset
      by_cases hj : c.opcode = Opcode.Jump
      · obtain ⟨p, ps, hps⟩ := List.exists_cons_of_ne_nil (hp c (List.mem_cons_self _ _) hj)
        simp only [hj, if_true, hps]
        exact ⟨_, rfl⟩
      · simp only [hj, if_false]
        exact ⟨_, rfl⟩
    obtain ⟨eo, heo⟩ := heo
    have hr1 := indexOf_inRange s eo hr hne
    obtain ⟨target, ht⟩ : ∃ target, s.commands[s.look eo]? = some target :=
      ⟨_, List.getElem?_eq_getElem (look_lt s eo hr hne)⟩
    simp only [heo, indexOf_commands, indexOf_snd, ht]
    split_ifs with hret
    · exact ⟨_, _, rfl, hr1⟩
    · exact ih _ _ hr1 hne (fun c hc => hp c (List.mem_cons_of_mem _ hc))

/-- What the loop of `createProcedures` over `cmds` does to `allProcedures`. -/
theorem procedureLoop_spec (unset : Int → Nat) (cmds : List Command) (s s1 : Script)
    (h : Script.procedureLoop unset cmds s = .ok s1) :
    (∀ p, mapContains s1.allProcedures p = true ↔
        mapContains s.allProcedures p = true
          ∨ ∃ c ∈ cmds, c.opcode = Opcode.Call ∧ ∃ g, Goto.ofCommand c = .ok g ∧ g.dest = p)
      ∧ ((s.allProcedures.map Prod.fst).Nodup → (s1.allProcedures.map Prod.fst).Nodup)
      ∧ (∀ p proc, mapFind s1.allProcedures p = some proc →
          mapFind s.allProcedures p = some proc
            ∨ (proc.beginOffset = toSizeT p ∧ proc.name = "proc_" ++ toString p)) := by
  induction cmds generalizing s with
  | nil =>
    simp only [Script.procedureLoop, Except.ok.injEq] at h
    subst h
    exact ⟨by simp, fun hn => hn, fun p proc hf => Or.inl hf⟩
  | cons cmd rest ih =>
    simp only [Script.procedureLoop] at h
    by_cases hcall : cmd.opcode = Opcode.Call
    · simp only [hcall, if_true] at h
      cases hg : Goto.ofCommand cmd with
      | error e => simp [hg] at h
      | ok call =>
        simp only [hg] at h
        by_cases hcont : mapContains s.allProcedures call.dest = true
        · simp only [hcont, if_true] at h
          obtain ⟨hk, hn, hv⟩ := ih s h
          refine ⟨fun p => ?_, hn, hv⟩
          rw [hk p]
          constructor
          · rintro (hx | ⟨c, hc, hx⟩)
            · exact Or.inl hx
            · exact Or.inr ⟨c, List.mem_cons_of_mem _ hc, hx⟩
          · rintro (hx | ⟨c, hc, hx⟩)
            · exact Or.inl hx
            · rcases List.mem_cons.1 hc with he | hr
              · subst he
                obtain ⟨_, g, hg1, hd⟩ := hx
                rw [hg] at hg1
                cases hg1
                rw [← hd]
                exact Or.inl hcont
              · exact Or.inr ⟨c, hr, hx⟩
        · simp only [hcont, Bool.false_eq_true, if_false, replaceTokens_proc] at h
          cases hend : Script.procedureEnd ((s.indexOf call.dest).1.ifLevelForOffset call.dest)
              ((s.indexOf call.dest).1.commands.drop (s.indexOf call.dest).2)
              (s.indexOf call.dest).1 (unset call.dest) with
          | error e => simp [hend] at h
          | ok r =>
            obtain ⟨s2, endOffset⟩ := r
            simp only [hend] at h
            obtain ⟨hap, _⟩ := procedureEnd_frame _ _ _ _ _ _ hend
            have hap2 : s2.allProcedures = s.allProcedures := hap
            obtain ⟨hk, hn, hv⟩ := ih _ h
            have hset : ∀ p, mapContains (s2.setProcedure call.dest
                { beginOffset := toSizeT call.dest, endOffset := endOffset,
                  name := "proc_" ++ toString call.dest }).allProcedures p
                = (decide (call.dest = p) || mapContains s.allProcedures p) := by
              intro p
              rw [← hap2]
              exact mapContains_mapSet _ _ _ _
            refine ⟨fun p => ?_, fun hnd => hn ?_, fun p proc hf => ?_⟩
            · rw [hk p, hset p]
              constructor
              · rintro (hx | ⟨c, hc, hx⟩)
                · simp only [Bool.or_eq_true, decide_eq_true_eq] at hx
                  rcases hx with hx | hx
                  · exact Or.inr ⟨cmd, List.mem_cons_self _ _, hcall, call, hg, hx⟩
                  · exact Or.inl hx
                · exact Or.inr ⟨c, List.mem_cons_of_mem _ hc, hx⟩
              · rintro (hx | ⟨c, hc, hx⟩)
                · exact Or.inl (by simp [hx])
                · rcases List.mem_cons.1 hc with he | hr
                  · subst he
                    obtain ⟨_, g, hg1, hd⟩ := hx
                    rw [hg] at hg1
                    cases hg1
                    exact Or.inl (by simp [hd])
                  · exact Or.inr ⟨c, hr, hx⟩
            · show ((mapSet s2.allProcedures call.dest _).map Prod.fst).Nodup
              rw [hap2]
              exact mapSet_keys_nodup _ _ _ hnd
            · rcases hv p proc hf with hx | hx
              · have hfind : mapFind (s2.setProcedure call.dest
                    { beginOffset := toSizeT call.dest, endOffset := endOffset,
                      name := "proc_" ++ toString call.dest }).allProcedures p
                    = if call.dest = p then
                        some { beginOffset := toSizeT call.dest, endOffset := endOffset,
                               name := "proc_" ++ toString call.dest }
                      else mapFind s.allProcedures p := by
                  rw [← hap2]
                  exact mapFind_mapSet _ _ _ _
                rw [hfind] at hx
                by_cases hd : call.dest = p
                · subst hd
                  simp only [if_true, Option.some.injEq] at hx
                  subst hx
                  exact Or.inr ⟨rfl, rfl⟩
                · simp only [hd, if_false] at hx
                  exact Or.inl hx
              · exact Or.inr hx
    · simp only [hcall, if_false] at h
      obtain ⟨hk, hn, hv⟩ := ih s h
      refine ⟨fun p => ?_, hn, hv⟩
      rw [hk p]
      constructor
      · rintro (hx | ⟨c, hc, hx⟩)
        · exact Or.inl hx
        · exact Or.inr ⟨c, List.mem_cons_of_mem _ hc, hx⟩
      · rintro (hx | ⟨c, hc, hx⟩)
        · exact Or.inl hx
        · rcases List.mem_cons.1 hc with he | hr
          · subst he
            exact absurd hx.1 hcall
          · exact Or.inr ⟨c, hr, hx⟩

theorem procedureLoop_isOk (unset : Int → Nat) (cs : List Command)
    (hp : ∀ c ∈ cs, c.opcode = Opcode.Jump ∨ c.opcode = Opcode.Call → c.parameters ≠ [])
    (cmds : List Command) (hsub : ∀ c ∈ cmds, c ∈ cs) :
    ∀ s : Script, s.commands = cs → IndexInRange s →
      ∃ s1, Script.procedureLoop unset cmds s = .ok s1 := by
  induction cmds with
  | nil => intro s _ _; exact ⟨s, rfl⟩
  | cons cmd rest ih =>
    intro s hcs hr
    have hsub1 : ∀ c ∈ rest, c ∈ cs := fun c hc => hsub c (List.mem_cons_of_mem _ hc)
    have hmem : cmd ∈ s.commands := by rw [hcs]; exact hsub cmd (List.mem_cons_self _ _)
    have hne : 0 < s.commands.length := List.length_pos_of_mem hmem
    simp only [Script.procedureLoop]
    by_cases hcall : cmd.opcode = Opcode.Call
    · have hj : Goto.isJumpOpcode cmd.opcode = true := by rw [hcall]; rfl
      obtain ⟨call, hg⟩ := Goto.ofCommand_isOk cmd hj
        (hp cmd (hsub cmd (List.mem_cons_self _ _)) (Or.inr hcall))
      simp only [hcall, if_true, hg]
      by_cases hcont : mapContains s.allProcedures call.dest = true
      · simp only [hcont, if_true]
        exact ih hsub1 s hcs hr
      · simp only [hcont, Bool.false_eq_true, if_false, replaceTokens_proc]
        obtain ⟨s2, e2, hend, hr2⟩ := procedureEnd_isOk
          ((s.indexOf call.dest).1.ifLevelForOffset call.dest)
          ((s.indexOf call.dest).1.commands.drop (s.indexOf call.dest).2)
          (s.indexOf call.dest).1 (unset call.dest) (indexOf_inRange s _ hr hne) hne
          (fun c hc hjmp => hp c (by rw [← hcs]; exact List.mem_of_mem_drop hc) (Or.inl hjmp))
        obtain ⟨_, hc2⟩ := procedureEnd_frame _ _ _ _ _ _ hend
        simp only [hend]
        exact ih hsub1 _ (by show s2.commands = cs; rw [hc2]; exact hcs) hr2
    · simp only [hcall, if_false]
      exact ih hsub1 s hcs hr

theorem toSizeT_of_nonneg (p : Int) (h0 : 0 ≤ p) (h1 : p < 18446744073709551616) :
    Int.ofNat (toSizeT p) = p := by
  unfold toSizeT
  rw [Int.emod_eq_of_lt h0 h1]
  simpa using Int.toNat_of_nonneg h0

/-! ## Procedures (claim C20) -/

/-- C20: after `createProcedures` on an empty `allProcedures` has returned,
the keys of `allProcedures` are exactly the destinations `Goto(c).dest` of the
`Call` commands `c` of the script, each once; the procedure stored under the
key `p` has `beginOffset = p` (as a `size_t`) and the name `proc_` followed by
the decimal of `p`. And `createProcedures` does return for every script whose
offset index holds indices of commands and whose `Jump` and `Call` commands
have an operand. -/
theorem createProcedures_spec (s : Script) (unset : Int → Nat) (hempty : s.allProcedures = []) :
    (∀ s1, s.createProcedures unset = .ok s1 →
        (∀ p, mapContains s1.allProcedures p = true ↔
            ∃ c ∈ s.commands, c.opcode = Opcode.Call
              ∧ ∃ g, Goto.ofCommand c = .ok g ∧ g.dest = p)
          ∧ (s1.allProcedures.map Prod.fst).Nodup
          ∧ ∀ p proc, mapFind s1.allProcedures p = some proc →
              proc.beginOffset = toSizeT p
                ∧ (0 ≤ p → p < 18446744073709551616 → Int.ofNat proc.beginOffset = p)
                ∧ proc.name = "proc_" ++ toString p)
      ∧ (IndexInRange s → JumpsHaveOperand s → ∃ s1, s.createProcedures unset = .ok s1) := by
  refine ⟨fun s1 hrun => ?_, fun hr hp =>
    procedureLoop_isOk unset s.commands hp s.commands (fun c hc => hc) s rfl hr⟩
  obtain ⟨hk, hn, hv⟩ := procedureLoop_spec unset s.commands s s1 hrun
  refine ⟨fun p => ?_, hn (by rw [hempty]; exact List.nodup_nil), fun p proc hf => ?_⟩
  · rw [hk p, hempty]
    constructor
    · rintro (hx | hx)
      · simp [mapContains, mapFind] at hx
      · exact hx
    · intro hx
      exact Or.inr hx
  · rcases hv p proc hf with hx | ⟨hb, hname⟩
    · rw [hempty] at hx
      simp [mapFind] at hx
    · exact ⟨hb, fun h0 h1 => by rw [hb]; exact toSizeT_of_nonneg p h0 h1, hname⟩

/-- C20 on `sampleCallScript`: its two `Call` commands share the destination
14, and `allProcedures` gets the one procedure `proc_14`, which ends at the
`Return` at offset 18. -/
theorem createProcedures_spec_witness :
    sampleCallScript.createProcedures (fun _ => 0)
        = .ok { sampleCallScript with
                allProcedures := [(14, { beginOffset := 14, endOffset := 18, name := "proc_14" })] }
      ∧ (∀ s1, sampleCallScript.createProcedures (fun _ => 0) = .ok s1 →
          (∀ p, mapContains s1.allProcedures p = true ↔
              ∃ c ∈ sampleCallScript.commands, c.opcode = Opcode.Call
                ∧ ∃ g, Goto.ofCommand c = .ok g ∧ g.dest = p)
            ∧ (s1.allProcedures.map Prod.fst).Nodup
            ∧ ∀ p proc, mapFind s1.allProcedures p = some proc →
                proc.beginOffset = toSizeT p
                  ∧ (0 ≤ p → p < 18446744073709551616 → Int.ofNat proc.beginOffset = p)
                  ∧ proc.name = "proc_" ++ toString p)
      ∧ ∃ s1, sampleCallScript.createProcedures (fun _ => 0) = .ok s1 :=
  ⟨by rfl, (createProcedures_spec sampleCallScript (fun _ => 0) rfl).1,
    (createProcedures_spec sampleCallScript (fun _ => 0) rfl).2
      (indexInRange_of_invertible _ (indexInvertible_of_check _ (by decide)))
      (by unfold JumpsHaveOperand; decide)⟩

/-! ## Globals (claims C22, C23) -/

/-- C22 fails in the code: on the script decompiled from
`twoAssignmentsBytes`, whose two commands assign to the global at offset 100
first an `S8` and then an `F32`, `createGlobals` records the value type `F32`
(6) of the second assignment, not the type `S8` (4) of the first. -/
theorem createGlobals_last_assignment :
    ∃ s, Decompiler.decompile twoAssignmentsBytes assignTable = .ok s
      ∧ s.commands.map (fun c => (c.offset, c.name, c.parameters.map (fun v => v.type)))
          = [(0, "$0 = $1", [2, 4]), (7, "$0 = $1", [2, 6])]
      ∧ s.createGlobals.globals = [(100, { referenceType := 2, valueType := 6, offset := 100 })] :=
  ⟨_, rfl, rfl, rfl⟩

/-- C23 fails in the code: on the script decompiled from
`immediateAssignmentBytes`, the second command assigns the `S16` immediate 7 to
the global at offset 100, and `createGlobals` records for that global the
value type `F32` (6) of the global at offset 7, not the type `S16` (5) of the
immediate. -/
theorem createGlobals_immediate_as_global :
    ∃ s, Decompiler.decompile immediateAssignmentBytes assignTable = .ok s
      ∧ s.commands.map (fun c => (c.offset, c.name, c.parameters.map (fun v => v.type)))
          = [(0, "$0 = $1", [2, 6]), (10, "$0 = $1", [2, 5])]
      ∧ s.createGlobals.globals
          = [(7, { referenceType := 2, valueType := 6, offset := 7 }),
             (100, { referenceType := 2, valueType := 6, offset := 100 })] :=
  ⟨_, rfl, rfl, rfl⟩

/-! ## Dead code (claim C24) -/

/-- C24 fails in the code: on the script decompiled from `deadCodeBytes`, the
commands at offsets 7 and 11 lie after the `Jump` at offset 0 and before the
jump destination 15, and `removeDeadCode` hides the offset 7 only; the commands
are unchanged. -/
theorem removeDeadCode_hides_first_only :
    ∃ s, Decompiler.decompile deadCodeBytes jumpTable = .ok s
      ∧ s.commands.map (fun c => (c.offset, c.opcode)) = [(0, 2), (7, 1), (11, 1), (15, 1)]
      ∧ s.jumpDestinations = [(15, [⟨0, 15, 0x2⟩])]
      ∧ (s.removeDeadCode []).2 = [7]
      ∧ (s.removeDeadCode []).1.commands = s.commands :=
  ⟨_, rfl, rfl, rfl, rfl, rfl⟩

/-! ## Lemmas on `getParamStrings` -/

theorem zeroAfterNonPrintable_length (l : List Byte) :
    (zeroAfterNonPrintable l).length = l.length := by
  induction l with
  | nil => rfl
  | cons b rest ih =>
    simp only [zeroAfterNonPrintable]
    split_ifs <;> simp [ih]

theorem slice_succ (bytes : List Byte) (cur n : Nat) (b : Byte) (h : bytes[cur]? = some b) :
    slice bytes cur (n + 1) = b :: slice bytes (cur + 1) n := by
  have hlt : cur < bytes.length := by
    by_contra hge
    rw [List.getElem?_eq_none (by omega)] at h
    cases h
  have hb : bytes[cur] = b := by
    rw [List.getElem?_eq_getElem hlt] at h
    exact Option.some.inj h
  unfold slice
  rw [List.drop_eq_getElem_cons hlt, List.take_succ_cons, hb]

theorem copyParamBytes_bounds (bytes : List Byte) (isV : Bool) (size cur : Nat) (ended : Bool)
    (out : List Byte) (h : copyParamBytes bytes isV size cur ended = .ok out) :
    out.length = size ∧ (size = 0 ∨ cur + size ≤ bytes.length) := by
  induction size generalizing cur ended out with
  | zero =>
    simp only [copyParamBytes, Except.ok.injEq] at h
    subst h
    exact ⟨rfl, Or.inl rfl⟩
  | succ size ih =>
    rw [copyParamBytes] at h
    cases hb : readByte bytes cur with
    | error e => simp [hb] at h
    | ok b =>
      have hc := (readByte_lt _ _ _ hb).1
      rw [hb] at h
      simp only at h
      split at h
      · cases h
      · rename_i rest hrest
        simp only [Except.ok.injEq] at h
        obtain ⟨hl, hbd⟩ := ih _ _ _ hrest
        subst h
        refine ⟨by simp [hl], Or.inr ?_⟩
        rcases hbd with h0 | h0 <;> omega

theorem copyParamBytes_vstr (bytes : List Byte) (size cur : Nat) (ended : Bool) (out : List Byte)
    (h : copyParamBytes bytes true size cur ended = .ok out) :
    out = (if ended then List.replicate size 0
      else zeroAfterNonPrintable (slice bytes cur size)) := by
  induction size generalizing cur ended out with
  | zero =>
    simp only [copyParamBytes, Except.ok.injEq] at h
    subst h
    cases ended <;> simp [slice, zeroAfterNonPrintable]
  | succ size ih =>
    rw [copyParamBytes] at h
    cases hb : readByte bytes cur with
    | error e => simp [hb] at h
    | ok b =>
      have hget : bytes[cur]? = some b := by
        unfold readByte at hb
        cases hg : bytes[cur]? with
        | none => simp [hg] at hb
        | some b1 =>
          simp only [hg, Except.ok.injEq] at hb
          rw [hb]
      rw [hb] at h
      simp only at h
      split at h
      · cases h
      · rename_i rest hrest
        simp only [Except.ok.injEq] at h
        have hr := ih _ _ _ hrest
        obtain ⟨hl, hbd⟩ := copyParamBytes_bounds _ _ _ _ _ _ hrest
        have hsl : (slice bytes (cur + 1) size).length = size := by
          unfold slice
          rw [List.length_take, List.length_drop]
          rcases hbd with h0 | h0 <;> omega
        rw [slice_succ bytes cur size b hget]
        cases ended with
        | true =>
          simp only [Bool.true_or, if_true] at h hr ⊢
          rw [← h, hr]
          rfl
        | false =>
          cases hp : isPrint b with
          | true =>
            simp only [hp, Bool.not_true, Bool.and_false, Bool.or_false, Bool.false_eq_true,
              if_false] at h hr
            simp only [zeroAfterNonPrintable, hp, if_true, Bool.false_eq_true, if_false]
            rw [← h, hr]
          | false =>
            simp only [hp, Bool.not_false, Bool.and_true, Bool.or_true, if_true] at h hr
            simp only [zeroAfterNonPrintable, hp, Bool.false_eq_true, if_false, hsl]
            rw [← h, hr]
            rfl

theorem copyParamBytes_isOk (bytes : List Byte) (isV : Bool) (size cur : Nat) (ended : Bool)
    (h : cur + size ≤ bytes.length) :
    ∃ out, copyParamBytes bytes isV size cur ended = .ok out := by
  induction size generalizing cur ended with
  | zero => exact ⟨[], rfl⟩
  | succ size ih =>
    simp only [copyParamBytes, readByte_eq_ok bytes cur (by omega)]
    obtain ⟨rest, hrest⟩ := ih (cur + 1) (ended || (isV && !isPrint (byteAt bytes cur))) (by omega)
    simp only [hrest]
    exact ⟨_, rfl⟩

/-! ## Variable-length strings in `getParamStrings` (claim C28) -/

/-- C28: for an operand whose tag byte at the cursor is that of a
variable-length string, with the length byte `L`, whenever `getParamStrings`
decodes it the cursor advances by exactly `2 + L` bytes and the payload
recorded has `L` bytes: the data bytes before the first non-printable byte
unchanged, and 0 for that byte and every later byte of the span. And it is
decoded whenever the buffer holds the `2 + L` bytes. -/
theorem getParamString_stringVar (bytes : List Byte) (cur : Nat)
    (htag : (byteAt bytes cur).val = 0xE) :
    (∀ param c, getParamString bytes cur = .ok (param, c) →
        c = cur + 2 + (byteAt bytes (cur + 1)).val
          ∧ param = some (0xE, zeroAfterNonPrintable
              (slice bytes (cur + 2) (byteAt bytes (cur + 1)).val))
          ∧ (zeroAfterNonPrintable
              (slice bytes (cur + 2) (byteAt bytes (cur + 1)).val)).length
                = (byteAt bytes (cur + 1)).val)
      ∧ (cur + 2 + (byteAt bytes (cur + 1)).val ≤ bytes.length →
          ∃ param c, getParamString bytes cur = .ok (param, c)) := by
  have hsize : paramTypeSize 0xE = some 0 := rfl
  refine ⟨fun param c h => ?_, fun hlen => ?_⟩
  · unfold getParamString at h
    cases h1 : readByte bytes cur with
    | error e => simp [h1] at h
    | ok tag =>
      obtain ⟨_, ht⟩ := readByte_lt _ _ _ h1
      subst ht
      simp only [h1, htag, hsize, if_true] at h
      cases h2 : readByte bytes (cur + 1) with
      | error e => simp [h2] at h
      | ok len =>
        obtain ⟨_, hl⟩ := readByte_lt _ _ _ h2
        subst hl
        simp only [h2] at h
        cases h3 : copyParamBytes bytes true (byteAt bytes (cur + 1)).val (cur + 2) false with
        | error e => simp [h3] at h
        | ok out =>
          simp only [h3, Except.ok.injEq, Prod.mk.injEq] at h
          obtain ⟨hp, hc⟩ := h
          have hout := copyParamBytes_vstr _ _ _ _ _ h3
          simp only [Bool.false_eq_true, if_false] at hout
          obtain ⟨hlen, _⟩ := copyParamBytes_bounds _ _ _ _ _ _ h3
          refine ⟨hc.symm, ?_, ?_⟩
          · rw [← hp, hout]
          · rw [← hout, hlen]
  · unfold getParamString
    simp only [readByte_eq_ok bytes cur (by omega), htag, hsize, if_true,
      readByte_eq_ok bytes (cur + 1) (by omega)]
    obtain ⟨out, hout⟩ := copyParamBytes_isOk bytes true (byteAt bytes (cur + 1)).val (cur + 2)
      false hlen
    simp only [hout]
    exact ⟨_, _, rfl⟩

/-- C28 on the bytes `0E 04 41 42 00 43`: the cursor advances by 6 and the
payload recorded is `41 42 00 00`. -/
theorem getParamString_stringVar_witness :
    getParamString [0xE, 4, 0x41, 0x42, 0x00, 0x43] 0 = .ok (some (0xE, [0x41, 0x42, 0, 0]), 6)
      ∧ (∀ param c, getParamString [0xE, 4, 0x41, 0x42, 0x00, 0x43] 0 = .ok (param, c) →
          c = 0 + 2 + (byteAt [0xE, 4, 0x41, 0x42, 0x00, 0x43] (0 + 1)).val
            ∧ param = some (0xE, zeroAfterNonPrintable
                (slice [0xE, 4, 0x41, 0x42, 0x00, 0x43] (0 + 2)
                  (byteAt [0xE, 4, 0x41, 0x42, 0x00, 0x43] (0 + 1)).val))
            ∧ (zeroAfterNonPrintable
                (slice [0xE, 4, 0x41, 0x42, 0x00, 0x43] (0 + 2)
                  (byteAt [0xE, 4, 0x41, 0x42, 0x00, 0x43] (0 + 1)).val)).length
                  = (byteAt [0xE, 4, 0x41, 0x42, 0x00, 0x43] (0 + 1)).val) :=
  ⟨rfl, (getParamString_stringVar [0xE, 4, 0x41, 0x42, 0x00, 0x43] 0 rfl).1⟩

/-! ## Lemmas on the loader's second slot -/

theorem aliasOpcode_ne (opcode : Nat) (h : opcode &&& 0xF000 = 0) : aliasOpcode opcode ≠ opcode := by
  intro heq
  have h1 : (aliasOpcode opcode).testBit 15 = true := by
    unfold aliasOpcode
    have : (65536 : Nat) = 2 ^ 16 := by norm_num
    have h3 : Nat.testBit 0x8000 15 = true := by decide
    rw [this, Nat.testBit_mod_two_pow, Nat.testBit_lor, h3]
    simp
  have h2 : opcode.testBit 15 = false := by
    have := congrArg (fun n => Nat.testBit n 15) h
    simp only [Nat.testBit_land, Nat.zero_testBit] at this
    have h3 : Nat.testBit 0xF000 15 = true := by decide
    rw [h3, Bool.and_true] at this
    exact this
  rw [heq, h2] at h1
  cases h1

theorem get_registerOpcode (table : OpcodeTable) (op : Nat) (cmd : Command) (op1 : Nat) :
    Command.get (Command.registerOpcode table op cmd) op1
      = if op = op1 then cmd else Command.get table op1 := by
  unfold Command.get Command.registerOpcode
  rw [mapFind_mapSet]
  by_cases h : op = op1 <;> simp [h]

theorem mapFind_registerOpcode (table : OpcodeTable) (op : Nat) (cmd : Command) (op1 : Nat) :
    mapFind (Command.registerOpcode table op cmd) op1
      = if op = op1 then some cmd else mapFind table op1 := by
  unfold Command.registerOpcode
  rw [mapFind_mapSet]

/-! ## The loader's second slot (claim C29) -/

/-- C29 as claimed fails on `emptyNameTable`: the slot 0x8004 was registered
before, with an empty name, and the registration of opcode 4 replaces its
definition by a copy of the definition of opcode 4. -/
theorem registerWithAlias_counterexample :
    mapFind emptyNameTable 0x8004
        = some { name := "", opcode := 0x8004, parameters := [{ size := 1 }] }
      ∧ mapFind (registerWithAlias emptyNameTable 0x4 assignDefinition) 0x8004
        = some { name := "$0 = $1", opcode := 0x8004, parameters := [{ size := 1 }, { size := 2 }] } :=
  ⟨rfl, rfl⟩

/-- C29, amended: when the loader registers the definition `m2cmd` for an
opcode `op`, `op` is registered with it; if the top nibble of `op` is zero
(`op & 0xF000 = 0`), the opcode `op | 0x8000` is registered too: with a copy
of the definition whose opcode field is `op | 0x8000` if that slot was not
registered before or was registered with an empty name, and with its earlier
definition unchanged if it was registered with a name that is not empty; no
other slot changes, and for an opcode with a non-zero top nibble no second slot
is written. -/
theorem registerWithAlias_spec (table : OpcodeTable) (op : Nat) (m2cmd : Command) :
    mapFind (registerWithAlias table op m2cmd) op = some m2cmd
      ∧ (op &&& 0xF000 = 0 →
          ((mapFind table (aliasOpcode op) = none
              ∨ ∃ d, mapFind table (aliasOpcode op) = some d ∧ d.name = "") →
            mapFind (registerWithAlias table op m2cmd) (aliasOpcode op)
              = some { m2cmd with opcode := aliasOpcode op })
          ∧ (∀ d, mapFind table (aliasOpcode op) = some d → d.name ≠ "" →
              mapFind (registerWithAlias table op m2cmd) (aliasOpcode op) = some d)
          ∧ ∀ k, k ≠ op → k ≠ aliasOpcode op →
              mapFind (registerWithAlias table op m2cmd) k = mapFind table k)
      ∧ (¬ op &&& 0xF000 = 0 →
          ∀ k, k ≠ op → mapFind (registerWithAlias table op m2cmd) k = mapFind table k) := by
  refine ⟨?_, ?_, ?_⟩
  · unfold registerWithAlias
    by_cases hn : op &&& 0xF000 = 0
    · have hne := aliasOpcode_ne op hn
      simp only [hn, if_true]
      split_ifs
      · rw [mapFind_registerOpcode, if_neg hne, mapFind_registerOpcode, if_pos rfl]
      · rw [mapFind_registerOpcode, if_pos rfl]
    · simp only [hn, if_false]
      rw [mapFind_registerOpcode, if_pos rfl]
  · intro hn
    have hne := aliasOpcode_ne op hn
    have hget : Command.get (Command.registerOpcode table op m2cmd) (aliasOpcode op)
        = Command.get table (aliasOpcode op) := by
      rw [get_registerOpcode, if_neg (Ne.symm hne)]
    refine ⟨?_, ?_, ?_⟩
    · intro hslot
      have hfalse : (Command.get table (aliasOpcode op)).toBool = false := by
        rcases hslot with h0 | ⟨d, hd, hname⟩
        · rw [get_of_mapFind_none _ _ h0]
          rfl
        · rw [get_of_mapFind _ _ _ hd]
          simp [Command.toBool, hname]
      unfold registerWithAlias
      simp only [hn, if_true, hget, hfalse, Bool.not_false]
      rw [mapFind_registerOpcode, if_pos rfl]
    · intro d hd hname
      have htrue : (Command.get table (aliasOpcode op)).toBool = true := by
        rw [get_of_mapFind _ _ _ hd]
        simp [Command.toBool, hname]
      unfold registerWithAlias
      simp only [hn, if_true, hget, htrue, Bool.not_true, Bool.false_eq_true, if_false]
      rw [mapFind_registerOpcode, if_neg (Ne.symm hne), hd]
    · intro k hk1 hk2
      unfold registerWithAlias
      simp only [hn, if_true]
      split_ifs
      · rw [mapFind_registerOpcode, if_neg (Ne.symm hk2), mapFind_registerOpcode,
          if_neg (Ne.symm hk1)]
      · rw [mapFind_registerOpcode, if_neg (Ne.symm hk1)]
  · intro hn k hk
    unfold registerWithAlias
    simp only [hn, if_false]
    rw [mapFind_registerOpcode, if_neg (Ne.symm hk)]

/-- C29, amended, on the empty table: registering opcode 4 also registers
0x8004 with a copy, and registering opcode 0x8004 writes no second slot. -/
theorem registerWithAlias_spec_witness :
    mapFind (registerWithAlias [] 0x4 assignDefinition) 0x4 = some assignDefinition
      ∧ mapFind (registerWithAlias [] 0x4 assignDefinition) (aliasOpcode 0x4)
          = some { assignDefinition with opcode := aliasOpcode 0x4 }
      ∧ aliasOpcode 0x4 = 0x8004
      ∧ ∀ k, k ≠ 0x8004 →
          mapFind (registerWithAlias [] 0x8004 assignDefinition) k = mapFind [] k :=
  ⟨(registerWithAlias_spec [] 0x4 assignDefinition).1,
    ((registerWithAlias_spec [] 0x4 assignDefinition).2.1 rfl).1 (Or.inl rfl), rfl,
    (registerWithAlias_spec [] 0x8004 assignDefinition).2.2 (by decide)⟩

/-! ## The primitive encoding (claim C30) -/

theorem streamTail_dotStream (b : Byte) (rest : List Byte) :
    streamTail (dotStream (b :: rest)) = dotJoined (b :: rest) := by
  unfold dotJoined
  induction rest generalizing b with
  | nil => simp [dotStream, streamTail, List.intercalate]
  | cons c rest ih =>
    have h := ih c
    simp only [dotStream, streamTail] at h ⊢
    rw [h]
    simp [List.intercalate, List.intersperse]

theorem arrayVtoS_spec (letter : Char) (v : Value) (hsz : v.size = v.bytes.length) :
    arrayVtoS letter v
      = .ok (String.mk (letter :: (if v.bytes = [] then ['!'] else dotJoined v.bytes))) := by
  unfold arrayVtoS
  rw [if_pos (by omega), hsz, List.take_length]
  cases hb : v.bytes with
  | nil => rfl
  | cons b rest =>
    rw [streamTail_dotStream]
    simp

/-- C30 as claimed fails on two operands: a `GlobalString8` reference to the
global at offset 5 is encoded as `M5`, not with the letter `G`, and the fixed
string `hi` is encoded between quotes, without a type letter. -/
theorem primitiveVtoS_counterexample :
    primitiveVtoS (fun _ => "")
        { bytes := [5, 0], bytesSet := true, type := DataType.GlobalString8, size := 2 }
        = .ok "M5"
      ∧ primitiveVtoS (fun _ => "")
          { bytes := [0x68, 0x69, 0, 0, 0, 0, 0, 0], bytesSet := true,
            type := DataType.String8, size := 8 }
        = .ok "'hi'" :=
  ⟨by rfl, by rfl⟩

/-- C30, amended: `primitiveVtoS` encodes an operand that is not a string as a
type letter followed by its value: `S32` as `S` and the decimal of its signed
32-bit value, a `GlobalIntFloat` reference as `G` and a `LocalIntFloat`
reference as `L` followed by the decimal of its unsigned 16-bit offset (the
references to strings use the letters `M`, `N`, `K` and `J`), `S8` as `B` and
the decimal of its signed 8-bit value, `S16` as `T` and the decimal of its
signed 16-bit value, an array operand as its type letter (`A`, `X`, `V`, `W`,
`R` or `Z`) followed by its payload bytes in decimal joined by `.` (or by `!`
when the payload is empty), the `Unknown` placeholder as `U!` and the end
marker as `E`; a string operand is encoded as its characters between single
quotes, without a type letter. -/
theorem primitiveVtoS_spec (floatText : Value → String) (v : Value) :
    (v.type = DataType.S32 → primitiveVtoS floatText v = .ok ("S" ++ toString v.castInt32))
      ∧ (v.type = DataType.GlobalIntFloat →
          primitiveVtoS floatText v = .ok ("G" ++ toString v.castUInt16))
      ∧ (v.type = DataType.LocalIntFloat →
          primitiveVtoS floatText v = .ok ("L" ++ toString v.castUInt16))
      ∧ (v.type = DataType.GlobalString8 →
          primitiveVtoS floatText v = .ok ("M" ++ toString v.castUInt16))
      ∧ (v.type = DataType.LocalString8 →
          primitiveVtoS floatText v = .ok ("N" ++ toString v.castUInt16))
      ∧ (v.type = DataType.GlobalString16 →
          primitiveVtoS floatText v = .ok ("K" ++ toString v.castUInt16))
      ∧ (v.type = DataType.LocalString16 →
          primitiveVtoS floatText v = .ok ("J" ++ toString v.castUInt16))
      ∧ (v.type = DataType.S8 → primitiveVtoS floatText v = .ok ("B" ++ toString v.castInt8))
      ∧ (v.type = DataType.S16 → primitiveVtoS floatText v = .ok ("T" ++ toString v.castInt16))
      ∧ (∀ letter, (v.type, letter) ∈
            [(DataType.GlobalIntFloatArr, 'A'), (DataType.LocalIntFloatArr, 'X'),
             (DataType.GlobalString8Arr, 'V'), (DataType.LocalString8Arr, 'W'),
             (DataType.GlobalString16Arr, 'R'), (DataType.LocalString16Arr, 'Z')] →
          v.size = v.bytes.length →
          primitiveVtoS floatText v
            = .ok (String.mk (letter :: (if v.bytes = [] then ['!'] else dotJoined v.bytes))))
      ∧ (v.type = DataType.Unknown → primitiveVtoS floatText v = .ok "U!")
      ∧ (v.type = DataType.EOAL → primitiveVtoS floatText v = .ok "E")
      ∧ (v.type = DataType.StringVar → v.size = v.bytes.length →
          primitiveVtoS floatText v
            = .ok (String.mk ('\'' :: (bytesToChars v.bytes ++ ['\'']))))
      ∧ (v.type = DataType.String16 → v.bytes.length = 16 →
          primitiveVtoS floatText v
            = .ok (String.mk ('\'' :: (bytesToChars v.bytes ++ ['\'']))))
      ∧ (v.type = DataType.String8 → ∀ cs, cString8 v.bytes = .ok cs →
          primitiveVtoS floatText v
            = .ok (String.mk ('\'' :: (bytesToChars cs ++ ['\''])))) := by
  refine ⟨?_, ?_, ?_, ?_, ?_, ?_, ?_, ?_, ?_, ?_, ?_, ?_, ?_, ?_, ?_⟩
  · intro h; simp [primitiveVtoS, h, DataType.S32, DataType.EOAL]
  · intro h; simp [primitiveVtoS, h, DataType.GlobalIntFloat, DataType.S32, DataType.EOAL]
  · intro h
    simp [primitiveVtoS, h, DataType.LocalIntFloat, DataType.GlobalIntFloat, DataType.S32,
      DataType.EOAL]
  · intro h; unfold primitiveVtoS; rw [h]; rfl
  · intro h; unfold primitiveVtoS; rw [h]; rfl
  · intro h; unfold primitiveVtoS; rw [h]; rfl
  · intro h; unfold primitiveVtoS; rw [h]; rfl
  · intro h; unfold primitiveVtoS; rw [h]; rfl
  · intro h; unfold primitiveVtoS; rw [h]; rfl
  · intro letter hmem hsz
    simp only [List.mem_cons, Prod.mk.injEq, List.mem_singleton, List.not_mem_nil, or_false] at hmem
    rcases hmem with ⟨ht, hl⟩ | ⟨ht, hl⟩ | ⟨ht, hl⟩ | ⟨ht, hl⟩ | ⟨ht, hl⟩ | ⟨ht, hl⟩ <;>
      · subst hl
        rw [← arrayVtoS_spec _ v hsz]
        unfold primitiveVtoS
        rw [ht]
        rfl
  · intro h; unfold primitiveVtoS; rw [h]; rfl
  · intro h; unfold primitiveVtoS; rw [h]; rfl
  · intro h hsz
    have e : primitiveVtoS floatText v
        = if v.size = 0 then .ok "''"
          else if v.size ≤ v.bytes.length then
            .ok (String.mk ('\'' :: (bytesToChars (v.bytes.take v.size) ++ ['\''])))
          else .error (.outOfBounds v.bytes.length) := by
      unfold primitiveVtoS
      rw [h]
      rfl
    rw [e]
    by_cases h0 : v.size = 0
    · have hb : v.bytes = [] := List.length_eq_zero.1 (by omega)
      rw [if_pos h0, hb]
      rfl
    · rw [if_neg h0, if_pos (by omega), hsz, List.take_length]
  · intro h hlen
    have e : primitiveVtoS floatText v
        = if 16 ≤ v.bytes.length then
            .ok (String.mk ('\'' :: (bytesToChars (v.bytes.take 16) ++ ['\''])))
          else .error (.outOfBounds v.bytes.length) := by
      unfold primitiveVtoS
      rw [h]
      rfl
    rw [e, if_pos (by omega), ← hlen, List.take_length]
  · intro h cs hcs
    have e : primitiveVtoS floatText v
        = match cString8 v.bytes with
          | .error e => .error e
          | .ok cs => .ok (String.mk ('\'' :: (bytesToChars cs ++ ['\'']))) := by
      unfold primitiveVtoS
      rw [h]
      rfl
    rw [e, hcs]

/-- C30, amended, on three operands: the `S8` byte `FB` is encoded as `B-5`,
an array of the bytes 1, 2, 3 as `A1.2.3`, and an array without payload as
`A!`. -/
theorem primitiveVtoS_spec_witness :
    primitiveVtoS (fun _ => "") (immediate8 0xFB) = .ok "B-5"
      ∧ primitiveVtoS (fun _ => "")
          { bytes := [1, 2, 3], bytesSet := true, type := DataType.GlobalIntFloatArr, size := 3 }
        = .ok "A1.2.3"
      ∧ primitiveVtoS (fun _ => "") { type := DataType.GlobalIntFloatArr } = .ok "A!" :=
  ⟨((primitiveVtoS_spec (fun _ => "") (immediate8 0xFB)).2.2.2.2.2.2.2.1 rfl).trans (by rfl),
    ((primitiveVtoS_spec (fun _ => "")
      { bytes := [1, 2, 3], bytesSet := true, type := DataType.GlobalIntFloatArr,
        size := 3 }).2.2.2.2.2.2.2.2.2.1 'A' (by decide) rfl).trans (by rfl),
    ((primitiveVtoS_spec (fun _ => "")
      { type := DataType.GlobalIntFloatArr }).2.2.2.2.2.2.2.2.2.1 'A' (by decide) rfl).trans
        (by rfl)⟩

/-! ## For-loops (claim C19) -/

/-- C19 as claimed fails on `loopScript 0x4D`, the script decompiled from
`loopBytes 0x4D` with its conditional resolved: the instruction one slot before
the target 43 of the conditional jump is the `JumpIfFalse` at offset 36, a
conditional jump, and `createForLoops` records a loop under the key 11. -/
theorem createForLoops_counterexample :
    (∃ s cache, Decompiler.decompile (loopBytes 0x4D) loopTable = .ok s
        ∧ s.createIfStatements [] (fun _ => 0) = .ok (loopScript 0x4D "jump_if_false $0", cache))
      ∧ (loopScript 0x4D "jump_if_false $0").commands[6]?.map (fun c => (c.offset, c.opcode))
          = some (36, Opcode.JumpIfFalse)
      ∧ ∃ s1, (loopScript 0x4D "jump_if_false $0").createForLoops = .ok s1
          ∧ mapFind s1.forLoops 11
              = some { counterValue := localRef 5 0
                       setupRange := { start := 0, stop := 0 }
                       checkRange := { start := 11, stop := 11 }
                       incRange := { start := 29, stop := 29 }
                       jumpRange := { start := 36, stop := 36 } } :=
  ⟨⟨_, _, by rfl, by rfl⟩, by rfl, _, by rfl, by rfl⟩

/-! ## Lemmas on `createForLoops` -/

theorem Script.with_offsetsToIndices_self (s : Script) :
    { s with offsetsToIndices := s.offsetsToIndices } = s := by
  cases s
  rfl

theorem indexOf_of_present (s : Script) (k : Int) (i : Nat)
    (h : mapFind s.offsetsToIndices k = some i) : s.indexOf k = (s, i) := by
  unfold Script.indexOf
  have hc : mapContains s.offsetsToIndices k = true := by simp [mapContains, h]
  have hm : mapModify s.offsetsToIndices k 0 id = s.offsetsToIndices := by
    unfold mapModify
    rw [if_pos hc]
    exact mapAdjust_eq_self _ _ _ i h rfl
  rw [hm, Script.with_offsetsToIndices_self, h]
  rfl

theorem indexOf_of_absent (s : Script) (k : Int) (h : mapFind s.offsetsToIndices k = none) :
    (s.indexOf k).2 = 0 := by
  simp [Script.indexOf, h]

theorem mapFind_of_mapContains {κ : Type} {β : Type} [DecidableEq κ] (m : List (κ × β)) (k : κ)
    (h : mapContains m k = true) : ∃ v, mapFind m k = some v := by
  unfold mapContains at h
  cases hf : mapFind m k with
  | none => simp [hf] at h
  | some v => exact ⟨v, rfl⟩

theorem commandAtOffset_eq (s : Script) (n i : Nat) (c : Command)
    (hf : mapFind s.offsetsToIndices (sizeToInt32 n) = some i) (hc : s.commands[i]? = some c) :
    s.commandAtOffset n = .ok (s, c) := by
  unfold Script.commandAtOffset
  rw [indexOf_of_present s _ i hf]
  simp only [hc]

theorem commandBefore_eq (s : Script) (hinv : IndexInvertible s) (i : Nat) (cmd c : Command)
    (hcmd : s.commands[i + 1]? = some cmd) (hc : s.commands[i]? = some c) :
    s.commandBefore cmd = .ok (s, c) := by
  unfold Script.commandBefore
  rw [indexOf_of_present s _ (i + 1) (hinv.2.1 _ _ hcmd)]
  simp only [Nat.add_sub_cancel, hc]
  rfl

theorem commandBefore_zero (s : Script) (hinv : IndexInvertible s) (cmd : Command)
    (hcmd : s.commands[0]? = some cmd) :
    s.commandBefore cmd = .error (.badIndex 18446744073709551615) := by
  unfold Script.commandBefore
  rw [indexOf_of_present s _ 0 (hinv.2.1 _ _ hcmd)]
  rfl

/-- The command before a command of the script, or the fault of the index
that wraps around. -/
theorem commandBefore_cases (s : Script) (hinv : IndexInvertible s) (i : Nat) (cmd : Command)
    (hcmd : s.commands[i]? = some cmd) :
    (i = 0 ∧ s.commandBefore cmd = .error (.badIndex 18446744073709551615))
      ∨ ∃ j c, i = j + 1 ∧ s.commands[j]? = some c ∧ s.commandBefore cmd = .ok (s, c) := by
  cases i with
  | zero => exact Or.inl ⟨rfl, commandBefore_zero s hinv cmd hcmd⟩
  | succ j =>
    have hlt : j + 1 < s.commands.length := by
      by_contra hge
      rw [List.getElem?_eq_none (by omega)] at hcmd
      cases hcmd
    have hc : s.commands[j]? = some s.commands[j] := List.getElem?_eq_getElem (by omega)
    exact Or.inr ⟨j, _, rfl, hc, commandBefore_eq s hinv j cmd _ hcmd hc⟩

/-- The inner `while` loop of `createForLoops` from a command of the script:
it returns a command of the script and leaves the script as it is, or it
indexes out of range; with a budget above the index of the command it does not
use it up. -/
theorem backScan_cases (s : Script) (hinv : IndexInvertible s) (counter : Value) (fuel : Nat) :
    ∀ (i : Nat) (back : Command), s.commands[i]? = some back → i < fuel →
      (∃ (j : Nat) (b : Command),
          s.commands[j]? = some b ∧ Script.backScan counter fuel s back = .ok (s, b))
        ∨ ∃ n, Script.backScan counter fuel s back = .error (.badIndex n) := by
  induction fuel with
  | zero => intro i back _ h; omega
  | succ fuel ih =>
    intro i back hback hi
    simp only [Script.backScan]
    split_ifs with hcond hzero
    · exact Or.inl ⟨i, back, hback, rfl⟩
    · rcases commandBefore_cases s hinv i back hback with ⟨_, herr⟩ | ⟨j, c, hij, hc, hok⟩
      · rw [herr]
        exact Or.inr ⟨_, rfl⟩
      · rw [hok]
        exact ih j c hc (by omega)
    · exact Or.inl ⟨i, back, hback, rfl⟩

theorem commandAtOffset_anchored (s : Script) (hinv : IndexInvertible s) (n : Nat)
    (h : mapContains s.offsetsToIndices (sizeToInt32 n) = true) :
    ∃ i c, mapFind s.offsetsToIndices (sizeToInt32 n) = some i ∧ s.commands[i]? = some c
      ∧ s.commandAtOffset n = .ok (s, c) := by
  obtain ⟨i, hf⟩ := mapFind_of_mapContains _ _ h
  obtain ⟨c, hc, _⟩ := hinv.1 _ _ hf
  exact ⟨i, c, hf, hc, commandAtOffset_eq s n i c hf hc⟩

/-- The second part of an iteration of `createForLoops`: it returns the loop
with the ranges of the jump and of the increment and leaves the script as it
is, or it faults otherwise than by using up its budget. -/
theorem forLoopOf_cases (s : Script) (hinv : IndexInvertible s) (st : FullIf)
    (loopJump incDec : Command)
    (h1 : mapContains s.offsetsToIndices (sizeToInt32 st.conditionStartOffset) = true)
    (h2 : mapContains s.offsetsToIndices
      (sizeToInt32 (toSizeT (sizeToInt32 st.conditionEndOffset))) = true) :
    (∃ loop, Script.forLoopOf (s.commands.length + 1) s st loopJump incDec = .ok (s, loop)
        ∧ loop.jumpRange = OffsetRange.single loopJump.offset
        ∧ loop.incRange = OffsetRange.single incDec.offset)
      ∨ ∃ e, Script.forLoopOf (s.commands.length + 1) s st loopJump incDec = .error e
          ∧ e ≠ .outOfFuel := by
  obtain ⟨ie, ce, _, hce, hate⟩ := commandAtOffset_anchored s hinv _ h2
  obtain ⟨is, cs, _, hcs, hats⟩ := commandAtOffset_anchored s hinv _ h1
  unfold Script.forLoopOf Script.offsetBefore
  simp only [hate]
  rcases commandBefore_cases s hinv ie ce hce with ⟨_, herr⟩ | ⟨j, c, _, _, hok⟩
  · simp only [herr]
    exact Or.inr ⟨_, rfl, by simp⟩
  · simp only [hok]
    cases hp : incDec.parameters with
    | nil => exact Or.inr ⟨_, rfl, by simp⟩
    | cons counter _ =>
      simp only [hats]
      rcases commandBefore_cases s hinv is cs hcs with ⟨_, herr⟩ | ⟨j0, back0, hj0, hb0, hok0⟩
      · simp only [herr]
        exact Or.inr ⟨_, rfl, by simp⟩
      · simp only [hok0]
        have hlt : j0 < s.commands.length + 1 := by
          have : j0 < s.commands.length := by
            by_contra hge
            rw [List.getElem?_eq_none (by omega)] at hb0
            cases hb0
          omega
        rcases backScan_cases s hinv counter _ j0 back0 hb0 hlt with
          ⟨j1, back1, hb1, hscan⟩ | ⟨n, hscan⟩
        · simp only [hscan]
          rcases commandBefore_cases s hinv j1 back1 hb1 with ⟨_, herr⟩ | ⟨j2, back2, _, _, hok2⟩
          · simp only [herr]
            exact Or.inr ⟨_, rfl, by simp⟩
          · simp only [hok2]
            exact Or.inl ⟨_, rfl, rfl, rfl⟩
        · simp only [hscan]
          exact Or.inr ⟨_, rfl, by simp⟩

theorem commandAt?_of_index (s : Script) (k : Int) (i : Nat) (c : Command)
    (hf : mapFind s.offsetsToIndices k = some i) (hc : s.commands[i]? = some c) :
    s.commandAt? k = some c := by
  simp [Script.commandAt?, hf, hc]

/-- The commands of a loop shape are those that the iteration finds. -/
theorem forLoopShape_at (s : Script) (k : Int) (st : FullIf) (loopJump incDec jif : Command)
    (g : Goto) (t : Nat) (h : ForLoopShape s k st loopJump incDec)
    (hjif : s.commandAt? (sizeToInt32 (toSizeT st.jifOffset)) = some jif)
    (hg : Goto.ofCommand jif = .ok g) (ht : mapFind s.offsetsToIndices g.dest = some t) :
    ∃ j, t = j + 2 ∧ s.commands[j + 1]? = some loopJump ∧ s.commands[j]? = some incDec
      ∧ Goto.isJumpOpcode loopJump.opcode = true
      ∧ (∃ b, Goto.ofCommand loopJump = .ok b ∧ b.dest = k)
      ∧ hasPlusMinus incDec.name = true := by
  obtain ⟨jif1, g1, j, hj1, hg1, ht1, hl, hi, hjmp, hb, hpm⟩ := h
  rw [hjif] at hj1
  cases hj1
  rw [hg] at hg1
  cases hg1
  rw [ht] at ht1
  cases ht1
  exact ⟨j, rfl, hl, hi, hjmp, hb, hpm⟩

/-- One iteration of `createForLoops`, for a conditional that is anchored in a
script with an invertible offset index: it leaves the script as it is and
yields a loop exactly for a conditional with a loop shape, or it faults
otherwise than by using up its budget. -/
theorem forLoopStep_cases (s : Script) (hinv : IndexInvertible s) (k : Int) (st : FullIf)
    (h0 : mapContains s.offsetsToIndices (sizeToInt32 (toSizeT st.jifOffset)) = true)
    (h1 : mapContains s.offsetsToIndices (sizeToInt32 st.conditionStartOffset) = true)
    (h2 : mapContains s.offsetsToIndices
      (sizeToInt32 (toSizeT (sizeToInt32 st.conditionEndOffset))) = true) :
    (∃ r, Script.forLoopStep (s.commands.length + 1) s k st = .ok (s, r)
        ∧ (r = none → ¬ ∃ loopJump incDec, ForLoopShape s k st loopJump incDec)
        ∧ (∀ loop, r = some loop → ∃ loopJump incDec, ForLoopShape s k st loopJump incDec
            ∧ loop.jumpRange = OffsetRange.single loopJump.offset
            ∧ loop.incRange = OffsetRange.single incDec.offset))
      ∨ ∃ e, Script.forLoopStep (s.commands.length + 1) s k st = .error e ∧ e ≠ .outOfFuel := by
  obtain ⟨ia, jif, hfa, hca, hat⟩ := commandAtOffset_anchored s hinv _ h0
  have hjif := commandAt?_of_index s _ ia jif hfa hca
  unfold Script.forLoopStep
  simp only [hat]
  cases hg : Goto.ofCommand jif with
  | error e =>
    refine Or.inr ⟨e, rfl, ?_⟩
    rcases Goto.ofCommand_error jif e hg with he | he <;> rw [he] <;> simp
  | ok g =>
    simp only []
    cases hT : mapFind s.offsetsToIndices g.dest with
    | none =>
      rw [if_pos (indexOf_of_absent s _ hT)]
      exact Or.inr ⟨_, rfl, by simp⟩
    | some t =>
      rw [indexOf_of_present s _ t hT]
      cases t with
      | zero =>
        simp only [if_true]
        exact Or.inr ⟨_, rfl, by simp⟩
      | succ t1 =>
        obtain ⟨ct, hct, _⟩ := hinv.1 _ _ hT
        have hlt : t1 + 1 < s.commands.length := by
          by_contra hge
          rw [List.getElem?_eq_none (by omega)] at hct
          cases hct
        obtain ⟨loopJump, hlj⟩ : ∃ c, s.commands[t1]? = some c :=
          ⟨_, List.getElem?_eq_getElem (by omega)⟩
        simp only [Nat.add_one_ne_zero, if_false, Nat.add_sub_cancel, hlj]
        by_cases hjmp : Goto.isJumpOpcode loopJump.opcode = true
        · simp only [hjmp, if_true]
          cases hb : Goto.ofCommand loopJump with
          | error e =>
            refine Or.inr ⟨e, rfl, ?_⟩
            rcases Goto.ofCommand_error loopJump e hb with he | he <;> rw [he] <;> simp
          | ok back =>
            simp only []
            by_cases hdest : back.dest = k
            · simp only [hdest, ne_eq, not_true_eq_false, if_false]
              rcases commandBefore_cases s hinv t1 loopJump hlj with ⟨_, herr⟩ |
                ⟨j, incDec, hj, hinc, hok⟩
              · simp only [herr]
                exact Or.inr ⟨_, rfl, by simp⟩
              · simp only [hok]
                by_cases hpm : hasPlusMinus incDec.name = true
                · simp only [hpm, if_true]
                  rcases forLoopOf_cases s hinv st loopJump incDec h1 h2 with
                    ⟨loop, hof, hjr, hir⟩ | ⟨e, hof, hne⟩
                  · simp only [hof]
                    refine Or.inl ⟨some loop, rfl, (fun hn => by cases hn), ?_⟩
                    intro loop1 hl1
                    cases hl1
                    refine ⟨loopJump, incDec, ⟨jif, g, j, hjif, hg, ?_, ?_, hinc, hjmp,
                      ⟨back, hb, hdest⟩, hpm⟩, hjr, hir⟩
                    · rw [hT, hj]
                    · rw [← hj]; exact hlj
                  · simp only [hof]
                    exact Or.inr ⟨e, rfl, hne⟩
                · simp only [hpm, Bool.false_eq_true, if_false]
                  refine Or.inl ⟨none, rfl, fun _ => ?_, fun loop hl => by cases hl⟩
                  rintro ⟨lj1, id1, hshape⟩
                  obtain ⟨j1, ht1, _, hid1, _, _, hpm1⟩ :=
                    forLoopShape_at s k st lj1 id1 jif g _ hshape hjif hg hT
                  have hjj : j1 = j := by omega
                  rw [hjj, hinc] at hid1
                  cases hid1
                  exact hpm hpm1
            · simp only [ne_eq, hdest, not_false_eq_true, if_true]
              refine Or.inl ⟨none, rfl, fun _ => ?_, fun loop hl => by cases hl⟩
              rintro ⟨lj1, id1, hshape⟩
              obtain ⟨j1, ht1, hlj1, _, _, ⟨b1, hb1, hd1⟩, _⟩ :=
                forLoopShape_at s k st lj1 id1 jif g _ hshape hjif hg hT
              have hjj : j1 + 1 = t1 := by omega
              rw [hjj, hlj] at hlj1
              cases hlj1
              rw [hb] at hb1
              cases hb1
              exact hdest hd1
        · simp only [hjmp, Bool.false_eq_true, if_false]
          refine Or.inl ⟨none, rfl, fun _ => ?_, fun loop hl => by cases hl⟩
          rintro ⟨lj1, id1, hshape⟩
          obtain ⟨j1, ht1, hlj1, _, hjmp1, _, _⟩ :=
            forLoopShape_at s k st lj1 id1 jif g _ hshape hjif hg hT
          have hjj : j1 + 1 = t1 := by omega
          rw [hjj, hlj] at hlj1
          cases hlj1
          exact hjmp hjmp1

theorem indexInvertible_congr (s s0 : Script) (hc : s.commands = s0.commands)
    (ho : s.offsetsToIndices = s0.offsetsToIndices) (h : IndexInvertible s0) :
    IndexInvertible s := by
  unfold IndexInvertible at h ⊢
  rw [hc, ho]
  exact h

theorem forLoopShape_congr (s s0 : Script) (k : Int) (st : FullIf) (loopJump incDec : Command)
    (hc : s.commands = s0.commands) (ho : s.offsetsToIndices = s0.offsetsToIndices) :
    ForLoopShape s k st loopJump incDec ↔ ForLoopShape s0 k st loopJump incDec := by
  unfold ForLoopShape Script.commandAt?
  rw [hc, ho]

/-- What the loop of `createForLoops` over `entries` does to `forLoops`, from
a state with the commands and the offset index of `s0`. -/
theorem forLoopLoop_spec (s0 : Script) (hinv : IndexInvertible s0)
    (entries : List (Int × FullIf))
    (hanch : ∀ e ∈ entries,
      mapContains s0.offsetsToIndices (sizeToInt32 (toSizeT e.2.jifOffset)) = true
        ∧ mapContains s0.offsetsToIndices (sizeToInt32 e.2.conditionStartOffset) = true
        ∧ mapContains s0.offsetsToIndices
            (sizeToInt32 (toSizeT (sizeToInt32 e.2.conditionEndOffset))) = true) :
    ∀ s : Script, s.commands = s0.commands → s.offsetsToIndices = s0.offsetsToIndices →
      Script.forLoopLoop (s0.commands.length + 1) entries s ≠ .error .outOfFuel
        ∧ ∀ s1, Script.forLoopLoop (s0.commands.length + 1) entries s = .ok s1 →
            (∀ k, mapContains s1.forLoops k = true ↔
                mapContains s.forLoops k = true
                  ∨ ∃ st loopJump incDec, (k, st) ∈ entries
                      ∧ ForLoopShape s0 k st loopJump incDec)
              ∧ (∀ k loop, mapFind s1.forLoops k = some loop →
                  mapFind s.forLoops k = some loop
                    ∨ ∃ st loopJump incDec, (k, st) ∈ entries
                        ∧ ForLoopShape s0 k st loopJump incDec
                        ∧ loop.jumpRange = OffsetRange.single loopJump.offset
                        ∧ loop.incRange = OffsetRange.single incDec.offset) := by
  induction entries with
  | nil =>
    intro s _ _
    refine ⟨by simp [Script.forLoopLoop], fun s1 h => ?_⟩
    simp only [Script.forLoopLoop, Except.ok.injEq] at h
    subst h
    exact ⟨by simp, fun k loop hl => Or.inl hl⟩
  | cons e rest ih =>
    intro s hc ho
    obtain ⟨k0, st0⟩ := e
    have hanch1 := fun e1 he1 => hanch e1 (List.mem_cons_of_mem _ he1)
    obtain ⟨a0, a1, a2⟩ := hanch (k0, st0) (List.mem_cons_self _ _)
    have hinvs := indexInvertible_congr s s0 hc ho hinv
    have hstep := forLoopStep_cases s hinvs k0 st0 (by rw [ho]; exact a0) (by rw [ho]; exact a1)
      (by rw [ho]; exact a2)
    rw [hc] at hstep
    simp only [Script.forLoopLoop]
    rcases hstep with ⟨r, hr, hnone, hsome⟩ | ⟨e1, he1, hne⟩
    · simp only [hr]
      cases r with
      | none =>
        simp only []
        obtain ⟨hfuel, hspec⟩ := ih hanch1 s hc ho
        refine ⟨hfuel, fun s1 h1 => ?_⟩
        obtain ⟨hk, hv⟩ := hspec s1 h1
        have hno : ∀ lj id, ¬ ForLoopShape s0 k0 st0 lj id := fun lj id hsh =>
          hnone rfl ⟨lj, id, (forLoopShape_congr s s0 k0 st0 lj id hc ho).2 hsh⟩
        refine ⟨fun k => ?_, fun k loop hl => ?_⟩
        · rw [hk k]
          constructor
          · rintro (hx | ⟨st, lj, id, hm, hsh⟩)
            · exact Or.inl hx
            · exact Or.inr ⟨st, lj, id, List.mem_cons_of_mem _ hm, hsh⟩
          · rintro (hx | ⟨st, lj, id, hm, hsh⟩)
            · exact Or.inl hx
            · rcases List.mem_cons.1 hm with he | hm1
              · cases he
                exact absurd hsh (hno lj id)
              · exact Or.inr ⟨st, lj, id, hm1, hsh⟩
        · rcases hv k loop hl with hx | ⟨st, lj, id, hm, hsh⟩
          · exact Or.inl hx
          · exact Or.inr ⟨st, lj, id, List.mem_cons_of_mem _ hm, hsh⟩
      | some loop0 =>
        simp only []
        obtain ⟨lj0, id0, hsh0, hjr0, hir0⟩ := hsome loop0 rfl
        have hsh00 := (forLoopShape_congr s s0 k0 st0 lj0 id0 hc ho).1 hsh0
        obtain ⟨hfuel, hspec⟩ := ih hanch1 (s.setForLoop k0 loop0) hc ho
        refine ⟨hfuel, fun s1 h1 => ?_⟩
        obtain ⟨hk, hv⟩ := hspec s1 h1
        have hset : ∀ k, mapContains (s.setForLoop k0 loop0).forLoops k
            = (decide (k0 = k) || mapContains s.forLoops k) :=
          fun k => mapContains_mapSet _ _ _ _
        have hfind : ∀ k, mapFind (s.setForLoop k0 loop0).forLoops k
            = if k0 = k then some loop0 else mapFind s.forLoops k :=
          fun k => mapFind_mapSet _ _ _ _
        refine ⟨fun k => ?_, fun k loop hl => ?_⟩
        · rw [hk k, hset k]
          constructor
          · rintro (hx | ⟨st, lj, id, hm, hsh⟩)
            · simp only [Bool.or_eq_true, decide_eq_true_eq] at hx
              rcases hx with hx | hx
              · subst hx
                exact Or.inr ⟨st0, lj0, id0, List.mem_cons_self _ _, hsh00⟩
              · exact Or.inl hx
            · exact Or.inr ⟨st, lj, id, List.mem_cons_of_mem _ hm, hsh⟩
          · rintro (hx | ⟨st, lj, id, hm, hsh⟩)
            · exact Or.inl (by simp [hx])
            · rcases List.mem_cons.1 hm with he | hm1
              · cases he
                exact Or.inl (by simp)
              · exact Or.inr ⟨st, lj, id, hm1, hsh⟩
        · rcases hv k loop hl with hx | ⟨st, lj, id, hm, hsh⟩
          · rw [hfind k] at hx
            by_cases hkk : k0 = k
            · subst hkk
              simp only [if_true, Option.some.injEq] at hx
              subst hx
              exact Or.inr ⟨st0, lj0, id0, List.mem_cons_self _ _, hsh00, hjr0, hir0⟩
            · simp only [hkk, if_false] at hx
              exact Or.inl hx
          · exact Or.inr ⟨st, lj, id, List.mem_cons_of_mem _ hm, hsh⟩
    · simp only [he1]
      refine ⟨?_, fun s1 h1 => by cases h1⟩
      intro hcon
      simp only [Except.error.injEq] at hcon
      exact hne hcon

/-- C19, amended: for a script with an invertible offset index whose resolved
conditionals are anchored at commands of the script, and with empty
`forLoops`, `createForLoops` does not use up the budget of its inner loop, and
after it has returned an offset `k` is a key of `forLoops` if and only if `k`
is a resolved conditional anchor, the instruction one slot before the target of
its conditional jump is a jump-class command (`Jump`, `JumpIfFalse` or `Call`)
whose destination is `k`, and the instruction immediately before that jump has
a name containing `+` or `-`; the recorded loop then has its `jumpRange` at
that jump's offset and its `incRange` at the preceding instruction's offset. -/
theorem createForLoops_spec (s : Script) (hinv : IndexInvertible s) (hanch : IfsAnchored s)
    (hempty : s.forLoops = []) :
    s.createForLoops ≠ .error .outOfFuel
      ∧ ∀ s1, s.createForLoops = .ok s1 →
          (∀ k, mapContains s1.forLoops k = true ↔
              ∃ st loopJump incDec, (k, st) ∈ s.ifStatements
                ∧ ForLoopShape s k st loopJump incDec)
            ∧ ∀ k loop, mapFind s1.forLoops k = some loop →
                ∃ st loopJump incDec, (k, st) ∈ s.ifStatements
                  ∧ ForLoopShape s k st loopJump incDec
                  ∧ loop.jumpRange = OffsetRange.single loopJump.offset
                  ∧ loop.incRange = OffsetRange.single incDec.offset := by
  obtain ⟨hfuel, hspec⟩ := forLoopLoop_spec s hinv s.ifStatements hanch s rfl rfl
  refine ⟨hfuel, fun s1 h1 => ?_⟩
  obtain ⟨hk, hv⟩ := hspec s1 h1
  refine ⟨fun k => ?_, fun k loop hl => ?_⟩
  · rw [hk k, hempty]
    constructor
    · rintro (hx | hx)
      · simp [mapContains, mapFind] at hx
      · exact hx
    · intro hx
      exact Or.inr hx
  · rcases hv k loop hl with hx | hx
    · rw [hempty] at hx
      simp [mapFind] at hx
    · exact hx

/-- C19, amended, on `loopScript 0x2`, whose loop ends with the `Jump` at
offset 36 back to offset 11: `createForLoops` returns and records the loop
under the key 11. -/
theorem createForLoops_spec_witness :
    (loopScript 0x2 "jump $0").createForLoops ≠ .error .outOfFuel
      ∧ (∃ s1, (loopScript 0x2 "jump $0").createForLoops = .ok s1
          ∧ mapContains s1.forLoops 11 = true)
      ∧ ∀ s1, (loopScript 0x2 "jump $0").createForLoops = .ok s1 →
          (∀ k, mapContains s1.forLoops k = true ↔
              ∃ st loopJump incDec, (k, st) ∈ (loopScript 0x2 "jump $0").ifStatements
                ∧ ForLoopShape (loopScript 0x2 "jump $0") k st loopJump incDec)
            ∧ ∀ k loop, mapFind s1.forLoops k = some loop →
                ∃ st loopJump incDec, (k, st) ∈ (loopScript 0x2 "jump $0").ifStatements
                  ∧ ForLoopShape (loopScript 0x2 "jump $0") k st loopJump incDec
                  ∧ loop.jumpRange = OffsetRange.single loopJump.offset
                  ∧ loop.incRange = OffsetRange.single incDec.offset :=
  ⟨(createForLoops_spec (loopScript 0x2 "jump $0") (indexInvertible_of_check _ (by decide))
      (by unfold IfsAnchored; decide) rfl).1,
    ⟨_, by rfl, by rfl⟩,
    (createForLoops_spec (loopScript 0x2 "jump $0") (indexInvertible_of_check _ (by decide))
      (by unfold IfsAnchored; decide) rfl).2⟩

/-! ## The condition counts of `ifInfo` (claim C31) -/

/-- C31 fails in the code: `FullIf::ifInfo` does not mark the sub-code bytes 8
to 20 `Invalid`. It returns the combination `Or` for them, with the counts
245 to 255 for the bytes 8 to 18, the count 0 for the byte 19 and the count 1
for the byte 20; for every byte from 8 to 19 the count lies outside 1..8. The
byte 21 gives the count 2, and the constructor `IfCommand::IfCommand`, which
subtracts 29, gives 248 for it. -/
theorem ifInfo_count_out_of_range :
    FullIf.ifInfo (ifCommand 0 0 8) = .ok (245, .Or)
      ∧ FullIf.ifInfo (ifCommand 0 0 18) = .ok (255, .Or)
      ∧ FullIf.ifInfo (ifCommand 0 0 19) = .ok (0, .Or)
      ∧ FullIf.ifInfo (ifCommand 0 0 20) = .ok (1, .Or)
      ∧ FullIf.ifInfo (ifCommand 0 0 21) = .ok (2, .Or)
      ∧ IfCommand.ofByte 21 = (248, .Or)
      ∧ ∀ b : Byte, 8 ≤ b.val ∧ b.val ≤ 19 →
          ∃ n, FullIf.ifInfo (ifCommand 0 0 b) = .ok (n, .Or) ∧ ¬ (1 ≤ n ∧ n ≤ 8) := by
  refine ⟨rfl, rfl, rfl, rfl, rfl, rfl, fun b hb => ?_⟩
  have h1 : ¬ b.val = 0 := by omega
  have h2 : ¬ b.val < 8 := by omega
  have h3 : b.val < 28 := by omega
  refine ⟨(b.val + 256 - 19) % 256, ?_, by omega⟩
  unfold FullIf.ifInfo ifCommand
  simp only [Value.castUInt8, h1, h2, h3, if_false, if_true]

/-! ## The keys of `ifStatements` after `createWhileLoops` (claim C32) -/

/-- C32 fails in the code: on the script decompiled from `unresolvedIfBytes`,
`createIfStatements` resolves no conditional, since no `JumpIfFalse` follows
the `If` at offset 0, and `createWhileLoops` then adds the key 0 to
`ifStatements`, with a value-initialised conditional whose flow kind is
`FlowWhile`, for the `Jump` at offset 8 back to offset 0. -/
theorem createWhileLoops_adds_conditional :
    ∃ s, Decompiler.decompile unresolvedIfBytes loopTable = .ok s
      ∧ s.commands.map (fun c => (c.offset, c.opcode)) = [(0, 0xD6), (4, 1), (8, 2)]
      ∧ ∃ s1 cache, s.createIfStatements [] (fun _ => 0) = .ok (s1, cache)
          ∧ s1.ifStatements = []
          ∧ s1.createWhileLoops []
              = .ok ({ s1 with ifStatements := [(0, { flowType := .FlowWhile })] }, [8]) :=
  ⟨_, rfl, rfl, _, _, rfl, rfl, rfl⟩

/-! ## The offset index after the passes (claim C33) -/

/-- C33 fails in the code: on the script decompiled from `strayTargetBytes`,
whose `Jump` at offset 4 targets the offset 2 of no command,
`createWhileLoops` adds the key 2 to `offsetsToIndices`, with the index 0 of
the command at offset 0. -/
theorem createWhileLoops_adds_offset :
    ∃ s, Decompiler.decompile strayTargetBytes jumpTable = .ok s
      ∧ s.commands.map (fun c => (c.offset, c.opcode)) = [(0, 1), (4, 2)]
      ∧ s.offsetsToIndices = [(0, 0), (4, 1)]
      ∧ s.createWhileLoops []
          = .ok ({ s with offsetsToIndices := [(0, 0), (2, 0), (4, 1)] }, []) :=
  ⟨_, rfl, rfl, rfl, rfl⟩

/-! ## Lemmas on `optimizeScript` -/

theorem mem_allEdges_cons (entry : Int × List Goto) (m : List (Int × List Goto)) (e : Goto) :
    e ∈ allEdges (entry :: m) ↔ e ∈ entry.2 ∨ e ∈ allEdges m := by
  unfold allEdges
  simp only [List.map_cons, List.flatten_cons, List.mem_append]

theorem mem_allEdges_mapInsertNew (m : List (Int × List Goto)) (k : Int) (v : List Goto)
    (e : Goto) : e ∈ allEdges (mapInsertNew m k v) ↔ e ∈ v ∨ e ∈ allEdges m := by
  induction m with
  | nil => simp [mapInsertNew, allEdges]
  | cons a m ih =>
    obtain ⟨k1, v1⟩ := a
    simp only [mapInsertNew]
    split_ifs with hlt
    · rw [mem_allEdges_cons]
    · rw [mem_allEdges_cons, ih, mem_allEdges_cons]
      tauto

theorem mem_allEdges_mapAdjust (m : List (Int × List Goto)) (k : Int) (jump e : Goto)
    (hc : mapContains m k = true) :
    e ∈ allEdges (mapAdjust m k (fun set => setInsert set jump)) ↔ e = jump ∨ e ∈ allEdges m := by
  induction m with
  | nil => simp [mapContains, mapFind] at hc
  | cons a m ih =>
    obtain ⟨k1, v1⟩ := a
    simp only [mapAdjust]
    by_cases hk : k1 = k
    · simp only [hk, if_true]
      rw [mem_allEdges_cons, mem_allEdges_cons, mem_setInsert]
      tauto
    · simp only [hk, if_false]
      have hc1 : mapContains m k = true := by
        simpa [mapContains, mapFind, hk] using hc
      rw [mem_allEdges_cons, mem_allEdges_cons, ih hc1]
      tauto

theorem mem_allEdges_mapModify (m : List (Int × List Goto)) (k : Int) (jump e : Goto) :
    e ∈ allEdges (mapModify m k [] (fun set => setInsert set jump))
      ↔ e = jump ∨ e ∈ allEdges m := by
  unfold mapModify
  split_ifs with hc
  · exact mem_allEdges_mapAdjust m k jump e hc
  · rw [mem_allEdges_mapInsertNew]
    simp [setInsert, setHas, setPlace]

theorem indexInvertible_decompile (bytes : List Byte) (table : OpcodeTable) (s : Script)
    (hlen : bytes.length ≤ 2147483648) (h : Decompiler.decompile bytes table = .ok s) :
    IndexInvertible s := by
  obtain ⟨st, hrun, hst⟩ := decompile_eq_ok bytes table s h
  subst hst
  obtain ⟨h1, h2, _⟩ := offsetIndexExact_run bytes table st hlen hrun
  have hcur := run_cursor bytes table st hrun
  refine ⟨h2, fun i c hc => (h1 i c hc).2.2.2, fun c hm => ?_⟩
  obtain ⟨i, hi⟩ := List.getElem?_of_mem hm
  obtain ⟨_, h0, hlt, _⟩ := h1 i c hi
  refine ⟨h0, ?_⟩
  have : Int.ofNat st.cursor ≤ 2147483648 := by
    rw [hcur]
    simp only [Int.ofNat_eq_coe]
    omega
  omega

/-- C35 fails in the code: with eleven operand texts, `replaceTokens` turns the
placeholder `$10` of the template `$10 = $0` into the second operand followed
by the character `0`, not into the eleventh operand; a placeholder of one
digit, as in `$9 = $0`, is replaced by its operand. -/
theorem replaceTokens_two_digits :
    replaceTokens "$10 = $0" ["a", "b", "c", "d", "e", "f", "g", "h", "i", "j", "k"]
        = .ok "b0 = a"
      ∧ replaceTokens "$9 = $0" ["a", "b", "c", "d", "e", "f", "g", "h", "i", "j", "k"]
        = .ok "j = a" :=
  ⟨by rfl, by rfl⟩

/-! ## The effective offset of a jump (claim C36) -/

/-- C36 fails in the code: for the `Jump` at offset 0 whose stored target is
-7, `effectiveOffset` returns -7, and the destination of `Goto(c)`, recorded in
the jump index, is 7. -/
theorem effectiveOffset_negative :
    negativeJump.opcode = Opcode.Jump
      ∧ negativeJump.effectiveOffset = .ok (-7)
      ∧ Goto.ofCommand negativeJump = .ok ⟨0, 7, 0x2⟩ :=
  ⟨rfl, rfl, rfl⟩

/-! ## Lemmas on the fields of a jump edge -/

theorem leNat_lt (bs : List Byte) : leNat bs < 256 ^ bs.length := by
  induction bs with
  | nil => simp [leNat]
  | cons b bs ih =>
    have hb := b.isLt
    simp only [leNat, List.length_cons, pow_succ]
    omega

theorem toInt32_leNat (bs : List Byte) (h : bs.length = 4) :
    toInt32 (Int.ofNat (leNat bs)) = signed32 bs := by
  have hlt := leNat_lt bs
  rw [h] at hlt
  unfold toInt32 signed32
  simp only [Int.ofNat_eq_coe]
  split_ifs with hs <;> omega

theorem signed32_range (bs : List Byte) (h : bs.length = 4) :
    -2147483648 ≤ signed32 bs ∧ signed32 bs < 2147483648 := by
  have hlt := leNat_lt bs
  rw [h] at hlt
  unfold signed32
  simp only [Int.ofNat_eq_coe]
  split_ifs with hs <;> omega

theorem abs32_eq_natAbs (t : Int) (h0 : -2147483648 < t) (h1 : t < 2147483648) :
    abs32 t = Int.ofNat t.natAbs := by
  unfold abs32 toInt32
  simp only [Int.ofNat_eq_coe]
  omega

/-! ## The fields of a jump edge (claim C37) -/

/-- C37 as claimed fails for the stored target -2147483648 (the bytes 00 00 00
80): its absolute value 2147483648 is not a value of the `int32_t` field
`dest`, `std::abs` has no defined result for it, and the wrapped value that
`dest` gets is -2147483648. -/
theorem goto_dest_counterexample :
    Goto.isJumpOpcode (jumpCommand 0x2 0 0 [0, 0, 0, 0x80]).opcode = true
      ∧ signed32 [0, 0, 0, 0x80] = -2147483648
      ∧ Goto.ofCommand (jumpCommand 0x2 0 0 [0, 0, 0, 0x80]) = .ok ⟨0, -2147483648, 0x2⟩
      ∧ (-2147483648 : Int) ≠ Int.ofNat (signed32 [0, 0, 0, 0x80]).natAbs :=
  ⟨rfl, rfl, rfl, by decide⟩

/-- C37, amended: for a jump-class command `c` with a first operand and a
non-negative offset, `Goto(c)` has `source = c.offset`, `jumpOpcode = c.opcode`
and `dest = |t|`, where `t` is the little-endian signed 32-bit value of the
first four payload bytes of the operand, when `t` is not -2147483648; and when
the operand carries fewer than four payload bytes, `dest` is 0. -/
theorem goto_fields (c : Command) (p : Value) (ps : List Value)
    (hj : Goto.isJumpOpcode c.opcode = true) (hp : c.parameters = p :: ps)
    (h0 : 0 ≤ c.offset) (h1 : c.offset < 2147483648) :
    ∃ g, Goto.ofCommand c = .ok g ∧ g.source = c.offset ∧ g.jumpOpcode = c.opcode
      ∧ (4 ≤ p.bytes.length → signed32 (p.bytes.take 4) ≠ -2147483648 →
          g.dest = Int.ofNat (signed32 (p.bytes.take 4)).natAbs)
      ∧ (p.bytes.length < 4 → g.dest = 0) := by
  refine ⟨⟨abs32 c.offset, abs32 p.castInt32, c.opcode⟩, ?_, abs32_of_offset _ h0 h1, rfl, ?_, ?_⟩
  · unfold Goto.ofCommand
    simp only [hj, if_true, hp]
  · intro h4 hne
    have hlen : (p.bytes.take 4).length = 4 := by
      rw [List.length_take]; omega
    have hr := signed32_range _ hlen
    show abs32 p.castInt32 = _
    unfold Value.castInt32
    rw [if_pos h4, toInt32_leNat _ hlen]
    exact abs32_eq_natAbs _ (by omega) hr.2
  · intro h4
    show abs32 p.castInt32 = 0
    unfold Value.castInt32
    rw [if_neg (by omega)]
    rfl

/-- C37, amended, at a `Jump` at offset 0 whose stored target is -7, with the
destination 7, and at a `Jump` whose target is an 8-bit immediate, with the
destination 0. -/
theorem goto_fields_witness :
    (∃ g, Goto.ofCommand negativeJump = .ok g ∧ g.source = 0 ∧ g.jumpOpcode = 0x2
        ∧ signed32 [0xF9, 0xFF, 0xFF, 0xFF] = -7 ∧ g.dest = 7)
      ∧ ∃ g, Goto.ofCommand shortJump = .ok g ∧ g.source = 0 ∧ g.jumpOpcode = 0x2
          ∧ g.dest = 0 := by
  constructor
  · obtain ⟨g, hg, hs, ho, hd, _⟩ := goto_fields negativeJump
      { bytes := [0xF9, 0xFF, 0xFF, 0xFF], bytesSet := true, type := 1, size := 4 } []
      rfl rfl (by decide) (by decide)
    exact ⟨g, hg, hs, ho, rfl, by rw [hd (by decide) (by decide)]; rfl⟩
  · obtain ⟨g, hg, hs, ho, _, hd⟩ := goto_fields shortJump (immediate8 5) []
      rfl rfl (by decide) (by decide)
    exact ⟨g, hg, hs, ho, hd (by decide)⟩

/-! ## The text of an `S8` operand (claim C38) -/

/-- C38 fails in the code: for the `S8` operand with the one payload byte
0xFF, `valueToString` renders 255, and `primitiveVtoS` writes -1 after its
`B` tag. -/
theorem valueToString_unsigned :
    (immediate8 0xFF).type = DataType.S8
      ∧ valueToString (fun _ => "") (immediate8 0xFF) = .ok "255"
      ∧ primitiveVtoS (fun _ => "") (immediate8 0xFF) = .ok "B-1" :=
  ⟨rfl, rfl, rfl⟩

/-! ## Lemmas on `removeDeadCode` -/

theorem mem_allEdges_addJump_sources (s : Script) (jump e : Goto) :
    e ∈ allEdges (s.addJump jump).jumpSources ↔ e = jump ∨ e ∈ allEdges s.jumpSources := by
  unfold Script.addJump
  exact mem_allEdges_mapModify _ _ _ _

theorem sourcesOfCommands_step (bytes : List Byte) (st st1 : DecompileState)
    (h0 : ∀ e ∈ allEdges st.script.jumpSources, ∃ c ∈ st.script.commands, Goto.ofCommand c = .ok e)
    (h : Decompiler.step bytes st = .ok st1) :
    ∀ e ∈ allEdges st1.script.jumpSources, ∃ c ∈ st1.script.commands,
      Goto.ofCommand c = .ok e := by
  unfold Decompiler.step at h
  cases hr : Command.read st.table bytes st.cursor with
  | error e => simp [hr] at h
  | ok r =>
    obtain ⟨cmd, cur, table⟩ := r
    simp only [hr] at h
    by_cases hz : cmd.opcode = 0
    · simp only [hz, if_true, Except.ok.injEq] at h
      subst h
      exact h0
    · simp only [hz, if_false] at h
      split_ifs at h with hj
      · split at h
        · simp at h
        · rename_i jump hg
          simp only [Except.ok.injEq] at h
          subst h
          intro e he
          rcases (mem_allEdges_addJump_sources _ _ _).1 he with he1 | he1
          · subst he1
            exact ⟨_, by simp [addJump_commands], hg⟩
          · obtain ⟨c, hm, hg1⟩ := h0 e he1
            exact ⟨c, by simp [addJump_commands, hm], hg1⟩
      · simp only [Except.ok.injEq] at h
        subst h
        intro e he
        obtain ⟨c, hm, hg1⟩ := h0 e he
        exact ⟨c, by simp [hm], hg1⟩

/-- After `Decompiler::decompile` on a buffer of at most 2^31 bytes, every edge
recorded in `jumpSources` has the opcode of the command that its source
indexes. -/
theorem sourcesMatch_decompile (bytes : List Byte) (table : OpcodeTable) (s : Script)
    (hlen : bytes.length ≤ 2147483648) (h : Decompiler.decompile bytes table = .ok s) :
    SourcesMatch s := by
  have hinv := indexInvertible_decompile bytes table s hlen h
  obtain ⟨st, hrun, hst⟩ := decompile_eq_ok bytes table s h
  subst hst
  unfold Decompiler.run at hrun
  have hsrc := (Decompiler.loop_induct bytes
    (fun st => ∀ e ∈ allEdges st.script.jumpSources, ∃ c ∈ st.script.commands,
      Goto.ofCommand c = .ok e)
    (fun st st1 h0 _ hs => sourcesOfCommands_step bytes st st1 h0 hs) _ _ _
    (fun e he => by simp [allEdges] at he) hrun).1
  intro entry he jump hj
  have hmem : jump ∈ allEdges st.script.jumpSources := by
    unfold allEdges
    simp only [List.mem_flatten, List.mem_map]
    exact ⟨entry.2, ⟨entry, he, rfl⟩, hj⟩
  obtain ⟨c, hcm, hg⟩ := hsrc jump hmem
  obtain ⟨i, hi⟩ := List.getElem?_of_mem hcm
  have hfind := hinv.2.1 i c hi
  obtain ⟨h0, h1⟩ := hinv.2.2 c hcm
  unfold Goto.ofCommand at hg
  split_ifs at hg
  split at hg
  · cases hg
  · simp only [Except.ok.injEq] at hg
    subst hg
    simp only [Script.look, abs32_of_offset _ h0 h1, hfind, Option.getD_some, hi, Option.map_some']

/-- C40 fails in the code: after `createIfStatements` has run on the script
decompiled from `cacheBytes`, whose one `If` is the command at index 1, the
static cache holds the index 1, and a run on the script decompiled from
`resolvedIfBytes` then examines its command at index 1 and records no
conditional; run with the cache empty, it records the conditional at
offset 0. -/
theorem createIfStatements_stale_cache :
    ∃ a b, Decompiler.decompile cacheBytes ifTable = .ok a
      ∧ Decompiler.decompile resolvedIfBytes ifTable = .ok b
      ∧ (∃ a1, a.createIfStatements [] (fun _ => 0) = .ok (a1, [1]))
      ∧ (∃ b1, b.createIfStatements [1] (fun _ => 0) = .ok (b1, [1]) ∧ b1.ifStatements = [])
      ∧ ∃ b2, b.createIfStatements [] (fun _ => 0) = .ok (b2, [0])
          ∧ b2.ifStatements
              = [(0, { combination := .None, conditionCount := 1, jifOffset := 11,
                       conditionStartOffset := 0, conditionEndOffset := 4,
                       bodyStartOffset := 18, bodyEndOffset := 22 })] :=
  ⟨_, _, rfl, rfl, ⟨_, rfl⟩, ⟨_, rfl, rfl⟩, _, rfl, rfl⟩

end miss2
